import Mathlib

/-!
# Campus navigator: routing engine of `script.js`

A shallow embedding of the `PriorityQueue` and `Graph` classes of `script.js`
(`addVertex`, `addEdge`, `dijkstra`, `findAllPaths`, `getLocationName`), of the
construction of `campusGraph` and `pathDetails` and of `getPathDetail`, together with
the properties of the shortest-path search and of the bounded path enumeration.

Modelling conventions.

* Location identifiers are JavaScript strings: the keys of `adjacencyList` are property
  keys, the `for ... in` loop of `dijkstra` yields them as strings and compares them with
  `===`, and the application passes the string ids `'1'` .. `'8'`.
* Edge weights are integers (`Int`), of either sign; a distance is an integer or
  `+Infinity` (`JsNum`). Arithmetic is exact.
* A JavaScript object used as a dictionary is an association list of its own properties,
  kept in property enumeration order; keys inherited from `Object.prototype` are looked
  up where the code reads them with `[]`.
* The `while` loops of `dijkstra` carry a fuel argument; running out of fuel is the
  result `none`. The recursion of `dfs` is bounded by `maxDepth`, and `findAllPaths`
  supplies the fuel itself.
* A thrown `TypeError` is an error result.
-/

set_option linter.unnecessarySeqFocus false

namespace Navigator

/-! ## Numbers -/

/-- A number as it occurs in the routing code: a finite integer or `+Infinity`. -/
inductive JsNum where
  | fin (n : Int)
  | inf
  deriving DecidableEq, Repr

namespace JsNum

/-- The sum `a + w` of a number and a finite weight (`Infinity + w` is `Infinity`). -/
def addWeight : JsNum → Int → JsNum
  | fin a, w => fin (a + w)
  | inf, _ => inf

/-- The comparison `a < b` of JavaScript on these numbers. -/
def lt : JsNum → JsNum → Prop
  | fin a, fin b => a < b
  | fin _, inf => True
  | inf, _ => False

/-- The comparison `a <= b`; it is also the outcome `a - b <= 0` of the sort comparator,
where `Infinity - Infinity` is `NaN`, which `Array.prototype.sort` reads as `+0`. -/
def le : JsNum → JsNum → Prop
  | fin a, fin b => a ≤ b
  | fin _, inf => True
  | inf, inf => True
  | inf, fin _ => False

/-- Evaluation of `a < b`. -/
def decLt : (a b : JsNum) → Decidable (lt a b)
  | fin a, fin b => inferInstanceAs (Decidable (a < b))
  | fin _, inf => isTrue trivial
  | inf, fin _ => isFalse (fun h => h)
  | inf, inf => isFalse (fun h => h)

/-- Evaluation of `a <= b`. -/
def decLe : (a b : JsNum) → Decidable (le a b)
  | fin a, fin b => inferInstanceAs (Decidable (a ≤ b))
  | fin _, inf => isTrue trivial
  | inf, inf => isTrue trivial
  | inf, fin _ => isFalse (fun h => h)

/-- The numbers are linearly ordered by `<=`, with `Infinity` on top. -/
instance : LinearOrder JsNum where
  le := le
  lt := lt
  le_refl a := by cases a <;> simp [le]
  le_trans a b c h1 h2 := by
    cases a <;> cases b <;> cases c <;> simp [le] at * <;> omega
  le_antisymm a b h1 h2 := by
    cases a <;> cases b <;> simp [le] at * <;> omega
  le_total a b := by
    cases a <;> cases b <;> simp [le] <;> omega
  lt_iff_le_not_le a b := by
    cases a <;> cases b <;> simp [le, lt] <;> omega
  decidableLE := decLe
  decidableLT := decLt
  decidableEq := inferInstance

end JsNum

/-! ## Objects as dictionaries -/

/-- The property names every object inherits from `Object.prototype`: looking one of them
up in `{}` yields a (truthy) inherited value, not `undefined`. -/
def objectPrototypeKeys : List String :=
  ["constructor", "__defineGetter__", "__defineSetter__", "hasOwnProperty",
   "__lookupGetter__", "__lookupSetter__", "isPrototypeOf", "propertyIsEnumerable",
   "toString", "valueOf", "__proto__", "toLocaleString"]

/-- The array index a property key denotes, if it is one: a canonical decimal numeral
below `2^32 - 1`. Such keys are enumerated first, in ascending numeric order. -/
def arrayIndex? (s : String) : Option Nat :=
  let cs := s.data
  if cs ≠ [] ∧ cs.all Char.isDigit = true ∧ (cs.head? ≠ some '0' ∨ cs.length = 1) then
    let n := cs.foldl (fun acc c => 10 * acc + (c.toNat - 48)) 0
    if n < 4294967295 then some n else none
  else none

/-- Position of a new integer-like key `n`: before the first own key that is not an
array index or is a larger one. -/
def insertIndexKey {α : Type} (n : Nat) (k : String) (v : α) :
    List (String × α) → List (String × α)
  | [] => [(k, v)]
  | (k', v') :: rest =>
    match arrayIndex? k' with
    | some m => if m < n then (k', v') :: insertIndexKey n k v rest
                else (k, v) :: (k', v') :: rest
    | none => (k, v) :: (k', v') :: rest

/-- Creation of the own property `k` (absent so far) with value `v`, in enumeration
order: array indices ascending first, then the other keys in creation order. -/
def ownInsert {α : Type} (o : List (String × α)) (k : String) (v : α) : List (String × α) :=
  match arrayIndex? k with
  | some n => insertIndexKey n k v o
  | none => o ++ [(k, v)]

/-- Replacement of the value of the first entry with key `k` by `f` of it. -/
def ownModify {α : Type} (k : String) (f : α → α) : List (String × α) → List (String × α)
  | [] => []
  | (k', v') :: rest => if k' = k then (k', f v') :: rest else (k', v') :: ownModify k f rest

/-- The assignment `o[k] = v`. -/
def ownSet {α : Type} (o : List (String × α)) (k : String) (v : α) : List (String × α) :=
  match o.lookup k with
  | some _ => ownModify k (fun _ => v) o
  | none => ownInsert o k v

/-! ## Graph -/

/-- An adjacency entry `{ node, weight }`. -/
structure Edge where
  node : String
  weight : Int
  deriving DecidableEq, Repr

/-- The fields of `Graph`: `adjacencyList` and `locations`. -/
structure Graph where
  adjacencyList : List (String × List Edge)
  locations : List (String × String)
  deriving DecidableEq, Repr

namespace Graph

/-- The graph of `constructor()`. -/
def empty : Graph := ⟨[], []⟩

/-- The own keys of `adjacencyList`, as `for (let vertex in this.adjacencyList)` yields them. -/
def keys (g : Graph) : List String := g.adjacencyList.map Prod.fst

/-- The array `this.adjacencyList[v]` of a registered vertex. -/
def adj? (g : Graph) (v : String) : Option (List Edge) := g.adjacencyList.lookup v

/-- A vertex is registered when it is an own key of `adjacencyList`. -/
def Registered (g : Graph) (v : String) : Prop := v ∈ g.keys

instance (g : Graph) (v : String) : Decidable (g.Registered v) :=
  inferInstanceAs (Decidable (v ∈ g.keys))

/-- The method `addVertex(vertex, name)`: a no-op when `this.adjacencyList[vertex]` is truthy, which is
the case for a registered vertex and for a key inherited from `Object.prototype`. -/
def addVertex (g : Graph) (vertex name : String) : Graph :=
  if (g.adj? vertex).isSome || objectPrototypeKeys.contains vertex then g
  else { adjacencyList := ownInsert g.adjacencyList vertex [],
         locations := ownSet g.locations vertex name }

/-- The call `this.adjacencyList[v].push(e)` on a registered vertex `v`. -/
def push (g : Graph) (v : String) (e : Edge) : Graph :=
  { g with adjacencyList := ownModify v (fun a => a ++ [e]) g.adjacencyList }

/-- The method `addEdge(vertex1, vertex2, weight)`. `Except.error g'` is a `TypeError` (the
adjacency list of an endpoint is not an array) thrown with the graph left as `g'`. -/
def addEdge (g : Graph) (vertex1 vertex2 : String) (weight : Int) : Except Graph Graph :=
  match g.adj? vertex1 with
  | none => .error g
  | some _ =>
    let g1 := g.push vertex1 ⟨vertex2, weight⟩
    match g1.adj? vertex2 with
    | none => .error g1
    | some _ => .ok (g1.push vertex2 ⟨vertex1, weight⟩)

/-- The graphs built from the empty graph by calls of `addVertex` and by calls of
`addEdge` that return. -/
inductive Built : Graph → Prop where
  | empty : Built Graph.empty
  | addVertex {g : Graph} (vertex name : String) : Built g → Built (g.addVertex vertex name)
  | addEdge {g g' : Graph} (vertex1 vertex2 : String) (weight : Int) :
      Built g → g.addEdge vertex1 vertex2 weight = .ok g' → Built g'

/-- No dangling edges: every node named in an adjacency list is registered. -/
def Closed (g : Graph) : Prop := ∀ p ∈ g.adjacencyList, ∀ e ∈ p.2, g.Registered e.node

/-- All edge weights of the graph are non-negative. -/
def NonNeg (g : Graph) : Prop := ∀ p ∈ g.adjacencyList, ∀ e ∈ p.2, 0 ≤ e.weight

/-- A walk from `u` along the adjacency entries `steps`, ending in `v`: every entry is
taken from the adjacency list of the node reached before it. -/
def IsWalk (g : Graph) : String → List Edge → String → Prop
  | u, [], v => u = v
  | u, e :: rest, v => (∃ a, g.adj? u = some a ∧ e ∈ a) ∧ IsWalk g e.node rest v

/-- Every pair of registered vertices joined by a walk is joined by a walk of at most `n`
edges: the diameter of the graph is at most `n`. -/
def DiameterLE (g : Graph) (n : Nat) : Prop :=
  ∀ u v, g.Registered u → g.Registered v → (∃ steps, g.IsWalk u steps v) →
    ∃ steps, g.IsWalk u steps v ∧ steps.length ≤ n

/-- Every entry of the walk `steps` from `u` is a cheapest one among the adjacency
entries of its origin that name the same node. -/
def Cheapest (g : Graph) : String → List Edge → Prop
  | _, [] => True
  | u, e :: rest =>
    (∀ a, g.adj? u = some a → ∀ e' ∈ a, e'.node = e.node → e.weight ≤ e'.weight) ∧
    Cheapest g e.node rest

/-- Some adjacency entry of `u` names `v`: the graph has an edge from `u` to `v`. -/
def HasEdge (g : Graph) (u v : String) : Prop :=
  ∃ a w, g.adj? u = some a ∧ (⟨v, w⟩ : Edge) ∈ a

end Graph

/-- The sum of the weights of the entries traversed. -/
def walkWeight (steps : List Edge) : Int := (steps.map Edge.weight).sum

/-! ## PriorityQueue -/

/-- A queue entry `{ val, priority }`. -/
structure QEntry where
  val : String
  priority : JsNum
  deriving DecidableEq, Repr

/-- The class `PriorityQueue`: the array `values`. -/
structure PriorityQueue where
  values : List QEntry
  deriving DecidableEq, Repr

namespace PriorityQueue

/-- The queue of `constructor()`. -/
def empty : PriorityQueue := ⟨[]⟩

/-- The method `sort()`: the stable sort of `values` by `a.priority - b.priority`. -/
def sort (q : PriorityQueue) : PriorityQueue :=
  ⟨q.values.insertionSort (fun a b => a.priority ≤ b.priority)⟩

/-- The method `enqueue(val, priority)`: push, then sort. -/
def enqueue (q : PriorityQueue) (val : String) (priority : JsNum) : PriorityQueue :=
  (⟨q.values ++ [⟨val, priority⟩]⟩ : PriorityQueue).sort

/-- The method `dequeue()`: `values.shift()`, the removed first entry (`none` for `undefined`). -/
def dequeue (q : PriorityQueue) : Option QEntry × PriorityQueue :=
  (q.values.head?, ⟨q.values.tail⟩)

/-- The method `isEmpty()`. -/
def isEmpty (q : PriorityQueue) : Bool := q.values.length == 0

end PriorityQueue

/-! ## Graph.dijkstra -/

/-- The local variables `distances`, `previous` and `pq` of `dijkstra`. The value of
`distances` at a key is the own entry of the object under that key, `none` when it has no
own entry there; `null` and `undefined` in `previous` are both `none`. -/
structure DijkstraState where
  distances : String → Option JsNum
  previous : String → Option String
  pq : PriorityQueue

/-- The object `{ distance, path }` returned by `dijkstra`. The field `distance` is the own
entry of `distances` under `finish`. It is `none` when `distances` has no own entry there:
the code then returns `undefined`, except for a `finish` among `objectPrototypeKeys`, for
which `distances[finish]` is the value that `{}` inherits under that key. -/
structure DijkstraResult where
  distance : Option JsNum
  path : List String
  deriving DecidableEq, Repr

/-- Truthiness of a string: every string but the empty one. -/
def truthy (s : String) : Bool := s != ""

/-- One pass of the initialisation loop `for (let vertex in this.adjacencyList)`. -/
def dijkstraInitStep (start : String) (s : DijkstraState) (vertex : String) : DijkstraState :=
  if vertex = start then
    { distances := Function.update s.distances vertex (some (JsNum.fin 0)),
      previous := Function.update s.previous vertex none,
      pq := s.pq.enqueue vertex (JsNum.fin 0) }
  else
    { distances := Function.update s.distances vertex (some JsNum.inf),
      previous := Function.update s.previous vertex none,
      pq := s.pq.enqueue vertex JsNum.inf }

/-- The state after the initialisation loop. -/
def dijkstraInit (g : Graph) (start : String) : DijkstraState :=
  g.keys.foldl (dijkstraInitStep start) ⟨fun _ => none, fun _ => none, PriorityQueue.empty⟩

/-- One pass of the relaxation loop over the adjacency list of `smallest`. The comparison
`candidate < distances[nextNode.node]` is false when `distances` has no own entry for the
node, the value read being `undefined` or one inherited from `Object.prototype`. -/
def relaxStep (smallest : String) (s : DijkstraState) (nextNode : Edge) : DijkstraState :=
  match s.distances smallest, s.distances nextNode.node with
  | some d, some dn =>
    let candidate := d.addWeight nextNode.weight
    if candidate < dn then
      { distances := Function.update s.distances nextNode.node (some candidate),
        previous := Function.update s.previous nextNode.node (some smallest),
        pq := s.pq.enqueue nextNode.node candidate }
    else s
  | _, _ => s

/-- The loop `while (previous[smallest]) { path.push(smallest); smallest = previous[smallest] }`. -/
def pathLoop (previous : String → Option String) : Nat → String → List String →
    Option (List String)
  | 0, _, _ => none
  | fuel + 1, smallest, path =>
    match previous smallest with
    | some p => if truthy p then pathLoop previous fuel p (path ++ [smallest]) else some path
    | none => some path

/-- The main loop `while (!pq.isEmpty())`; the result is the state at its end and `path`. -/
def dijkstraLoop (g : Graph) (finish : String) : Nat → DijkstraState →
    Option (DijkstraState × List String)
  | 0, _ => none
  | fuel + 1, s =>
    if s.pq.isEmpty then some (s, [])
    else
      match s.pq.dequeue with
      | (none, _) => none
      | (some entry, pq') =>
        let smallest := entry.val
        let s1 : DijkstraState := { s with pq := pq' }
        if smallest = finish then
          (pathLoop s1.previous (fuel + 1) smallest []).map (fun path => (s1, path))
        else if truthy smallest || decide (s1.distances smallest ≠ some JsNum.inf) then
          dijkstraLoop g finish fuel (((g.adj? smallest).getD []).foldl (relaxStep smallest) s1)
        else
          dijkstraLoop g finish fuel s1

/-- The method `dijkstra(start, finish)`, with `fuel` bounding the iterations of either loop.
The returned `distance` is the own entry of `distances` under `finish`, if any (see
`DijkstraResult` for a `finish` without own entry). -/
def Graph.dijkstra (g : Graph) (start finish : String) (fuel : Nat) : Option DijkstraResult :=
  (dijkstraLoop g finish fuel (dijkstraInit g start)).map fun r =>
    { distance := r.1.distances finish, path := (r.2 ++ [start]).reverse }

/-! ## Graph.findAllPaths -/

/-- An element `{ path, distance }` of the result of `findAllPaths`. -/
structure Route where
  path : List String
  distance : Int
  deriving DecidableEq, Repr

/-- The variables `allPaths` and `visited` shared by the calls of `dfs`. -/
structure DfsState where
  allPaths : List Route
  visited : List String
  deriving DecidableEq, Repr

/-- How a call can fail to return: a `TypeError`, or the fuel of the model running out. -/
inductive Fault where
  | typeError
  | outOfFuel
  deriving DecidableEq, Repr

/-- The call `visited.add(v)`. -/
def setAdd (visited : List String) (v : String) : List String :=
  if v ∈ visited then visited else visited ++ [v]

/-- The call `visited.delete(v)`. -/
def setDelete (visited : List String) (v : String) : List String :=
  visited.filter (fun x => x != v)

/-- The closure `dfs(current, target, path, distance)` of `findAllPaths`. Iterating
`this.adjacencyList[current]` throws a `TypeError` when `current` is not registered. -/
def dfs (g : Graph) (target : String) (maxDepth : Nat) :
    Nat → String → List String → Int → DfsState → Except Fault DfsState
  | 0, _, _, _, _ => .error .outOfFuel
  | fuel + 1, current, path, distance, st =>
    if path.length > maxDepth then .ok st
    else if current = target then
      .ok { st with allPaths := st.allPaths ++ [⟨path, distance⟩] }
    else
      match g.adj? current with
      | none => .error .typeError
      | some neighbors =>
        let st1 : DfsState := { st with visited := setAdd st.visited current }
        match neighbors.foldlM
            (fun (s : DfsState) (neighbor : Edge) =>
              if neighbor.node ∈ s.visited then Except.ok s
              else dfs g target maxDepth fuel neighbor.node (path ++ [neighbor.node])
                     (distance + neighbor.weight) s) st1 with
        | .error f => .error f
        | .ok st2 => .ok { st2 with visited := setDelete st2.visited current }

/-- The method `findAllPaths(start, end, maxDepth = 10)`; `maxDepth` is `none` when the argument is
omitted. The recursion depth of `dfs` is at most `maxDepth + 1`. -/
def Graph.findAllPaths (g : Graph) (start finish : String) (maxDepth : Option Nat) :
    Except Fault (List Route) :=
  let depth := maxDepth.getD 10
  match dfs g finish depth (depth + 1) start [start] 0 ⟨[], []⟩ with
  | .error f => .error f
  | .ok st => .ok (st.allPaths.insertionSort (fun a b => a.distance ≤ b.distance))

/-! ## Graph.getLocationName -/

/-- The value of `getLocationName(id)`: a string, or the value that `{}` inherits from
`Object.prototype` under the key `id` (a function or an object, never a string). -/
inductive LocationName where
  | text (s : String)
  | inherited (key : String)
  deriving DecidableEq, Repr

/-- The method `getLocationName(id)`, that is `this.locations[id] || 'Unknown'`: the own
entry when it is truthy, else the inherited value (always truthy) when `id` is a key of
`Object.prototype`, else the sentinel. -/
def Graph.getLocationName (g : Graph) (id : String) : LocationName :=
  match g.locations.lookup id with
  | some name => if truthy name then .text name else .text "Unknown"
  | none => if objectPrototypeKeys.contains id then .inherited id else .text "Unknown"

/-! ## Construction of the campus graph and of `pathDetails` -/

/-- An element `{ from, to, distance, time }` of `campusPaths`. -/
structure PathEntry where
  fromId : String
  toId : String
  distance : Int
  time : Int
  deriving DecidableEq, Repr

/-- A value `{ distance, time }` of `pathDetails`. -/
structure Detail where
  distance : Int
  time : Int
  deriving DecidableEq, Repr

/-- The key built by the template `${from}-${to}`. It contains a hyphen, so it is never a
key inherited from `Object.prototype`. -/
def detailKey (fromId toId : String) : String := fromId ++ "-" ++ toId

/-- One pass of `campusPaths.forEach` filling `pathDetails`: the entry is stored under
`key`, then under `reverseKey`. -/
def addPathDetail (pathDetails : List (String × Detail)) (path : PathEntry) :
    List (String × Detail) :=
  ownSet (ownSet pathDetails (detailKey path.fromId path.toId) ⟨path.distance, path.time⟩)
    (detailKey path.toId path.fromId) ⟨path.distance, path.time⟩

/-- The object `pathDetails` filled from the edge list `campusPaths`. -/
def buildPathDetails (campusPaths : List PathEntry) : List (String × Detail) :=
  campusPaths.foldl addPathDetail []

/-- The function `getPathDetail(from, to)`, that is
`pathDetails[key] || { distance: 0, time: 0 }`, reading the table `pathDetails`. -/
def getPathDetail (pathDetails : List (String × Detail)) (fromId toId : String) : Detail :=
  match pathDetails.lookup (detailKey fromId toId) with
  | some detail => detail
  | none => ⟨0, 0⟩

/-- The consecutive pairs `(path[i], path[i + 1])` for `i` from `0` below
`path.length - 1`. -/
def consecutivePairs (path : List String) : List (String × String) := path.zip path.tail

/-- The loop of `createPathCard` and `displayRoute` that accumulates `totalTime`. -/
def totalTime (pathDetails : List (String × Detail)) (path : List String) : Int :=
  (consecutivePairs path).foldl
    (fun total p => total + (getPathDetail pathDetails p.1 p.2).time) 0

/-- The sum of the per-step distances `getPathDetail(path[i], path[i + 1]).distance` that
`displayRoute` shows step by step. -/
def stepDistanceSum (pathDetails : List (String × Detail)) (path : List String) : Int :=
  (consecutivePairs path).foldl
    (fun total p => total + (getPathDetail pathDetails p.1 p.2).distance) 0

/-- The loop `for (let id in campusLocations) campusGraph.addVertex(id, ...name)`, over
the entries of `campusLocations` in enumeration order. -/
def Graph.addVertices (g : Graph) (campusLocations : List (String × String)) : Graph :=
  campusLocations.foldl (fun g p => g.addVertex p.1 p.2) g

/-- The call `campusPaths.forEach(path => campusGraph.addEdge(path.from, path.to,
path.distance))`; a `TypeError` thrown by `addEdge` ends it. -/
def Graph.addEdges (g : Graph) : List PathEntry → Except Graph Graph
  | [] => .ok g
  | path :: rest =>
    match g.addEdge path.fromId path.toId path.distance with
    | .ok g' => Graph.addEdges g' rest
    | .error g' => .error g'

/-- Two entries of an edge list join the same unordered pair of locations. -/
def SamePair (p q : PathEntry) : Prop :=
  (p.fromId = q.fromId ∧ p.toId = q.toId) ∨ (p.fromId = q.toId ∧ p.toId = q.fromId)

/-- No identifier of the edge list contains a hyphen. -/
def HyphenFree (campusPaths : List PathEntry) : Prop :=
  ∀ p ∈ campusPaths, '-' ∉ p.fromId.data ∧ '-' ∉ p.toId.data

/-- A value `{ name, type }` of `campusLocations`. -/
structure LocationInfo where
  name : String
  type : String
  deriving DecidableEq, Repr

/-- The object `campusLocations`, in the enumeration order of `for (let id in
campusLocations)`: its keys `1` to `8` are array indices, enumerated in ascending order. -/
def campusLocations : List (String × LocationInfo) :=
  [("1", ⟨"Main Gate", "Entrance"⟩),
   ("2", ⟨"Central Library", "Academic Building"⟩),
   ("3", ⟨"Student Cafeteria", "Dining Facility"⟩),
   ("4", ⟨"Computer Science Lab", "Academic Building"⟩),
   ("5", ⟨"Administration Block", "Administrative Building"⟩),
   ("6", ⟨"Sports Complex", "Sports Facility"⟩),
   ("7", ⟨"Main Auditorium", "Event Hall"⟩),
   ("8", ⟨"Hostel Block A", "Accommodation"⟩)]

/-- The array `campusPaths`. -/
def campusPaths : List PathEntry :=
  [⟨"1", "2", 150, 120⟩,
   ⟨"1", "7", 100, 80⟩,
   ⟨"2", "3", 120, 96⟩,
   ⟨"2", "4", 180, 144⟩,
   ⟨"3", "5", 90, 72⟩,
   ⟨"4", "6", 200, 160⟩,
   ⟨"5", "7", 80, 64⟩,
   ⟨"6", "8", 150, 120⟩,
   ⟨"3", "7", 110, 88⟩,
   ⟨"4", "5", 95, 76⟩]

/-- The graph `campusGraph` after the two loops that fill it: `addVertex(id,
campusLocations[id].name)` for every location, then `addEdge(path.from, path.to,
path.distance)` for every element of `campusPaths`. -/
def campusGraph : Graph :=
  match (Graph.empty.addVertices (campusLocations.map fun p => (p.1, p.2.name))).addEdges
      campusPaths with
  | .ok g => g
  | .error g => g

/-! ## Sequences of queue operations -/

/-- A call of `enqueue(val, priority)` or of `dequeue()`. -/
inductive QueueOp where
  | enqueue (val : String) (priority : JsNum)
  | dequeue
  deriving DecidableEq, Repr

namespace PriorityQueue

/-- The queue after one call. -/
def apply (q : PriorityQueue) : QueueOp → PriorityQueue
  | .enqueue val priority => q.enqueue val priority
  | .dequeue => q.dequeue.2

/-- The queue after a sequence of calls. -/
def run (q : PriorityQueue) (ops : List QueueOp) : PriorityQueue := ops.foldl apply q

end PriorityQueue

/-- The effect of one call on the queue whose entries are paired with the number of the
call that enqueued them: the same push, sort and shift, the comparator reading only the
priority. -/
def stampedApply (s : List (QEntry × Nat)) (clock : Nat) : QueueOp → List (QEntry × Nat)
  | .enqueue val priority =>
    List.insertionSort (fun a b : QEntry × Nat => a.1.priority ≤ b.1.priority)
      (s ++ [(⟨val, priority⟩, clock)])
  | .dequeue => s.tail

/-- The stamped queue after a sequence of calls, the first of which has number `clock`. -/
def stampedRun : List (QEntry × Nat) → Nat → List QueueOp → List (QEntry × Nat)
  | s, _, [] => s
  | s, clock, op :: ops => stampedRun (stampedApply s clock op) (clock + 1) ops

/-- The entry `a` leaves the queue before `b`: smaller priority, or equal priority and
enqueued earlier. -/
def Before (a b : QEntry × Nat) : Prop :=
  a.1.priority < b.1.priority ∨ (a.1.priority = b.1.priority ∧ a.2 < b.2)

/-! ## Sample graphs -/

/-- Three vertices joined pairwise: `a`-`b` costs 10, the detour over `c` costs 2. -/
def triangle : Graph :=
  { adjacencyList := [("a", [⟨"b", 10⟩, ⟨"c", 1⟩]), ("b", [⟨"a", 10⟩, ⟨"c", 1⟩]),
                      ("c", [⟨"a", 1⟩, ⟨"b", 1⟩])],
    locations := [("a", "A"), ("b", "B"), ("c", "C")] }

/-- Vertices `a` and `b` joined by an edge of weight -1, and an isolated vertex `c`. -/
def negativeEdge : Graph :=
  { adjacencyList := [("a", [⟨"b", -1⟩]), ("b", [⟨"a", -1⟩]), ("c", [])],
    locations := [("a", "A"), ("b", "B"), ("c", "C")] }

/-- Vertices `a` and `b` joined by an edge of weight 5, and an isolated vertex `c`. -/
def island : Graph :=
  { adjacencyList := [("a", [⟨"b", 5⟩]), ("b", [⟨"a", 5⟩]), ("c", [])],
    locations := [("a", "A"), ("b", "B"), ("c", "C")] }

/-- The vertex with the empty identifier joined to `a` by an edge of weight 1. -/
def emptyId : Graph :=
  { adjacencyList := [("", [⟨"a", 1⟩]), ("a", [⟨"", 1⟩])],
    locations := [("", "Origin"), ("a", "A")] }

/-- The locations `1`, `2`, `3` with the edges `(1, 2, 150)` and `(2, 3, 120)`. -/
def threeLocations : Graph :=
  { adjacencyList := [("1", [⟨"2", 150⟩]), ("2", [⟨"1", 150⟩, ⟨"3", 120⟩]),
                      ("3", [⟨"2", 120⟩])],
    locations := [("1", "Main Gate"), ("2", "Library"), ("3", "Cafeteria")] }

/-- Four locations, two of them with a hyphen in the identifier. -/
def hyphenLocations : List (String × String) :=
  [("a-b", "AB"), ("c", "C"), ("a", "A"), ("b-c", "BC")]

/-- Two edges whose keys `a-b-c` coincide although they join different pairs. -/
def hyphenPaths : List PathEntry :=
  [⟨"a-b", "c", 5, 50⟩, ⟨"a", "b-c", 7, 70⟩]

/-- The graph built from `hyphenLocations` and `hyphenPaths`. -/
def hyphenGraph : Graph :=
  { adjacencyList := [("a-b", [⟨"c", 5⟩]), ("c", [⟨"a-b", 5⟩]), ("a", [⟨"b-c", 7⟩]),
                      ("b-c", [⟨"a", 7⟩])],
    locations := hyphenLocations }

/-- The edge list of `triangle`, with times. -/
def trianglePaths : List PathEntry :=
  [⟨"a", "b", 10, 8⟩, ⟨"a", "c", 1, 2⟩, ⟨"b", "c", 1, 3⟩]

/-! ## Invariants of the search -/

/-- The state after a successful relaxation of the entry `nextNode` of `smallest`. -/
def improve (s : DijkstraState) (smallest : String) (nextNode : Edge) (candidate : JsNum) :
    DijkstraState :=
  { distances := Function.update s.distances nextNode.node (some candidate),
    previous := Function.update s.previous nextNode.node (some smallest),
    pq := s.pq.enqueue nextNode.node candidate }

/-- The state after the pass of the main loop that dequeued `entry`, a vertex other than
`finish`, and left `rest` in the queue. -/
def afterPop (g : Graph) (s : DijkstraState) (entry : QEntry) (rest : List QEntry) :
    DijkstraState :=
  if truthy entry.val || decide (s.distances entry.val ≠ some JsNum.inf) then
    ((g.adj? entry.val).getD []).foldl (relaxStep entry.val) { s with pq := ⟨rest⟩ }
  else { s with pq := ⟨rest⟩ }

/-- Following `previous` from `v` ends, after `n` links, in a node without predecessor. -/
inductive PrevChain (previous : String → Option String) : Nat → String → Prop where
  | root {v : String} : previous v = none → PrevChain previous 0 v
  | link {v u : String} {n : Nat} :
      previous v = some u → PrevChain previous n u → PrevChain previous (n + 1) v

/-- The vertex `v` waits in the queue under its current tentative distance. -/
def Pending (s : DijkstraState) (v : String) : Prop :=
  ∃ d, s.distances v = some d ∧ (⟨v, d⟩ : QEntry) ∈ s.pq.values

/-- The adjacency entry `e` of `v` offers no improvement. -/
def Relaxed (s : DijkstraState) (v : String) (e : Edge) : Prop :=
  ∀ dv de, s.distances v = some dv → s.distances e.node = some de →
    de ≤ dv.addWeight e.weight

/-- The invariant of `distances`, `previous` and `pq` kept by every relaxation. -/
structure Core (g : Graph) (start : String) (s : DijkstraState) : Prop where
  dom : ∀ v, g.Registered v ↔ ∃ d, s.distances v = some d
  walk : ∀ v d, s.distances v = some (JsNum.fin d) →
    ∃ steps, g.IsWalk start steps v ∧ walkWeight steps = d
  start_le : ∀ d, s.distances start = some d → d ≤ JsNum.fin 0
  entry_ge : ∀ q ∈ s.pq.values, ∃ d, s.distances q.val = some d ∧ d ≤ q.priority
  sorted : s.pq.values.Sorted (fun a b => a.priority ≤ b.priority)
  prev_edge : ∀ v u, s.previous v = some u → ∃ du dv a w,
    s.distances u = some (JsNum.fin du) ∧ s.distances v = some (JsNum.fin dv) ∧
    g.adj? u = some a ∧ (⟨v, w⟩ : Edge) ∈ a ∧ du + w ≤ dv
  prev_chain : ∀ v, ∃ n, PrevChain s.previous n v
  root : ∀ v d, s.previous v = none → s.distances v = some (JsNum.fin d) → v = start

/-- The invariant at the head of the main loop: every vertex waits in the queue or has
all its adjacency entries relaxed. -/
def LoopInv (g : Graph) (start : String) (s : DijkstraState) : Prop :=
  Core g start s ∧
  ∀ v a, g.adj? v = some a → Pending s v ∨ ∀ e ∈ a, Relaxed s v e

/-- The invariant inside the relaxation loop over the adjacency list of `cur`, of which
the entries `processed` have been handled. -/
def MidInv (g : Graph) (start cur : String) (processed : List Edge) (s : DijkstraState) :
    Prop :=
  Core g start s ∧
  (∀ v a, g.adj? v = some a → v ≠ cur → Pending s v ∨ ∀ e ∈ a, Relaxed s v e) ∧
  ∀ e ∈ processed, Relaxed s cur e

/-- Number of registered vertices (as listed) whose tentative distance is `Infinity`. -/
def infCount (g : Graph) (s : DijkstraState) : Nat :=
  (g.keys.map (fun v => if s.distances v = some JsNum.inf then 1 else 0)).sum

/-- Sum of the finite tentative distances of the registered vertices (as listed). -/
def finSum (g : Graph) (s : DijkstraState) : Nat :=
  (g.keys.map (fun v => match s.distances v with
    | some (JsNum.fin d) => d.toNat
    | _ => 0)).sum

/-- The pair `(infCount, finSum)` decreases lexicographically from `s` to `s'`. -/
def Progress (g : Graph) (s s' : DijkstraState) : Prop :=
  infCount g s' < infCount g s ∨ (infCount g s' = infCount g s ∧ finSum g s' < finSum g s)

/-! ## Specification of the enumeration -/

/-- What a call `dfs(current, target, path, distance)` entered with the set `visited` may
record: `path` extended along a walk from `current` to `target` that repeats no node,
avoids `visited` and stays within the depth bound. -/
def Extends (g : Graph) (target : String) (maxDepth : Nat) (current : String)
    (path : List String) (distance : Int) (visited : List String) (r : Route) : Prop :=
  ∃ steps : List Edge, g.IsWalk current steps target ∧
    r.path = path ++ steps.map Edge.node ∧ r.distance = distance + walkWeight steps ∧
    (current :: steps.map Edge.node).Nodup ∧ (∀ x ∈ steps.map Edge.node, x ∉ visited) ∧
    r.path.length ≤ maxDepth

/-! ## Basic facts -/

theorem mem_setAdd {visited : List String} {v x : String} :
    x ∈ setAdd visited v ↔ x ∈ visited ∨ x = v := by
  unfold setAdd
  split
  · constructor
    · intro h; exact Or.inl h
    · rintro (h | h)
      · exact h
      · subst h; assumption
  · simp

theorem setDelete_setAdd {visited : List String} {v : String} (h : v ∉ visited) :
    setDelete (setAdd visited v) v = visited := by
  unfold setAdd setDelete
  rw [if_neg h, List.filter_append]
  have h1 : List.filter (fun x => x != v) visited = visited := by
    rw [List.filter_eq_self]
    intro a ha
    simp only [bne_iff_ne, ne_eq]
    rintro rfl
    exact h ha
  simp [h1]

theorem lookup_some_mem {α : Type} {o : List (String × α)} {k : String} {v : α}
    (h : o.lookup k = some v) : (k, v) ∈ o := by
  induction o with
  | nil => simp at h
  | cons p rest ih =>
    obtain ⟨k', v'⟩ := p
    by_cases hk : k = k'
    · subst hk
      simp [List.lookup] at h
      simp [h]
    · have : (k == k') = false := by simpa using hk
      simp [List.lookup, this] at h
      exact List.mem_cons_of_mem _ (ih h)

theorem lookup_isSome_iff {α : Type} {o : List (String × α)} {k : String} :
    (∃ v, o.lookup k = some v) ↔ k ∈ o.map Prod.fst := by
  induction o with
  | nil => simp
  | cons p rest ih =>
    obtain ⟨k', v'⟩ := p
    by_cases hk : k = k'
    · subst hk
      simp [List.lookup]
    · have : (k == k') = false := by simpa using hk
      simp [List.lookup, this, hk, ih]

theorem Graph.registered_iff {g : Graph} {v : String} :
    g.Registered v ↔ ∃ a, g.adj? v = some a := lookup_isSome_iff.symm

theorem Graph.Closed.registered {g : Graph} (hc : g.Closed) {u : String} {a : List Edge}
    (h : g.adj? u = some a) {e : Edge} (he : e ∈ a) : g.Registered e.node :=
  hc (u, a) (lookup_some_mem h) e he

theorem mem_insertIndexKey {α : Type} (n : Nat) (k : String) (v : α) (o : List (String × α))
    (p : String × α) : p ∈ insertIndexKey n k v o ↔ p = (k, v) ∨ p ∈ o := by
  induction o with
  | nil => simp [insertIndexKey]
  | cons q rest ih =>
    obtain ⟨k', v'⟩ := q
    unfold insertIndexKey
    split
    · split
      · rw [List.mem_cons, ih, List.mem_cons]
        tauto
      · simp
    · simp

theorem mem_ownInsert {α : Type} (o : List (String × α)) (k : String) (v : α)
    (p : String × α) : p ∈ ownInsert o k v ↔ p = (k, v) ∨ p ∈ o := by
  unfold ownInsert
  split
  · exact mem_insertIndexKey _ _ _ _ _
  · rw [List.mem_append, List.mem_singleton]
    tauto

theorem mem_ownModify {α : Type} (k : String) (f : α → α) (o : List (String × α))
    (p : String × α) (h : p ∈ ownModify k f o) :
    ∃ q ∈ o, p.1 = q.1 ∧ (p.2 = q.2 ∨ (q.1 = k ∧ p.2 = f q.2)) := by
  induction o with
  | nil => simp [ownModify] at h
  | cons q rest ih =>
    obtain ⟨k', v'⟩ := q
    unfold ownModify at h
    split at h
    · rename_i hk
      rcases List.mem_cons.mp h with h | h
      · subst h
        exact ⟨(k', v'), List.mem_cons_self _ _, rfl, Or.inr ⟨hk, rfl⟩⟩
      · exact ⟨p, List.mem_cons_of_mem _ h, rfl, Or.inl rfl⟩
    · rcases List.mem_cons.mp h with h | h
      · subst h
        exact ⟨(k', v'), List.mem_cons_self _ _, rfl, Or.inl rfl⟩
      · obtain ⟨q, hq, h1, h2⟩ := ih h
        exact ⟨q, List.mem_cons_of_mem _ hq, h1, h2⟩

theorem keys_ownModify {α : Type} (k : String) (f : α → α) (o : List (String × α)) :
    (ownModify k f o).map Prod.fst = o.map Prod.fst := by
  induction o with
  | nil => rfl
  | cons q rest ih =>
    obtain ⟨k', v'⟩ := q
    unfold ownModify
    split
    · rfl
    · simp [ih]

theorem Graph.keys_push (g : Graph) (v : String) (e : Edge) : (g.push v e).keys = g.keys :=
  keys_ownModify _ _ _

theorem Graph.closed_push {g : Graph} (hc : g.Closed) {v : String} {e : Edge}
    (he : g.Registered e.node) : (g.push v e).Closed := by
  intro p hp e' he'
  show e'.node ∈ (g.push v e).keys
  rw [Graph.keys_push]
  obtain ⟨q, hq, _, h2⟩ := mem_ownModify _ _ _ _ hp
  rcases h2 with h2 | ⟨_, h2⟩
  · exact hc q hq e' (h2 ▸ he')
  · rw [h2, List.mem_append, List.mem_singleton] at he'
    rcases he' with he' | he'
    · exact hc q hq e' he'
    · subst he'; exact he

theorem Graph.closed_addVertex {g : Graph} (hc : g.Closed) (vertex name : String) :
    (g.addVertex vertex name).Closed := by
  unfold Graph.addVertex
  split
  · exact hc
  · intro p hp e he
    have hp' := (mem_ownInsert _ _ _ _).mp hp
    rcases hp' with hp' | hp'
    · subst hp'
      simp at he
    · have := hc p hp' e he
      show e.node ∈ List.map Prod.fst (ownInsert g.adjacencyList vertex [])
      obtain ⟨x, hx, hx'⟩ := List.mem_map.mp this
      exact List.mem_map.mpr ⟨x, (mem_ownInsert _ _ _ _).mpr (Or.inr hx), hx'⟩

theorem Graph.closed_addEdge {g g' : Graph} (hc : g.Closed) {vertex1 vertex2 : String}
    {weight : Int} (h : g.addEdge vertex1 vertex2 weight = .ok g') : g'.Closed := by
  unfold Graph.addEdge at h
  split at h
  · cases h
  · rename_i a1 h1
    dsimp only at h
    split at h
    · cases h
    · rename_i a2 h2
      cases h
      have r2 : (g.push vertex1 ⟨vertex2, weight⟩).Registered vertex2 :=
        Graph.registered_iff.mpr ⟨a2, h2⟩
      have r2' : g.Registered vertex2 := by
        have : vertex2 ∈ (g.push vertex1 ⟨vertex2, weight⟩).keys := r2
        rwa [Graph.keys_push] at this
      have r1 : g.Registered vertex1 := Graph.registered_iff.mpr ⟨a1, h1⟩
      have r1' : (g.push vertex1 ⟨vertex2, weight⟩).Registered vertex1 := by
        show vertex1 ∈ (g.push vertex1 ⟨vertex2, weight⟩).keys
        rw [Graph.keys_push]; exact r1
      exact Graph.closed_push (Graph.closed_push hc r2') r1'

/-- A built graph has no dangling edges. -/
theorem Graph.Built.closed {g : Graph} (h : g.Built) : g.Closed := by
  induction h with
  | empty => intro p hp; simp [Graph.empty] at hp
  | addVertex vertex name _ ih => exact Graph.closed_addVertex ih vertex name
  | addEdge vertex1 vertex2 weight _ h ih => exact Graph.closed_addEdge ih h

theorem keys_insertIndexKey {α : Type} (n : Nat) (k : String) (v : α)
    (o : List (String × α)) :
    ((insertIndexKey n k v o).map Prod.fst).Perm (k :: o.map Prod.fst) := by
  induction o with
  | nil => exact List.Perm.refl _
  | cons q rest ih =>
    obtain ⟨k', v'⟩ := q
    unfold insertIndexKey
    split
    · split
      · rw [List.map_cons, List.map_cons]
        exact (List.Perm.cons k' ih).trans (List.Perm.swap k k' _)
      · exact List.Perm.refl _
    · exact List.Perm.refl _

theorem keys_ownInsert {α : Type} (o : List (String × α)) (k : String) (v : α) :
    ((ownInsert o k v).map Prod.fst).Perm (k :: o.map Prod.fst) := by
  unfold ownInsert
  split
  · exact keys_insertIndexKey _ _ _ _
  · rw [List.map_append]
    exact List.perm_append_comm

/-- The vertices of a built graph are listed once each. -/
theorem Graph.Built.keys_nodup {g : Graph} (h : g.Built) : g.keys.Nodup := by
  induction h with
  | empty => exact List.nodup_nil
  | @addVertex g vertex name _ ih =>
    unfold Graph.addVertex
    split
    · exact ih
    · rename_i hcond
      have hnot : vertex ∉ g.keys := by
        intro hmem
        obtain ⟨a, ha⟩ := Graph.registered_iff.mp hmem
        apply hcond
        simp [ha]
      exact (keys_ownInsert g.adjacencyList vertex []).nodup_iff.mpr
        (List.nodup_cons.mpr ⟨hnot, ih⟩)
  | @addEdge g g' vertex1 vertex2 weight _ h ih =>
    unfold Graph.addEdge at h
    split at h
    · cases h
    · dsimp only at h
      split at h
      · cases h
      · cases h
        rw [Graph.keys_push, Graph.keys_push]
        exact ih

/-! ## The enumeration `dfs` -/

theorem foldlM_cons_ok {f : DfsState → Edge → Except Fault DfsState} {e : Edge}
    {l : List Edge} {s s' : DfsState} (h : (e :: l).foldlM f s = .ok s') :
    ∃ s1, f s e = .ok s1 ∧ l.foldlM f s1 = .ok s' := by
  rw [List.foldlM_cons] at h
  cases h1 : f s e with
  | error x => rw [h1] at h; cases h
  | ok s1 => rw [h1] at h; exact ⟨s1, rfl, h⟩

theorem foldlM_grow (f : DfsState → Edge → Except Fault DfsState) (V : List String)
    (Q : Route → Prop) (l : List Edge)
    (hf : ∀ e ∈ l, ∀ s s', f s e = .ok s' → s.visited = V →
      s'.visited = V ∧ ∃ new, s'.allPaths = s.allPaths ++ new ∧ ∀ r ∈ new, Q r) :
    ∀ s s', l.foldlM f s = .ok s' → s.visited = V →
      s'.visited = V ∧ ∃ new, s'.allPaths = s.allPaths ++ new ∧ ∀ r ∈ new, Q r := by
  induction l with
  | nil =>
    intro s s' h hV
    have : s = s' := by simpa [List.foldlM, pure, Except.pure] using h
    subst this
    exact ⟨hV, [], by simp, by simp⟩
  | cons e l ih =>
    intro s s' h hV
    obtain ⟨s1, h1, h2⟩ := foldlM_cons_ok h
    obtain ⟨hV1, new1, hn1, hq1⟩ := hf e (List.mem_cons_self _ _) s s1 h1 hV
    obtain ⟨hV2, new2, hn2, hq2⟩ :=
      ih (fun e' he' => hf e' (List.mem_cons_of_mem _ he')) s1 s' h2 hV1
    refine ⟨hV2, new1 ++ new2, by rw [hn2, hn1, List.append_assoc], ?_⟩
    intro r hr
    rcases List.mem_append.mp hr with hr | hr
    · exact hq1 r hr
    · exact hq2 r hr

theorem dfs_sound (g : Graph) (target : String) (maxDepth : Nat) :
    ∀ (fuel : Nat) (current : String) (path : List String) (distance : Int)
      (st st' : DfsState),
      dfs g target maxDepth fuel current path distance st = .ok st' →
      current ∉ st.visited →
      st'.visited = st.visited ∧ ∃ new, st'.allPaths = st.allPaths ++ new ∧
        ∀ r ∈ new, Extends g target maxDepth current path distance st.visited r := by
  intro fuel
  induction fuel with
  | zero => intro current path distance st st' h; simp [dfs] at h
  | succ fuel ih =>
    intro current path distance st st' h hcur
    rw [dfs] at h
    split at h
    · cases h
      exact ⟨rfl, [], by simp, by simp⟩
    · rename_i hlen
      split at h
      · rename_i htar
        cases h
        refine ⟨rfl, [⟨path, distance⟩], rfl, ?_⟩
        intro r hr
        rw [List.mem_singleton] at hr
        subst hr
        exact ⟨[], htar, by simp, by simp [walkWeight], by simp, by simp, by simpa using hlen⟩
      · rename_i htar
        split at h
        · cases h
        · rename_i neighbors hadj
          dsimp only at h
          split at h
          · cases h
          · rename_i st2 hfold
            cases h
            have key := foldlM_grow _ (setAdd st.visited current)
              (Extends g target maxDepth current path distance st.visited) neighbors
              (by
                intro e he s s' hbody hV
                split at hbody
                · cases hbody
                  exact ⟨hV, [], by simp, by simp⟩
                · rename_i hvis
                  obtain ⟨hV', new, hnew, hq⟩ := ih _ _ _ _ _ hbody hvis
                  refine ⟨hV'.trans hV, new, hnew, ?_⟩
                  intro r hr
                  obtain ⟨steps, hw, hp, hd, hnd, hav, hl⟩ := hq r hr
                  rw [hV] at hav hvis
                  have hne : current ≠ e.node := by
                    rintro rfl
                    exact hvis (mem_setAdd.mpr (Or.inr rfl))
                  refine ⟨e :: steps, ⟨⟨neighbors, hadj, he⟩, hw⟩, ?_, ?_, ?_, ?_, hl⟩
                  · simpa using hp
                  · rw [hd]; simp [walkWeight]; ring
                  · rw [List.map_cons, List.nodup_cons]
                    refine ⟨?_, hnd⟩
                    rw [List.mem_cons]
                    rintro (h1 | h1)
                    · exact hne h1
                    · exact hav _ h1 (mem_setAdd.mpr (Or.inr rfl))
                  · intro x hx
                    rw [List.map_cons, List.mem_cons] at hx
                    rcases hx with rfl | hx
                    · exact fun h1 => hvis (mem_setAdd.mpr (Or.inl h1))
                    · exact fun h1 => hav _ hx (mem_setAdd.mpr (Or.inl h1)))
              _ _ hfold rfl
            obtain ⟨hV2, new, hnew, hq⟩ := key
            refine ⟨?_, new, hnew, hq⟩
            show setDelete st2.visited current = st.visited
            rw [hV2, setDelete_setAdd hcur]

/-- The target of a walk with at least one step is the node of one of its entries. -/
theorem Graph.IsWalk.target_mem {g : Graph} :
    ∀ {steps : List Edge} {u v : String}, g.IsWalk u steps v → steps ≠ [] →
      v ∈ steps.map Edge.node := by
  intro steps
  induction steps with
  | nil => intro u v _ h; exact absurd rfl h
  | cons e rest ih =>
    intro u v hw _
    obtain ⟨_, hrest⟩ := hw
    cases rest with
    | nil =>
      have : e.node = v := hrest
      simp [this]
    | cons e' rest' =>
      exact List.mem_cons_of_mem _ (ih hrest (by simp))

theorem foldlM_find (f : DfsState → Edge → Except Fault DfsState) (V : List String)
    (P : Route → Prop) (e : Edge) (l : List Edge) (he : e ∈ l)
    (hgrow : ∀ e' ∈ l, ∀ s s', f s e' = .ok s' → s.visited = V →
      s'.visited = V ∧ ∃ new, s'.allPaths = s.allPaths ++ new ∧ ∀ r ∈ new, True)
    (hfind : ∀ s s', f s e = .ok s' → s.visited = V → ∃ r ∈ s'.allPaths, P r) :
    ∀ s s', l.foldlM f s = .ok s' → s.visited = V → ∃ r ∈ s'.allPaths, P r := by
  induction l with
  | nil => simp at he
  | cons x l ih =>
    intro s s' h hV
    obtain ⟨s1, h1, h2⟩ := foldlM_cons_ok h
    have hV1 := (hgrow x (List.mem_cons_self _ _) s s1 h1 hV).1
    have hgrow' : ∀ e' ∈ l, ∀ s s', f s e' = .ok s' → s.visited = V →
        s'.visited = V ∧ ∃ new, s'.allPaths = s.allPaths ++ new ∧ ∀ r ∈ new, True :=
      fun e' he' => hgrow e' (List.mem_cons_of_mem _ he')
    by_cases hex : e = x
    · subst hex
      obtain ⟨r, hr, hP⟩ := hfind s s1 h1 hV
      obtain ⟨_, new, hnew, _⟩ := foldlM_grow f V (fun _ => True) l hgrow' s1 s' h2 hV1
      exact ⟨r, by rw [hnew]; exact List.mem_append_left _ hr, hP⟩
    · have he' : e ∈ l := by
        rcases List.mem_cons.mp he with h0 | h0
        · exact absurd h0 hex
        · exact h0
      exact ih he' hgrow' s1 s' h2 hV1

theorem dfs_complete (g : Graph) (target : String) (maxDepth : Nat) :
    ∀ (fuel : Nat) (current : String) (path : List String) (distance : Int)
      (st st' : DfsState) (steps : List Edge),
      dfs g target maxDepth fuel current path distance st = .ok st' →
      current ∉ st.visited →
      g.IsWalk current steps target →
      (current :: steps.map Edge.node).Nodup →
      (∀ x ∈ steps.map Edge.node, x ∉ st.visited) →
      path.length + steps.length ≤ maxDepth →
      ∃ r ∈ st'.allPaths, r.path = path ++ steps.map Edge.node ∧
        r.distance = distance + walkWeight steps := by
  intro fuel
  induction fuel with
  | zero => intro current path distance st st' steps h; simp [dfs] at h
  | succ fuel ih =>
    intro current path distance st st' steps h hcur hw hnd hav hlen
    rw [dfs] at h
    split at h
    · omega
    · split at h
      · rename_i htar
        cases h
        have hs : steps = [] := by
          by_contra hne
          have := hw.target_mem hne
          rw [← htar] at this
          exact (List.nodup_cons.mp hnd).1 this
        subst hs
        exact ⟨⟨path, distance⟩, by simp, by simp, by simp [walkWeight]⟩
      · rename_i htar
        split at h
        · cases h
        · rename_i neighbors hadj
          dsimp only at h
          split at h
          · cases h
          · rename_i st2 hfold
            cases h
            cases steps with
            | nil => exact absurd hw htar
            | cons e rest =>
              obtain ⟨⟨a, ha, hea⟩, hrest⟩ := hw
              rw [hadj] at ha
              cases ha
              rw [List.map_cons, List.nodup_cons, List.mem_cons, not_or] at hnd
              have hevis : e.node ∉ setAdd st.visited current := by
                rw [mem_setAdd, not_or]
                exact ⟨hav _ (by simp), fun h1 => hnd.1.1 h1.symm⟩
              have key := foldlM_find _ (setAdd st.visited current)
                (fun r => r.path = path ++ (e :: rest).map Edge.node ∧
                  r.distance = distance + walkWeight (e :: rest)) e neighbors hea
                (by
                  intro e' _ s s' hbody hV
                  split at hbody
                  · cases hbody
                    exact ⟨hV, [], by simp, by simp⟩
                  · rename_i hvis
                    obtain ⟨hV', new, hnew, _⟩ := dfs_sound g target maxDepth _ _ _ _ _ _ hbody hvis
                    exact ⟨hV'.trans hV, new, hnew, fun _ _ => trivial⟩)
                (by
                  intro s s' hbody hV
                  rw [if_neg (by rw [hV]; exact hevis)] at hbody
                  obtain ⟨r, hr, hp, hd⟩ := ih _ _ _ _ _ rest hbody (by rw [hV]; exact hevis)
                    hrest hnd.2
                    (by
                      intro x hx
                      rw [hV, mem_setAdd, not_or]
                      exact ⟨hav x (by simp [hx]), fun h1 => hnd.1.2 (h1 ▸ hx)⟩)
                    (by simp at hlen ⊢; omega)
                  refine ⟨r, hr, ?_, ?_⟩
                  · simpa using hp
                  · rw [hd]; simp [walkWeight]; ring)
                _ _ hfold rfl
              exact key

theorem foldlM_ne_error (f : DfsState → Edge → Except Fault DfsState) (fault : Fault)
    (l : List Edge) (hne : ∀ e ∈ l, ∀ s, f s e ≠ .error fault) :
    ∀ s, l.foldlM f s ≠ .error fault := by
  induction l with
  | nil => intro s h; simp [List.foldlM, pure, Except.pure] at h
  | cons e l ih =>
    intro s h
    rw [List.foldlM_cons] at h
    cases h1 : f s e with
    | error x =>
      rw [h1] at h
      have : x = fault := by
        simpa [bind, Except.bind] using h
      exact hne e (List.mem_cons_self _ _) s (this ▸ h1)
    | ok s1 =>
      rw [h1] at h
      exact ih (fun e' he' => hne e' (List.mem_cons_of_mem _ he')) s1 h

theorem dfs_ne_error (g : Graph) (target : String) (maxDepth : Nat) (fault : Fault)
    (hfault : fault = Fault.typeError → g.Closed) :
    ∀ (fuel : Nat) (current : String) (path : List String) (distance : Int) (st : DfsState),
      1 ≤ fuel → maxDepth + 2 ≤ fuel + path.length →
      (fault = Fault.typeError → g.Registered current) →
      dfs g target maxDepth fuel current path distance st ≠ .error fault := by
  intro fuel
  induction fuel with
  | zero => intro current path distance st h1; omega
  | succ fuel ih =>
    intro current path distance st _ hsum hreg h
    rw [dfs] at h
    split at h
    · cases h
    · rename_i hlen
      split at h
      · cases h
      · split at h
        · rename_i hadj
          cases h
          have := Graph.registered_iff.mp (hreg rfl)
          rw [hadj] at this
          obtain ⟨a, ha⟩ := this
          cases ha
        · rename_i neighbors hadj
          dsimp only at h
          split at h
          · rename_i f hfold
            cases h
            refine foldlM_ne_error _ _ neighbors ?_ _ hfold
            intro e he s
            split
            · intro h; cases h
            · refine ih _ _ _ _ ?_ ?_ ?_
              · omega
              · rw [List.length_append, List.length_singleton]; omega
              · intro hf
                exact (hfault hf).registered hadj he
          · cases h

theorem Graph.IsWalk.chain {g : Graph} :
    ∀ {steps : List Edge} {u v : String}, g.IsWalk u steps v →
      List.Chain g.HasEdge u (steps.map Edge.node) := by
  intro steps
  induction steps with
  | nil => intro u v _; exact List.Chain.nil
  | cons e rest ih =>
    intro u v hw
    obtain ⟨⟨a, ha, hea⟩, hrest⟩ := hw
    exact List.Chain.cons ⟨a, e.weight, ha, hea⟩ (ih hrest)

theorem Graph.IsWalk.getLast? {g : Graph} :
    ∀ {steps : List Edge} {u v : String}, g.IsWalk u steps v →
      (u :: steps.map Edge.node).getLast? = some v := by
  intro steps
  induction steps with
  | nil => intro u v hw; simp [show u = v from hw]
  | cons e rest ih =>
    intro u v hw
    rw [List.map_cons, List.getLast?_cons_cons]
    exact ih hw.2

theorem Graph.walk_of_chain {g : Graph} :
    ∀ (p : List String) (u : String), List.Chain g.HasEdge u p →
      ∃ steps, steps.map Edge.node = p ∧
        ∀ v, (u :: p).getLast? = some v → g.IsWalk u steps v := by
  intro p
  induction p with
  | nil =>
    intro u _
    exact ⟨[], rfl, fun v hv => by simpa using hv⟩
  | cons x p ih =>
    intro u hc
    rw [List.chain_cons] at hc
    obtain ⟨⟨a, w, ha, hea⟩, hc'⟩ := hc
    obtain ⟨steps, hsteps, hwalk⟩ := ih x hc'
    refine ⟨⟨x, w⟩ :: steps, by simp [hsteps], ?_⟩
    intro v hv
    rw [List.getLast?_cons_cons] at hv
    exact ⟨⟨a, ha, hea⟩, hwalk v hv⟩

theorem findAllPaths_ok {g : Graph} {start finish : String} {maxDepth : Option Nat}
    {routes : List Route} (h : g.findAllPaths start finish maxDepth = .ok routes) :
    ∃ st, dfs g finish (maxDepth.getD 10) (maxDepth.getD 10 + 1) start [start] 0 ⟨[], []⟩
        = .ok st ∧
      routes = st.allPaths.insertionSort (fun a b => a.distance ≤ b.distance) := by
  unfold Graph.findAllPaths at h
  dsimp only at h
  split at h
  · cases h
  · rename_i st hst
    cases h
    exact ⟨st, hst, rfl⟩

theorem findAllPaths_of_dfs {g : Graph} {start finish : String} {maxDepth : Option Nat}
    {st : DfsState}
    (h : dfs g finish (maxDepth.getD 10) (maxDepth.getD 10 + 1) start [start] 0 ⟨[], []⟩
        = .ok st) :
    g.findAllPaths start finish maxDepth =
      .ok (st.allPaths.insertionSort (fun a b => a.distance ≤ b.distance)) := by
  unfold Graph.findAllPaths
  dsimp only
  rw [h]

theorem findAllPaths_ne_outOfFuel (g : Graph) (start finish : String)
    (maxDepth : Option Nat) :
    g.findAllPaths start finish maxDepth ≠ .error .outOfFuel := by
  intro h
  unfold Graph.findAllPaths at h
  dsimp only at h
  split at h
  · rename_i f hf
    cases h
    refine dfs_ne_error g finish (maxDepth.getD 10) Fault.outOfFuel (fun h => by cases h)
      _ _ _ _ _ ?_ ?_ (fun h => by cases h) hf
    · omega
    · simp
  · cases h

theorem findAllPaths_returns {g : Graph} (hc : g.Closed) {start : String}
    (hs : g.Registered start) (finish : String) (maxDepth : Option Nat) :
    ∃ routes, g.findAllPaths start finish maxDepth = .ok routes := by
  cases h : dfs g finish (maxDepth.getD 10) (maxDepth.getD 10 + 1) start [start] 0 ⟨[], []⟩ with
  | ok st => exact ⟨_, findAllPaths_of_dfs h⟩
  | error f =>
    exfalso
    cases f with
    | typeError =>
      refine dfs_ne_error g finish (maxDepth.getD 10) Fault.typeError (fun _ => hc)
        _ _ _ _ _ ?_ ?_ (fun _ => hs) h
      · omega
      · simp
    | outOfFuel =>
      refine dfs_ne_error g finish (maxDepth.getD 10) Fault.outOfFuel (fun h => by cases h)
        _ _ _ _ _ ?_ ?_ (fun h => by cases h) h
      · omega
      · simp

/-- The result of `findAllPaths` is sorted by distance. -/
theorem findAllPaths_pairwise {g : Graph} {start finish : String} {maxDepth : Option Nat}
    {routes : List Route} (h : g.findAllPaths start finish maxDepth = .ok routes) :
    routes.Pairwise (fun a b => a.distance ≤ b.distance) := by
  obtain ⟨st, _, rfl⟩ := findAllPaths_ok h
  haveI : IsTotal Route (fun a b => a.distance ≤ b.distance) :=
    ⟨fun a b => le_total a.distance b.distance⟩
  haveI : IsTrans Route (fun a b => a.distance ≤ b.distance) :=
    ⟨fun a b c hab hbc => le_trans hab hbc⟩
  exact List.sorted_insertionSort (fun a b : Route => a.distance ≤ b.distance) st.allPaths

/-- Every route of the result is an extension of `[start]` recorded by `dfs`. -/
theorem findAllPaths_extends {g : Graph} {start finish : String} {maxDepth : Option Nat}
    {routes : List Route} (h : g.findAllPaths start finish maxDepth = .ok routes)
    {r : Route} (hr : r ∈ routes) :
    Extends g finish (maxDepth.getD 10) start [start] 0 [] r := by
  obtain ⟨st, hst, rfl⟩ := findAllPaths_ok h
  obtain ⟨_, new, hnew, hq⟩ := dfs_sound g finish _ _ _ _ _ _ _ hst (by simp)
  have hr' : r ∈ st.allPaths := (List.perm_insertionSort _ _).subset hr
  rw [hnew] at hr'
  exact hq r (by simpa using hr')

/-! ## Numbers, queue and walks -/

namespace JsNum

@[simp] theorem fin_le_fin {a b : Int} : fin a ≤ fin b ↔ a ≤ b := Iff.rfl
@[simp] theorem le_inf (a : JsNum) : a ≤ inf := by cases a <;> trivial
@[simp] theorem inf_le_fin {a : Int} : ¬ inf ≤ fin a := fun h => h
@[simp] theorem fin_lt_fin {a b : Int} : fin a < fin b ↔ a < b := Iff.rfl
@[simp] theorem fin_lt_inf (a : Int) : fin a < inf := trivial
@[simp] theorem not_inf_lt (a : JsNum) : ¬ inf < a := fun h => h
@[simp] theorem addWeight_fin (a w : Int) : (fin a).addWeight w = fin (a + w) := rfl
@[simp] theorem addWeight_inf (w : Int) : inf.addWeight w = inf := rfl

theorem le_addWeight (a : JsNum) {w : Int} (h : 0 ≤ w) : a ≤ a.addWeight w := by
  cases a with
  | fin a => simp; omega
  | inf => simp

theorem addWeight_le_addWeight {a b : JsNum} (h : a ≤ b) (w : Int) :
    a.addWeight w ≤ b.addWeight w := by
  cases a <;> cases b <;> simp at * <;> omega

theorem exists_fin_of_le_fin {a : JsNum} {n : Int} (h : a ≤ fin n) : ∃ m, a = fin m ∧ m ≤ n := by
  cases a with
  | fin m => exact ⟨m, rfl, h⟩
  | inf => exact absurd h inf_le_fin

end JsNum

namespace PriorityQueue

theorem mem_enqueue {q : PriorityQueue} {val : String} {priority : JsNum} {e : QEntry} :
    e ∈ (q.enqueue val priority).values ↔ e ∈ q.values ∨ e = ⟨val, priority⟩ := by
  unfold enqueue sort
  rw [(List.perm_insertionSort _ _).mem_iff]
  simp

theorem sorted_enqueue (q : PriorityQueue) (val : String) (priority : JsNum) :
    (q.enqueue val priority).values.Sorted (fun a b => a.priority ≤ b.priority) := by
  unfold enqueue sort
  haveI : IsTotal QEntry (fun a b => a.priority ≤ b.priority) :=
    ⟨fun a b => le_total a.priority b.priority⟩
  haveI : IsTrans QEntry (fun a b => a.priority ≤ b.priority) :=
    ⟨fun a b c hab hbc => le_trans hab hbc⟩
  exact List.sorted_insertionSort _ _

end PriorityQueue

theorem walkWeight_nonneg {g : Graph} (hnn : g.NonNeg) :
    ∀ {steps : List Edge} {u v : String}, g.IsWalk u steps v → 0 ≤ walkWeight steps := by
  intro steps
  induction steps with
  | nil => intro u v _; simp [walkWeight]
  | cons e rest ih =>
    intro u v hw
    obtain ⟨⟨a, ha, hea⟩, hrest⟩ := hw
    have h1 := hnn (u, a) (lookup_some_mem ha) e hea
    have h2 := ih hrest
    simp only [walkWeight, List.map_cons, List.sum_cons] at h2 ⊢
    omega

theorem Graph.IsWalk.append {g : Graph} :
    ∀ {steps₁ : List Edge} {u v w : String} {steps₂ : List Edge},
      g.IsWalk u steps₁ v → g.IsWalk v steps₂ w → g.IsWalk u (steps₁ ++ steps₂) w := by
  intro steps₁
  induction steps₁ with
  | nil => intro u v w steps₂ h1 h2; cases h1; exact h2
  | cons e rest ih =>
    intro u v w steps₂ h1 h2
    exact ⟨h1.1, ih h1.2 h2⟩

theorem walkWeight_append (a b : List Edge) :
    walkWeight (a ++ b) = walkWeight a + walkWeight b := by
  simp [walkWeight]

theorem dijkstraInitStep_eq (start : String) (s : DijkstraState) (x : String) :
    dijkstraInitStep start s x =
      { distances := Function.update s.distances x
          (some (if x = start then JsNum.fin 0 else JsNum.inf)),
        previous := Function.update s.previous x none,
        pq := s.pq.enqueue x (if x = start then JsNum.fin 0 else JsNum.inf) } := by
  unfold dijkstraInitStep
  split <;> rfl

/-- The state built by the initialisation loop over the keys `l`, started in `s0`. -/
theorem dijkstraInit_fold (start : String) (l : List String) :
    ∀ s0 : DijkstraState, s0.pq.values.Sorted (fun a b => a.priority ≤ b.priority) →
      (∀ v, (l.foldl (dijkstraInitStep start) s0).distances v =
        if v ∈ l then some (if v = start then JsNum.fin 0 else JsNum.inf)
        else s0.distances v) ∧
      (∀ v, (l.foldl (dijkstraInitStep start) s0).previous v =
        if v ∈ l then none else s0.previous v) ∧
      (∀ q, q ∈ (l.foldl (dijkstraInitStep start) s0).pq.values ↔ q ∈ s0.pq.values ∨
        (q.val ∈ l ∧ q.priority = if q.val = start then JsNum.fin 0 else JsNum.inf)) ∧
      (l.foldl (dijkstraInitStep start) s0).pq.values.Sorted
        (fun a b => a.priority ≤ b.priority) := by
  induction l with
  | nil => intro s0 h0; simp [h0]
  | cons x l ih =>
    intro s0 h0
    have hsorted : (dijkstraInitStep start s0 x).pq.values.Sorted
        (fun a b => a.priority ≤ b.priority) := by
      rw [dijkstraInitStep_eq]
      exact PriorityQueue.sorted_enqueue _ _ _
    obtain ⟨h1, h2, h3, h4⟩ := ih (dijkstraInitStep start s0 x) hsorted
    rw [List.foldl_cons]
    refine ⟨?_, ?_, ?_, h4⟩
    · intro v
      rw [h1 v, dijkstraInitStep_eq]
      by_cases hv : v ∈ l
      · simp [hv]
      · by_cases hvx : v = x
        · subst hvx
          simp [hv]
        · simp [hv, hvx, Function.update_noteq hvx]
    · intro v
      rw [h2 v, dijkstraInitStep_eq]
      by_cases hv : v ∈ l
      · simp [hv]
      · by_cases hvx : v = x
        · subst hvx
          simp [hv]
        · simp [hv, hvx, Function.update_noteq hvx]
    · intro q
      rw [h3 q, dijkstraInitStep_eq]
      simp only [PriorityQueue.mem_enqueue, List.mem_cons]
      constructor
      · rintro ((h | h) | h)
        · exact Or.inl h
        · subst h; simp
        · exact Or.inr ⟨Or.inr h.1, h.2⟩
      · rintro (h | ⟨h | h, h'⟩)
        · exact Or.inl (Or.inl h)
        · left; right
          cases q
          simp only at h h'
          subst h
          rw [h']
        · exact Or.inr ⟨h, h'⟩

/-! ## The search `dijkstra`: invariants -/

/-- The invariant holds after the initialisation loop. -/
theorem loopInv_init (g : Graph) (start : String) : LoopInv g start (dijkstraInit g start) := by
  obtain ⟨h1, h2, h3, h4⟩ := dijkstraInit_fold start g.keys
    ⟨fun _ => none, fun _ => none, PriorityQueue.empty⟩ List.sorted_nil
  have hd : ∀ v, (dijkstraInit g start).distances v =
      if v ∈ g.keys then some (if v = start then JsNum.fin 0 else JsNum.inf) else none := h1
  have hp : ∀ v, (dijkstraInit g start).previous v = none := by
    intro v
    have := h2 v
    simpa using this
  have hq : ∀ q, q ∈ (dijkstraInit g start).pq.values ↔
      (q.val ∈ g.keys ∧ q.priority = if q.val = start then JsNum.fin 0 else JsNum.inf) := by
    intro q
    have := h3 q
    simpa [PriorityQueue.empty] using this
  refine ⟨⟨?_, ?_, ?_, ?_, h4, ?_, ?_, ?_⟩, ?_⟩
  · intro v
    rw [hd v]
    by_cases hv : v ∈ g.keys
    · simp [hv, Graph.Registered]
    · simp [hv, Graph.Registered]
  · intro v d hv
    rw [hd v] at hv
    by_cases hk : v ∈ g.keys
    · by_cases hs : v = start
      · subst hs
        simp [hk] at hv
        exact ⟨[], rfl, by simp [walkWeight, hv]⟩
      · simp [hk, hs] at hv
    · simp [hk] at hv
  · intro d hd'
    rw [hd start] at hd'
    by_cases hk : start ∈ g.keys
    · simp [hk] at hd'
      subst hd'
      exact le_refl _
    · simp [hk] at hd'
  · intro q hq'
    obtain ⟨hk, hpri⟩ := (hq q).mp hq'
    refine ⟨q.priority, ?_, le_refl _⟩
    rw [hd q.val, if_pos hk, hpri]
  · intro v u hv
    rw [hp v] at hv
    cases hv
  · intro v
    exact ⟨0, PrevChain.root (hp v)⟩
  · intro v d _ hv
    rw [hd v] at hv
    by_cases hk : v ∈ g.keys
    · by_cases hs : v = start
      · exact hs
      · simp [hk, hs] at hv
    · simp [hk] at hv
  · intro v a ha
    left
    have hk : v ∈ g.keys := Graph.registered_iff.mpr ⟨a, ha⟩
    refine ⟨if v = start then JsNum.fin 0 else JsNum.inf, by rw [hd v, if_pos hk], ?_⟩
    exact (hq _).mpr ⟨hk, rfl⟩

/-- After the initialisation loop every registered vertex has an entry in the queue. -/
theorem finish_mem_init (g : Graph) (start : String) {finish : String}
    (hf : g.Registered finish) :
    ∃ q ∈ (dijkstraInit g start).pq.values, q.val = finish := by
  obtain ⟨_, _, h3, _⟩ := dijkstraInit_fold start g.keys
    ⟨fun _ => none, fun _ => none, PriorityQueue.empty⟩ List.sorted_nil
  exact ⟨⟨finish, if finish = start then JsNum.fin 0 else JsNum.inf⟩,
    (h3 _).mpr (Or.inr ⟨hf, rfl⟩), rfl⟩

/-- A pass of the relaxation loop either leaves the state alone, the entry offering no
improvement, or stores the smaller candidate. -/
theorem relaxStep_cases (smallest : String) (s : DijkstraState) (e : Edge) :
    (relaxStep smallest s e = s ∧ Relaxed s smallest e) ∨
    ∃ d dn, s.distances smallest = some d ∧ s.distances e.node = some dn ∧
      d.addWeight e.weight < dn ∧
      relaxStep smallest s e = improve s smallest e (d.addWeight e.weight) := by
  unfold relaxStep
  split
  · rename_i d dn hd hdn
    dsimp only
    split
    · rename_i hlt
      exact Or.inr ⟨d, dn, hd, hdn, hlt, rfl⟩
    · rename_i hlt
      refine Or.inl ⟨rfl, ?_⟩
      intro dv de hdv hde
      rw [hd] at hdv
      rw [hdn] at hde
      cases hdv
      cases hde
      exact not_lt.mp hlt
  · rename_i hnone
    refine Or.inl ⟨rfl, ?_⟩
    intro dv de hdv hde
    exact absurd hde (by
      intro h
      exact hnone dv de hdv h)

theorem edge_weight_nonneg {g : Graph} (hnn : g.NonNeg) {u : String} {a : List Edge}
    (ha : g.adj? u = some a) {e : Edge} (he : e ∈ a) : 0 ≤ e.weight :=
  hnn (u, a) (lookup_some_mem ha) e he

/-- A candidate that improves on the distance of `e.node` is finite, and `e.node` is not
the vertex being relaxed. -/
theorem improve_facts {g : Graph} (hnn : g.NonNeg) {s : DijkstraState} {cur : String}
    {a : List Edge} (ha : g.adj? cur = some a) {e : Edge} (he : e ∈ a) {d dn : JsNum}
    (hd : s.distances cur = some d) (hdn : s.distances e.node = some dn)
    (hlt : d.addWeight e.weight < dn) :
    (∃ d0, d = JsNum.fin d0 ∧ JsNum.fin d0 < dn) ∧ e.node ≠ cur := by
  have hw := edge_weight_nonneg hnn ha he
  cases d with
  | inf => exact absurd hlt (JsNum.not_inf_lt _)
  | fin d0 =>
    have h1 : JsNum.fin d0 < dn :=
      lt_of_le_of_lt (JsNum.le_addWeight (JsNum.fin d0) hw) hlt
    refine ⟨⟨d0, rfl, h1⟩, ?_⟩
    intro heq
    rw [heq, hd] at hdn
    cases hdn
    exact lt_irrefl _ h1

theorem PrevChain.avoid {g : Graph} (hnn : g.NonNeg) {start : String} {s : DijkstraState}
    (hc : Core g start s) {x cur : String} {dn : JsNum} (hdn : s.distances x = some dn) :
    ∀ {n : Nat} {y : String}, PrevChain s.previous n y →
      ∀ dy, s.distances y = some (JsNum.fin dy) → JsNum.fin dy < dn →
      PrevChain (Function.update s.previous x (some cur)) n y := by
  intro n y hch
  induction hch with
  | @root v hprev =>
    intro dy hdy hlt
    have hne : v ≠ x := by
      rintro rfl
      rw [hdn] at hdy
      cases hdy
      exact lt_irrefl _ hlt
    exact PrevChain.root (by rw [Function.update_noteq hne]; exact hprev)
  | @link v u n hprev _ ih =>
    intro dy hdy hlt
    have hne : v ≠ x := by
      rintro rfl
      rw [hdn] at hdy
      cases hdy
      exact lt_irrefl _ hlt
    obtain ⟨du, dv, a, w, hdu, hdv, ha, hea, hle⟩ := hc.prev_edge v u hprev
    rw [hdy] at hdv
    cases hdv
    have hw := edge_weight_nonneg hnn ha hea
    have hw' : 0 ≤ w := hw
    refine PrevChain.link (by rw [Function.update_noteq hne]; exact hprev) (ih du hdu ?_)
    exact lt_of_le_of_lt (show JsNum.fin du ≤ JsNum.fin dy from by
      rw [JsNum.fin_le_fin]; omega) hlt

/-- Storing an improving candidate keeps the core invariant. -/
theorem core_improve {g : Graph} (hnn : g.NonNeg) {start : String} {s : DijkstraState}
    (hc : Core g start s) {cur : String} {a : List Edge} (ha : g.adj? cur = some a)
    {e : Edge} (he : e ∈ a) {d dn : JsNum} (hd : s.distances cur = some d)
    (hdn : s.distances e.node = some dn) (hlt : d.addWeight e.weight < dn) :
    Core g start (improve s cur e (d.addWeight e.weight)) := by
  obtain ⟨⟨d0, rfl, hd0⟩, hne⟩ := improve_facts hnn ha he hd hdn hlt
  have hw := edge_weight_nonneg hnn ha he
  have hdist : ∀ v, v ≠ e.node →
      (improve s cur e ((JsNum.fin d0).addWeight e.weight)).distances v
        = s.distances v := fun v hv => Function.update_noteq hv _ _
  have hdistx : (improve s cur e ((JsNum.fin d0).addWeight e.weight)).distances e.node
      = some (JsNum.fin (d0 + e.weight)) := Function.update_same _ _ _
  have hprev : ∀ v, v ≠ e.node →
      (improve s cur e ((JsNum.fin d0).addWeight e.weight)).previous v
        = s.previous v := fun v hv => Function.update_noteq hv _ _
  have hprevx : (improve s cur e ((JsNum.fin d0).addWeight e.weight)).previous e.node
      = some cur := Function.update_same _ _ _
  have hpq : ∀ q, q ∈ (improve s cur e ((JsNum.fin d0).addWeight e.weight)).pq.values ↔
      q ∈ s.pq.values ∨ q = ⟨e.node, JsNum.fin (d0 + e.weight)⟩ :=
    fun q => PriorityQueue.mem_enqueue
  have hchain_cur : ∃ m, PrevChain (Function.update s.previous e.node (some cur)) m cur := by
    obtain ⟨m, hm⟩ := hc.prev_chain cur
    exact ⟨m, hm.avoid hnn hc hdn d0 hd hd0⟩
  refine ⟨?_, ?_, ?_, ?_, PriorityQueue.sorted_enqueue _ _ _, ?_, ?_, ?_⟩
  · intro v
    by_cases hv : v = e.node
    · subst hv
      rw [hdistx, hc.dom, hdn]
      simp
    · rw [hdist v hv]; exact hc.dom v
  · intro v dv hv
    by_cases hvx : v = e.node
    · subst hvx
      rw [hdistx] at hv
      cases hv
      obtain ⟨steps, hw1, hw2⟩ := hc.walk cur d0 hd
      refine ⟨steps ++ [e], hw1.append ⟨⟨a, ha, he⟩, rfl⟩, ?_⟩
      rw [walkWeight_append, hw2]
      simp [walkWeight]
    · rw [hdist v hvx] at hv
      exact hc.walk v dv hv
  · intro dv hv
    by_cases hvx : start = e.node
    · rw [hvx, hdistx] at hv
      cases hv
      have := hc.start_le dn (by rw [hvx]; exact hdn)
      exact le_trans (le_of_lt hlt) this
    · rw [hdist start hvx] at hv
      exact hc.start_le dv hv
  · intro q hq
    rcases (hpq q).mp hq with hq | hq
    · obtain ⟨dq, hdq, hle⟩ := hc.entry_ge q hq
      by_cases hvx : q.val = e.node
      · refine ⟨JsNum.fin (d0 + e.weight), by rw [hvx]; exact hdistx, ?_⟩
        rw [hvx, hdn] at hdq
        cases hdq
        exact le_trans (le_of_lt hlt) hle
      · exact ⟨dq, by rw [hdist _ hvx]; exact hdq, hle⟩
    · subst hq
      exact ⟨_, hdistx, le_refl _⟩
  · intro v u hvu
    by_cases hvx : v = e.node
    · subst hvx
      rw [hprevx] at hvu
      cases hvu
      exact ⟨d0, d0 + e.weight, a, e.weight, by rw [hdist _ hne.symm]; exact hd, hdistx, ha,
        he, le_refl _⟩
    · rw [hprev v hvx] at hvu
      obtain ⟨du, dv, a', w, hdu, hdv, ha', hea', hle⟩ := hc.prev_edge v u hvu
      by_cases hux : u = e.node
      · subst hux
        rw [hdn] at hdu
        cases hdu
        refine ⟨d0 + e.weight, dv, a', w, hdistx, by rw [hdist _ hvx]; exact hdv, ha', hea', ?_⟩
        have : d0 + e.weight < du := hlt
        omega
      · exact ⟨du, dv, a', w, by rw [hdist _ hux]; exact hdu, by rw [hdist _ hvx]; exact hdv,
          ha', hea', hle⟩
  · intro v
    obtain ⟨m, hm⟩ := hchain_cur
    obtain ⟨n, hn⟩ := hc.prev_chain v
    show ∃ n, PrevChain (Function.update s.previous e.node (some cur)) n v
    induction hn with
    | @root v hroot =>
      by_cases hvx : v = e.node
      · subst hvx
        exact ⟨m + 1, PrevChain.link (Function.update_same _ _ _) hm⟩
      · exact ⟨0, PrevChain.root (by rw [Function.update_noteq hvx]; exact hroot)⟩
    | @link v u n hlink _ ih =>
      by_cases hvx : v = e.node
      · subst hvx
        exact ⟨m + 1, PrevChain.link (Function.update_same _ _ _) hm⟩
      · obtain ⟨n', hn'⟩ := ih
        exact ⟨n' + 1, PrevChain.link (by rw [Function.update_noteq hvx]; exact hlink) hn'⟩
  · intro v dv hpv hdv
    by_cases hvx : v = e.node
    · subst hvx
      rw [hprevx] at hpv
      cases hpv
    · rw [hprev v hvx] at hpv
      rw [hdist v hvx] at hdv
      exact hc.root v dv hpv hdv

/-- An entry that offered no improvement still offers none after another vertex took a
smaller distance. -/
theorem relaxed_improve {s : DijkstraState} {v : String} {e' : Edge} (h : Relaxed s v e')
    {cur : String} {e : Edge} {c dn : JsNum} (hdn : s.distances e.node = some dn)
    (hle : c ≤ dn) (hv : v ≠ e.node) : Relaxed (improve s cur e c) v e' := by
  intro dv de hdv hde
  have hdv' : s.distances v = some dv := by
    rw [← hdv]; exact (Function.update_noteq hv _ _).symm
  by_cases hx : e'.node = e.node
  · have hde' : de = c := by
      have : (improve s cur e c).distances e'.node = some c := by
        rw [hx]; exact Function.update_same _ _ _
      rw [this] at hde
      cases hde; rfl
    rw [hde']
    exact le_trans hle (h dv dn hdv' (by rw [hx]; exact hdn))
  · have hde' : s.distances e'.node = some de := by
      rw [← hde]; exact (Function.update_noteq hx _ _).symm
    exact h dv de hdv' hde'

/-- One pass of the relaxation loop keeps the invariant and extends the handled entries. -/
theorem midInv_relaxStep {g : Graph} (hnn : g.NonNeg) {start cur : String}
    {processed : List Edge} {s : DijkstraState} (h : MidInv g start cur processed s)
    {a : List Edge} (ha : g.adj? cur = some a) {e : Edge} (he : e ∈ a) :
    MidInv g start cur (processed ++ [e]) (relaxStep cur s e) := by
  obtain ⟨hc, hset, hproc⟩ := h
  rcases relaxStep_cases cur s e with ⟨heq, hrel⟩ | ⟨d, dn, hd, hdn, hlt, heq⟩
  · rw [heq]
    refine ⟨hc, hset, ?_⟩
    intro e' he'
    rcases List.mem_append.mp he' with h1 | h1
    · exact hproc e' h1
    · rw [List.mem_singleton] at h1
      subst h1
      exact hrel
  · rw [heq]
    obtain ⟨⟨d0, rfl, hd0⟩, hne⟩ := improve_facts hnn ha he hd hdn hlt
    refine ⟨core_improve hnn hc ha he hd hdn hlt, ?_, ?_⟩
    · intro v a' ha' hv
      by_cases hvx : v = e.node
      · left
        subst hvx
        exact ⟨_, Function.update_same _ _ _, PriorityQueue.mem_enqueue.mpr (Or.inr rfl)⟩
      · rcases hset v a' ha' hv with ⟨dv, hdv, hmem⟩ | hrel
        · left
          exact ⟨dv, by
            show Function.update s.distances e.node _ v = some dv
            rw [Function.update_noteq hvx]; exact hdv,
            PriorityQueue.mem_enqueue.mpr (Or.inl hmem)⟩
        · right
          intro e' he'
          exact relaxed_improve (hrel e' he') hdn (le_of_lt hlt) hvx
    · intro e' he'
      rcases List.mem_append.mp he' with h1 | h1
      · exact relaxed_improve (hproc e' h1) hdn (le_of_lt hlt) hne.symm
      · rw [List.mem_singleton] at h1
        subst h1
        intro dv de hdv hde
        have hdv' : dv = JsNum.fin d0 := by
          have : (improve s cur e' ((JsNum.fin d0).addWeight e'.weight)).distances cur
              = some (JsNum.fin d0) := by
            show Function.update s.distances e'.node _ cur = _
            rw [Function.update_noteq hne.symm]; exact hd
          rw [this] at hdv
          cases hdv; rfl
        have hde' : de = (JsNum.fin d0).addWeight e'.weight := by
          have : (improve s cur e' ((JsNum.fin d0).addWeight e'.weight)).distances
              e'.node = some ((JsNum.fin d0).addWeight e'.weight) := Function.update_same _ _ _
          rw [this] at hde
          cases hde; rfl
        rw [hdv', hde']

/-- Storing an improving candidate decreases the termination measure. -/
theorem progress_improve {g : Graph} (hnn : g.NonNeg) {start : String} {s : DijkstraState}
    (hc : Core g start s) {cur : String} {a : List Edge} (ha : g.adj? cur = some a)
    {e : Edge} (he : e ∈ a) {d dn : JsNum} (hd : s.distances cur = some d)
    (hdn : s.distances e.node = some dn) (hlt : d.addWeight e.weight < dn) :
    Progress g s (improve s cur e (d.addWeight e.weight)) := by
  obtain ⟨⟨d0, rfl, hd0⟩, hne⟩ := improve_facts hnn ha he hd hdn hlt
  have hw := edge_weight_nonneg hnn ha he
  have hx : e.node ∈ g.keys := (hc.dom e.node).mpr ⟨dn, hdn⟩
  have hd0nn : 0 ≤ d0 := by
    obtain ⟨steps, hw1, hw2⟩ := hc.walk cur d0 hd
    rw [← hw2]; exact walkWeight_nonneg hnn hw1
  have hdist : ∀ v, v ≠ e.node →
      (improve s cur e ((JsNum.fin d0).addWeight e.weight)).distances v
        = s.distances v := fun v hv => Function.update_noteq hv _ _
  have hdistx : (improve s cur e ((JsNum.fin d0).addWeight e.weight)).distances e.node
      = some (JsNum.fin (d0 + e.weight)) := Function.update_same _ _ _
  cases dn with
  | inf =>
    left
    unfold infCount
    apply List.sum_lt_sum
    · intro v _
      by_cases hv : v = e.node
      · subst hv
        rw [hdistx, hdn]
        simp
      · rw [hdist v hv]
    · exact ⟨e.node, hx, by rw [hdistx, hdn]; simp⟩
  | fin n0 =>
    right
    have hlt' : d0 + e.weight < n0 := hlt
    constructor
    · unfold infCount
      congr 1
      apply List.map_congr_left
      intro v _
      by_cases hv : v = e.node
      · subst hv
        rw [hdistx, hdn]
        simp
      · rw [hdist v hv]
    · unfold finSum
      apply List.sum_lt_sum
      · intro v _
        by_cases hv : v = e.node
        · subst hv
          rw [hdistx, hdn]
          exact Int.toNat_le_toNat (le_of_lt hlt')
        · rw [hdist v hv]
      · refine ⟨e.node, hx, ?_⟩
        rw [hdistx, hdn]
        exact (Int.toNat_lt_toNat (by omega)).mpr hlt'

theorem Progress.trans {g : Graph} {s1 s2 s3 : DijkstraState} (h1 : Progress g s1 s2)
    (h2 : s3 = s2 ∨ Progress g s2 s3) : Progress g s1 s3 := by
  rcases h2 with rfl | h2
  · exact h1
  · unfold Progress at *
    omega

/-- The relaxation loop over entries of the adjacency list of `cur`: the invariant is
kept, no queue entry is lost, and the state is unchanged or the measure has decreased. -/
theorem MidInv.foldl {g : Graph} (hnn : g.NonNeg) {start cur : String} {a : List Edge}
    (ha : g.adj? cur = some a) :
    ∀ (l : List Edge) (processed : List Edge) (s : DijkstraState),
      (∀ e ∈ l, e ∈ a) → MidInv g start cur processed s →
      MidInv g start cur (processed ++ l) (l.foldl (relaxStep cur) s) ∧
      (∀ q ∈ s.pq.values, q ∈ (l.foldl (relaxStep cur) s).pq.values) ∧
      (l.foldl (relaxStep cur) s = s ∨
        Progress g s (l.foldl (relaxStep cur) s)) := by
  intro l
  induction l with
  | nil =>
    intro processed s _ h
    rw [List.append_nil]
    exact ⟨h, fun q hq => hq, Or.inl rfl⟩
  | cons e l ih =>
    intro processed s hl h
    have he : e ∈ a := hl e (List.mem_cons_self _ _)
    have h1 := midInv_relaxStep hnn h ha he
    obtain ⟨i1, i2, i3⟩ := ih (processed ++ [e]) (relaxStep cur s e)
      (fun e' he' => hl e' (List.mem_cons_of_mem _ he')) h1
    rw [List.foldl_cons]
    refine ⟨by simpa using i1, ?_, ?_⟩
    · intro q hq
      apply i2
      rcases relaxStep_cases cur s e with ⟨heq, _⟩ | ⟨d, dn, _, _, _, heq⟩
      · rw [heq]; exact hq
      · rw [heq]; exact PriorityQueue.mem_enqueue.mpr (Or.inl hq)
    · rcases relaxStep_cases cur s e with ⟨heq, _⟩ | ⟨d, dn, hd, hdn, hlt, heq⟩
      · rw [heq] at i3 ⊢
        exact i3
      · right
        have hp : Progress g s (relaxStep cur s e) := by
          rw [heq]; exact progress_improve hnn h.1 ha he hd hdn hlt
        exact hp.trans i3

theorem dijkstraLoop_pop_finish (g : Graph) {finish : String} {s : DijkstraState}
    {entry : QEntry} {rest : List QEntry} (hpq : s.pq.values = entry :: rest)
    (hval : entry.val = finish) (fuel : Nat) :
    dijkstraLoop g finish (fuel + 1) s =
      (pathLoop s.previous (fuel + 1) finish []).map
        (fun path => ({ s with pq := ⟨rest⟩ }, path)) := by
  rw [dijkstraLoop]
  simp [PriorityQueue.isEmpty, PriorityQueue.dequeue, hpq, hval]

theorem dijkstraLoop_pop_other (g : Graph) {finish : String} {s : DijkstraState}
    {entry : QEntry} {rest : List QEntry} (hpq : s.pq.values = entry :: rest)
    (hval : entry.val ≠ finish) (fuel : Nat) :
    dijkstraLoop g finish (fuel + 1) s = dijkstraLoop g finish fuel (afterPop g s entry rest) := by
  rw [dijkstraLoop]
  unfold afterPop
  by_cases h : (truthy entry.val || decide (s.distances entry.val ≠ some JsNum.inf)) = true
  · simp only [PriorityQueue.isEmpty, PriorityQueue.dequeue, hpq, List.length_cons,
      List.head?_cons, List.tail_cons, hval, if_false, h, if_true]
    rfl
  · simp only [PriorityQueue.isEmpty, PriorityQueue.dequeue, hpq, List.length_cons,
      List.head?_cons, List.tail_cons, hval, if_false, h]
    rfl

/-- A pass of the main loop that dequeues a vertex keeps the invariant, loses no other
queue entry, and either only shortens the queue or decreases the measure. -/
theorem loopInv_afterPop {g : Graph} (hnn : g.NonNeg) {start : String} {s : DijkstraState}
    (h : LoopInv g start s) {entry : QEntry} {rest : List QEntry}
    (hpq : s.pq.values = entry :: rest) :
    LoopInv g start (afterPop g s entry rest) ∧
    (∀ q ∈ rest, q ∈ (afterPop g s entry rest).pq.values) ∧
    (((afterPop g s entry rest).pq.values = rest ∧
        infCount g (afterPop g s entry rest) = infCount g s ∧
        finSum g (afterPop g s entry rest) = finSum g s) ∨
      Progress g s (afterPop g s entry rest)) := by
  obtain ⟨hc, hset⟩ := h
  have hc1 : Core g start { s with pq := ⟨rest⟩ } := by
    refine ⟨hc.dom, hc.walk, hc.start_le, ?_, ?_, hc.prev_edge, hc.prev_chain, hc.root⟩
    · intro q hq
      exact hc.entry_ge q (by rw [hpq]; exact List.mem_cons_of_mem _ hq)
    · have := hc.sorted
      rw [hpq] at this
      exact this.tail
  have hmid : MidInv g start entry.val [] { s with pq := ⟨rest⟩ } := by
    refine ⟨hc1, ?_, by simp⟩
    intro v a ha hv
    rcases hset v a ha with ⟨d, hd, hmem⟩ | hrel
    · left
      refine ⟨d, hd, ?_⟩
      rw [hpq] at hmem
      rcases List.mem_cons.mp hmem with h1 | h1
      · exact absurd (congrArg QEntry.val h1) hv
      · exact h1
    · exact Or.inr hrel
  unfold afterPop
  split
  · cases hadj : g.adj? entry.val with
    | none =>
      rw [Option.getD_none, List.foldl_nil]
      refine ⟨⟨hc1, ?_⟩, fun q hq => hq, Or.inl ⟨rfl, rfl, rfl⟩⟩
      intro v a ha
      by_cases hv : v = entry.val
      · rw [hv, hadj] at ha
        cases ha
      · exact hmid.2.1 v a ha hv
    | some a =>
      rw [Option.getD_some]
      obtain ⟨i1, i2, i3⟩ := MidInv.foldl hnn hadj a [] _ (fun e he => he) hmid
      refine ⟨⟨i1.1, ?_⟩, i2, ?_⟩
      · intro v a' ha'
        by_cases hv : v = entry.val
        · right
          rw [hv, hadj] at ha'
          cases ha'
          rw [hv]
          exact fun e he => i1.2.2 e (by simpa using he)
        · exact i1.2.1 v a' ha' hv
      · rcases i3 with i3 | i3
        · left
          rw [i3]
          exact ⟨rfl, rfl, rfl⟩
        · exact Or.inr i3
  · rename_i hguard
    refine ⟨⟨hc1, ?_⟩, fun q hq => hq, Or.inl ⟨rfl, rfl, rfl⟩⟩
    intro v a ha
    by_cases hv : v = entry.val
    · right
      intro e _ dv de hdv _
      have : s.distances entry.val = some JsNum.inf := by
        by_contra hcon
        exact hguard (by simp [hcon])
      rw [hv, this] at hdv
      cases hdv
      exact JsNum.le_inf _
    · exact hmid.2.1 v a ha hv

/-- From a state satisfying the invariant with an entry for `finish` in the queue, the
main loop reaches, after finitely many passes, a state in which `finish` is dequeued. -/
theorem dijkstraLoop_reaches {g : Graph} (hnn : g.NonNeg) (start finish : String) :
    ∀ (k m q : Nat) (s : DijkstraState), infCount g s = k → finSum g s = m →
      s.pq.values.length = q → LoopInv g start s →
      (∃ e ∈ s.pq.values, e.val = finish) →
      ∃ (T : Nat) (sf : DijkstraState) (entry : QEntry) (rest : List QEntry),
        LoopInv g start sf ∧ sf.pq.values = entry :: rest ∧ entry.val = finish ∧
        ∀ j, dijkstraLoop g finish (T + 1 + j) s =
          (pathLoop sf.previous (j + 1) finish []).map
            (fun path => ({ sf with pq := ⟨rest⟩ }, path)) := by
  intro k
  induction k using Nat.strong_induction_on with
  | _ k ihk =>
  intro m
  induction m using Nat.strong_induction_on with
  | _ m ihm =>
  intro q
  induction q using Nat.strong_induction_on with
  | _ q ihq =>
  intro s hk hm hq hinv hfin
  cases hpq : s.pq.values with
  | nil =>
    obtain ⟨e, he, _⟩ := hfin
    rw [hpq] at he
    cases he
  | cons entry rest =>
    by_cases hval : entry.val = finish
    · exact ⟨0, s, entry, rest, hinv, hpq, hval, fun j => by
        rw [show 0 + 1 + j = j + 1 by omega]
        exact dijkstraLoop_pop_finish g hpq hval j⟩
    · obtain ⟨i1, i2, i3⟩ := loopInv_afterPop hnn hinv hpq
      have hfin' : ∃ e ∈ (afterPop g s entry rest).pq.values, e.val = finish := by
        obtain ⟨e, he, hev⟩ := hfin
        rw [hpq] at he
        rcases List.mem_cons.mp he with h1 | h1
        · subst h1; exact absurd hev hval
        · exact ⟨e, i2 e h1, hev⟩
      have hstep : ∀ (T' : Nat) (sf : DijkstraState) (rest' : List QEntry),
          (∀ j, dijkstraLoop g finish (T' + 1 + j) (afterPop g s entry rest) =
            (pathLoop sf.previous (j + 1) finish []).map
              (fun path => ({ sf with pq := ⟨rest'⟩ }, path))) →
          ∀ j, dijkstraLoop g finish (T' + 1 + 1 + j) s =
            (pathLoop sf.previous (j + 1) finish []).map
              (fun path => ({ sf with pq := ⟨rest'⟩ }, path)) := by
        intro T' sf rest' hT j
        rw [show T' + 1 + 1 + j = (T' + 1 + j) + 1 by omega,
          dijkstraLoop_pop_other g hpq hval]
        exact hT j
      have hres : ∃ (T : Nat) (sf : DijkstraState) (entry' : QEntry) (rest' : List QEntry),
          LoopInv g start sf ∧ sf.pq.values = entry' :: rest' ∧ entry'.val = finish ∧
          ∀ j, dijkstraLoop g finish (T + 1 + j) (afterPop g s entry rest) =
            (pathLoop sf.previous (j + 1) finish []).map
              (fun path => ({ sf with pq := ⟨rest'⟩ }, path)) := by
        rcases i3 with ⟨h1, h2, h3⟩ | hprog
        · refine ihq rest.length ?_ _ (by rw [h2, hk]) (by rw [h3, hm]) (by rw [h1]) i1 hfin'
          rw [← hq, hpq]
          simp
        · rcases hprog with hprog | ⟨hpe, hprog⟩
          · exact ihk _ (by rw [← hk]; exact hprog) _ _ _ rfl rfl rfl i1 hfin'
          · exact ihm _ (by rw [← hm]; exact hprog) _ _ (by rw [hpe, hk]) rfl rfl i1 hfin'
      obtain ⟨T', sf, entry', rest', j1, j2, j3, j4⟩ := hres
      exact ⟨T' + 1, sf, entry', rest', j1, j2, j3, hstep T' sf rest' j4⟩

/-- The path loop started at the end of a predecessor chain returns, and returns the same
list for every sufficient amount of fuel. -/
theorem pathLoop_returns {previous : String → Option String} :
    ∀ {n : Nat} {v : String}, PrevChain previous n v →
      ∃ p, ∀ fuel, n + 1 ≤ fuel → ∀ path, pathLoop previous fuel v path = some (path ++ p) := by
  intro n v h
  induction h with
  | @root v hroot =>
    refine ⟨[], ?_⟩
    intro fuel hfuel path
    obtain ⟨f, rfl⟩ : ∃ f, fuel = f + 1 := ⟨fuel - 1, by omega⟩
    rw [pathLoop, hroot]
    simp
  | @link v u n hlink _ ih =>
    obtain ⟨p, hp⟩ := ih
    by_cases ht : truthy u = true
    · refine ⟨v :: p, ?_⟩
      intro fuel hfuel path
      obtain ⟨f, rfl⟩ : ∃ f, fuel = f + 1 := ⟨fuel - 1, by omega⟩
      rw [pathLoop, hlink]
      simp only [ht, if_true]
      rw [hp f (by omega)]
      simp
    · refine ⟨[], ?_⟩
      intro fuel hfuel path
      obtain ⟨f, rfl⟩ : ∃ f, fuel = f + 1 := ⟨fuel - 1, by omega⟩
      rw [pathLoop, hlink]
      simp [ht]

/-- Along a walk to `finish`, either the tentative distance of `finish` is bounded by the
weight of the walk, or some queue entry is. -/
theorem LoopInv.walk_bound {g : Graph} (hnn : g.NonNeg) {start : String} {s : DijkstraState}
    (h : LoopInv g start s) {finish : String} (hf : g.Registered finish) :
    ∀ (steps : List Edge) (u : String) (c : Int) (du : JsNum),
      g.IsWalk u steps finish → s.distances u = some du → du ≤ JsNum.fin c →
      (∃ dv, s.distances finish = some dv ∧ dv ≤ JsNum.fin (c + walkWeight steps)) ∨
      (∃ q ∈ s.pq.values, q.priority ≤ JsNum.fin (c + walkWeight steps)) := by
  intro steps
  induction steps with
  | nil =>
    intro u c du hw hdu hle
    cases hw
    exact Or.inl ⟨du, hdu, by simpa [walkWeight] using hle⟩
  | cons e rest ih =>
    intro u c du hw hdu hle
    have hnonneg : 0 ≤ walkWeight (e :: rest) := walkWeight_nonneg hnn hw
    obtain ⟨⟨a, ha, hea⟩, hrest⟩ := hw
    rcases h.2 u a ha with ⟨d, hd, hmem⟩ | hrel
    · right
      rw [hdu] at hd
      cases hd
      refine ⟨_, hmem, le_trans hle ?_⟩
      rw [JsNum.fin_le_fin]
      omega
    · have hreg : g.Registered e.node := by
        cases rest with
        | nil =>
          have : e.node = finish := hrest
          rw [this]; exact hf
        | cons e' rest' =>
          obtain ⟨⟨a', ha', _⟩, _⟩ := hrest
          exact Graph.registered_iff.mpr ⟨a', ha'⟩
      obtain ⟨de, hde⟩ := (h.1.dom e.node).mp hreg
      have h1 : de ≤ du.addWeight e.weight := hrel e hea du de hdu hde
      have h2 : de ≤ JsNum.fin (c + e.weight) :=
        le_trans h1 (JsNum.addWeight_le_addWeight hle e.weight)
      have := ih e.node (c + e.weight) de hrest hde h2
      have hww : c + e.weight + walkWeight rest = c + walkWeight (e :: rest) := by
        simp [walkWeight]; ring
      rw [hww] at this
      exact this

/-- When `finish` is at the head of the queue its tentative distance is at most the weight
of every walk from `start`. -/
theorem LoopInv.head_minimal {g : Graph} (hnn : g.NonNeg) {start : String}
    {s : DijkstraState} (h : LoopInv g start s) (hs : g.Registered start)
    {entry : QEntry} {rest : List QEntry} (hpq : s.pq.values = entry :: rest)
    (hf : g.Registered entry.val) {steps : List Edge}
    (hw : g.IsWalk start steps entry.val) :
    ∃ d, s.distances entry.val = some d ∧ d ≤ JsNum.fin (walkWeight steps) := by
  obtain ⟨ds, hds⟩ := (h.1.dom start).mp hs
  obtain ⟨d, hd, hle⟩ := h.1.entry_ge entry (by rw [hpq]; exact List.mem_cons_self _ _)
  refine ⟨d, hd, ?_⟩
  rcases h.walk_bound hnn hf steps start 0 ds hw hds (h.1.start_le ds hds) with
    ⟨dv, hdv, hle'⟩ | ⟨q, hq, hle'⟩
  · rw [hd] at hdv
    cases hdv
    simpa using hle'
  · have hsorted := h.1.sorted
    rw [hpq] at hsorted hq
    have : entry.priority ≤ q.priority := by
      rcases List.mem_cons.mp hq with h1 | h1
      · rw [h1]
      · exact List.rel_of_sorted_cons hsorted q h1
    exact le_trans hle (le_trans this (by simpa using hle'))

/-- The search returns for every sufficient amount of fuel: the main loop ends by
dequeuing `finish` in a state `sf` that satisfies the invariant, and the result holds the
tentative distance of `finish` and the list `p` pushed by the path loop. -/
theorem dijkstra_returns {g : Graph} (hnn : g.NonNeg) (start : String) {finish : String}
    (hf : g.Registered finish) :
    ∃ (N : Nat) (sf : DijkstraState) (entry : QEntry) (rest : List QEntry) (p : List String),
      LoopInv g start sf ∧ sf.pq.values = entry :: rest ∧ entry.val = finish ∧
      (∃ n, ∀ fuel, n ≤ fuel → pathLoop sf.previous fuel finish [] = some p) ∧
      ∀ fuel, N ≤ fuel → g.dijkstra start finish fuel =
        some ⟨sf.distances finish, (p ++ [start]).reverse⟩ := by
  obtain ⟨T, sf, entry, rest, h1, h2, h3, h4⟩ :=
    dijkstraLoop_reaches hnn start finish _ _ _ (dijkstraInit g start) rfl rfl rfl
      (loopInv_init g start) (finish_mem_init g start hf)
  obtain ⟨n, hn⟩ := h1.1.prev_chain finish
  obtain ⟨p, hp⟩ := pathLoop_returns hn
  refine ⟨T + 1 + n, sf, entry, rest, p, h1, h2, h3, ⟨n + 1, fun fuel hfuel => by
    simpa using hp fuel hfuel []⟩, ?_⟩
  intro fuel hfuel
  obtain ⟨j, rfl⟩ : ∃ j, fuel = T + 1 + j := ⟨fuel - (T + 1), by omega⟩
  unfold Graph.dijkstra
  rw [h4 j, hp (j + 1) (by omega) []]
  rfl

/-- A walk through `u` splits into a walk to `u` and a walk from `u`, whose nodes are the
last nodes of the whole walk. -/
theorem Graph.IsWalk.split {g : Graph} {u v : String} :
    ∀ (steps : List Edge) (x : String), g.IsWalk x steps v →
      u ∈ x :: steps.map Edge.node →
      ∃ pre suf, steps = pre ++ suf ∧ g.IsWalk x pre u ∧ g.IsWalk u suf v ∧
        (u :: suf.map Edge.node) <:+ (x :: steps.map Edge.node) := by
  intro steps
  induction steps with
  | nil =>
    intro x hw hu
    have : u = x := by simpa using hu
    subst this
    exact ⟨[], [], rfl, rfl, hw, List.suffix_refl _⟩
  | cons e rest ih =>
    intro x hw hu
    by_cases hux : u = x
    · subst hux
      exact ⟨[], e :: rest, rfl, rfl, hw, List.suffix_refl _⟩
    · have hu' : u ∈ e.node :: rest.map Edge.node := by
        rcases List.mem_cons.mp hu with h | h
        · exact absurd h hux
        · simpa using h
      obtain ⟨pre, suf, hsplit, hpre, hsuf, hsfx⟩ := ih e.node hw.2 hu'
      refine ⟨e :: pre, suf, by rw [hsplit]; rfl, ⟨hw.1, hpre⟩, hsuf, ?_⟩
      rw [List.map_cons]
      exact hsfx.trans (List.suffix_cons _ _)

/-- With non-negative weights, a walk can be replaced by one that repeats no node, is not
heavier and is not longer. -/
theorem Graph.IsWalk.exists_simple {g : Graph} (hnn : g.NonNeg) {v : String} :
    ∀ (steps : List Edge) (u : String), g.IsWalk u steps v →
      ∃ steps', g.IsWalk u steps' v ∧ (u :: steps'.map Edge.node).Nodup ∧
        walkWeight steps' ≤ walkWeight steps ∧ steps'.length ≤ steps.length := by
  intro steps
  induction steps with
  | nil =>
    intro u hw
    exact ⟨[], hw, by simp, le_refl _, le_refl _⟩
  | cons e rest ih =>
    intro u hw
    obtain ⟨⟨a, ha, hea⟩, hrest⟩ := hw
    have hwe : 0 ≤ e.weight := edge_weight_nonneg hnn ha hea
    obtain ⟨steps1, hw1, hnd1, hle1, hlen1⟩ := ih e.node hrest
    by_cases hu : u ∈ e.node :: steps1.map Edge.node
    · obtain ⟨pre, suf, hsplit, hpre, hsuf, hsfx⟩ := hw1.split steps1 e.node hu
      have hpre0 : 0 ≤ walkWeight pre := walkWeight_nonneg hnn hpre
      refine ⟨suf, hsuf, hnd1.sublist hsfx.sublist, ?_, ?_⟩
      · rw [hsplit, walkWeight_append] at hle1
        simp only [walkWeight, List.map_cons, List.sum_cons] at hle1 hpre0 ⊢
        omega
      · rw [hsplit] at hlen1
        simp only [List.length_append, List.length_cons] at hlen1 ⊢
        omega
    · refine ⟨e :: steps1, ⟨⟨a, ha, hea⟩, hw1⟩, ?_, ?_, ?_⟩
      · rw [List.map_cons]
        exact List.nodup_cons.mpr ⟨hu, hnd1⟩
      · simp only [walkWeight, List.map_cons, List.sum_cons] at hle1 ⊢
        omega
      · simp only [List.length_cons]
        omega

/-- On a graph without dangling edges, every node of a walk from a registered vertex is
registered. -/
theorem Graph.IsWalk.nodes_registered {g : Graph} (hc : g.Closed) {v : String} :
    ∀ (steps : List Edge) (u : String), g.IsWalk u steps v → g.Registered u →
      ∀ x ∈ u :: steps.map Edge.node, g.Registered x := by
  intro steps
  induction steps with
  | nil =>
    intro u _ hu x hx
    have : x = u := by simpa using hx
    rw [this]; exact hu
  | cons e rest ih =>
    intro u hw hu x hx
    obtain ⟨⟨a, ha, hea⟩, hrest⟩ := hw
    rcases List.mem_cons.mp hx with h | h
    · rw [h]; exact hu
    · exact ih e.node hrest (hc.registered ha hea) x (by simpa using h)

theorem pathLoop_mono {previous : String → Option String} :
    ∀ (fuel : Nat) (v : String) (path p : List String),
      pathLoop previous fuel v path = some p → pathLoop previous (fuel + 1) v path = some p := by
  intro fuel
  induction fuel with
  | zero => intro v path p h; simp [pathLoop] at h
  | succ fuel ih =>
    intro v path p h
    rw [pathLoop] at h ⊢
    split at h
    · split at h
      · rename_i ht
        rw [if_pos ht]
        exact ih _ _ _ h
      · rename_i ht
        rw [if_neg ht]
        exact h
    · exact h

theorem dijkstraLoop_mono (g : Graph) (finish : String) :
    ∀ (fuel : Nat) (s : DijkstraState) (r : DijkstraState × List String),
      dijkstraLoop g finish fuel s = some r → dijkstraLoop g finish (fuel + 1) s = some r := by
  intro fuel
  induction fuel with
  | zero => intro s r h; simp [dijkstraLoop] at h
  | succ fuel ih =>
    intro s r h
    cases hpq : s.pq.values with
    | nil =>
      rw [dijkstraLoop] at h ⊢
      simp only [PriorityQueue.isEmpty, hpq, List.length_nil, beq_self_eq_true, if_true] at h ⊢
      exact h
    | cons entry rest =>
      by_cases hval : entry.val = finish
      · rw [dijkstraLoop_pop_finish g hpq hval] at h ⊢
        cases hp : pathLoop s.previous (fuel + 1) finish [] with
        | none => rw [hp] at h; cases h
        | some p =>
          rw [hp] at h
          rw [pathLoop_mono _ _ _ _ hp]
          exact h
      · rw [dijkstraLoop_pop_other g hpq hval] at h ⊢
        exact ih _ _ h

/-- A result of the search does not depend on the amount of fuel, once it suffices. -/
theorem dijkstra_mono {g : Graph} {start finish : String} {fuel : Nat} {r : DijkstraResult}
    (h : g.dijkstra start finish fuel = some r) :
    ∀ fuel', fuel ≤ fuel' → g.dijkstra start finish fuel' = some r := by
  intro fuel' hle
  induction hle with
  | refl => exact h
  | @step m _ ih =>
    unfold Graph.dijkstra at ih ⊢
    cases hl : dijkstraLoop g finish m (dijkstraInit g start) with
    | none => rw [hl] at ih; cases ih
    | some x =>
      rw [hl] at ih
      rw [dijkstraLoop_mono g finish _ _ _ hl]
      exact ih

/-! ## Properties of `dijkstra` -/

theorem triangle_nonNeg : triangle.NonNeg := by
  unfold Graph.NonNeg
  decide

/-- On a graph whose edge weights are all non-negative, for registered vertices
`start` and `finish` with `finish` reachable from `start`, `dijkstra(start, finish)`
returns (for every sufficient amount of fuel, always the same result), and the distance
it returns is the minimum, over all walks from `start` to `finish`, of the sum of the
traversed edge weights: some walk has that weight and no walk has a smaller one. -/
theorem dijkstra_spec (g : Graph) (hnn : g.NonNeg) (start finish : String)
    (hs : g.Registered start) (hf : g.Registered finish)
    (hreach : ∃ steps, g.IsWalk start steps finish) :
    ∃ (N : Nat) (r : DijkstraResult) (d : Int),
      (∀ fuel, N ≤ fuel → g.dijkstra start finish fuel = some r) ∧
      r.distance = some (JsNum.fin d) ∧
      (∃ steps, g.IsWalk start steps finish ∧ walkWeight steps = d) ∧
      ∀ steps, g.IsWalk start steps finish → d ≤ walkWeight steps := by
  obtain ⟨N, sf, entry, rest, p, hinv, hpq, hval, _, hres⟩ := dijkstra_returns hnn start hf
  subst hval
  obtain ⟨steps0, hw0⟩ := hreach
  obtain ⟨d, hd, hle⟩ := hinv.head_minimal hnn hs hpq hf hw0
  obtain ⟨d0, rfl, _⟩ := JsNum.exists_fin_of_le_fin hle
  refine ⟨N, _, d0, hres, hd, hinv.1.walk _ _ hd, ?_⟩
  intro steps hw
  obtain ⟨d', hd', hle'⟩ := hinv.head_minimal hnn hs hpq hf hw
  rw [hd] at hd'
  cases hd'
  exact hle'

/-- C1. On a graph whose edge weights are all non-negative, for registered vertices
`start` and `finish` with `finish` reachable from `start`, `dijkstra(start, finish)`
returns (for every sufficient amount of fuel, always the same result), and the distance
it returns is the minimum, over all walks from `start` to `finish`, of the sum of the
traversed edge weights: some walk has that weight and no walk has a smaller one. -/
theorem dijkstra_distance_minimal (g : Graph) (hnn : g.NonNeg) (start finish : String)
    (hs : g.Registered start) (hf : g.Registered finish)
    (hreach : ∃ steps, g.IsWalk start steps finish) :
    ∃ (N : Nat) (r : DijkstraResult) (d : Int),
      (∀ fuel, N ≤ fuel → g.dijkstra start finish fuel = some r) ∧
      r.distance = some (JsNum.fin d) ∧
      (∃ steps, g.IsWalk start steps finish ∧ walkWeight steps = d) ∧
      ∀ steps, g.IsWalk start steps finish → d ≤ walkWeight steps := by
  obtain ⟨N, sf, entry, rest, p, hinv, hpq, hval, _, hres⟩ := dijkstra_returns hnn start hf
  subst hval
  obtain ⟨steps0, hw0⟩ := hreach
  obtain ⟨d, hd, hle⟩ := hinv.head_minimal hnn hs hpq hf hw0
  obtain ⟨d0, rfl, _⟩ := JsNum.exists_fin_of_le_fin hle
  refine ⟨N, _, d0, hres, hd, hinv.1.walk _ _ hd, ?_⟩
  intro steps hw
  obtain ⟨d', hd', hle'⟩ := hinv.head_minimal hnn hs hpq hf hw
  rw [hd] at hd'
  cases hd'
  exact hle'

/-- In `triangle` the search from `a` to `b` returns the least weight of a walk. -/
theorem dijkstra_distance_minimal_witness :
    ∃ (N : Nat) (r : DijkstraResult) (d : Int),
      (∀ fuel, N ≤ fuel → triangle.dijkstra "a" "b" fuel = some r) ∧
      r.distance = some (JsNum.fin d) ∧
      (∃ steps, triangle.IsWalk "a" steps "b" ∧ walkWeight steps = d) ∧
      ∀ steps, triangle.IsWalk "a" steps "b" → d ≤ walkWeight steps :=
  dijkstra_distance_minimal triangle triangle_nonNeg "a" "b" (by decide) (by decide)
    ⟨[⟨"b", 10⟩], ⟨_, rfl, by decide⟩, rfl⟩

/-- The sample graph `island` is built by `addVertex` and `addEdge` calls. -/
theorem island_built : island.Built := by
  have h := Graph.Built.empty
  have h := Graph.Built.addVertex "a" "A" h
  have h := Graph.Built.addVertex "b" "B" h
  have h := Graph.Built.addVertex "c" "C" h
  have h := Graph.Built.addEdge "a" "b" 5 h rfl
  exact h

/-- The sample graph `negativeEdge` is built by `addVertex` and `addEdge` calls. -/
theorem negativeEdge_built : negativeEdge.Built := by
  have h := Graph.Built.empty
  have h := Graph.Built.addVertex "a" "A" h
  have h := Graph.Built.addVertex "b" "B" h
  have h := Graph.Built.addVertex "c" "C" h
  have h := Graph.Built.addEdge "a" "b" (-1) h rfl
  exact h

/-- In the sample graphs no walk leads from `a` or `b` to `c`. -/
theorem no_walk_to_c {g : Graph} {w : Int}
    (hg : g.adjacencyList = [("a", [⟨"b", w⟩]), ("b", [⟨"a", w⟩]), ("c", [])]) :
    ∀ (steps : List Edge) (u : String), u = "a" ∨ u = "b" → ¬ g.IsWalk u steps "c" := by
  intro steps
  induction steps with
  | nil =>
    intro u hu hw
    have : u = "c" := hw
    rcases hu with rfl | rfl <;> simp at this
  | cons e rest ih =>
    intro u hu hw
    obtain ⟨⟨a, ha, hea⟩, hrest⟩ := hw
    unfold Graph.adj? at ha
    rw [hg] at ha
    rcases hu with rfl | rfl
    · have : a = [⟨"b", w⟩] := by
        simpa [List.lookup] using ha.symm
      subst this
      rw [List.mem_singleton] at hea
      subst hea
      exact ih "b" (Or.inr rfl) hrest
    · have : a = [⟨"a", w⟩] := by
        simpa [List.lookup] using ha.symm
      subst this
      rw [List.mem_singleton] at hea
      subst hea
      exact ih "a" (Or.inl rfl) hrest

/-- C10 (amended). On a built graph whose edge weights are all non-negative, for
registered vertices `start` and `finish` with no walk from `start` to `finish`,
`dijkstra(start, finish)` returns distance `+Infinity` with a path consisting of the
start node only, and `findAllPaths(start, finish)` returns the empty list. -/
theorem unreachable_results (g : Graph) (hB : g.Built) (hnn : g.NonNeg)
    (start finish : String) (hs : g.Registered start) (hf : g.Registered finish)
    (hno : ¬ ∃ steps, g.IsWalk start steps finish) :
    (∃ N, ∀ fuel, N ≤ fuel →
      g.dijkstra start finish fuel = some ⟨some JsNum.inf, [start]⟩) ∧
    g.findAllPaths start finish none = .ok [] := by
  constructor
  · obtain ⟨N, sf, entry, rest, p, hinv, hpq, hval, ⟨n, hpath⟩, hres⟩ :=
      dijkstra_returns hnn start hf
    obtain ⟨d, hd⟩ := (hinv.1.dom finish).mp hf
    have hdinf : d = JsNum.inf := by
      cases d with
      | inf => rfl
      | fin d0 => exact absurd (by
          obtain ⟨steps, hw, _⟩ := hinv.1.walk finish d0 hd
          exact ⟨steps, hw⟩) hno
    subst hdinf
    have hprev : sf.previous finish = none := by
      cases hp : sf.previous finish with
      | none => rfl
      | some u =>
        obtain ⟨du, dv, a, w, _, hdv, _⟩ := hinv.1.prev_edge finish u hp
        rw [hd] at hdv
        cases hdv
    have hp : p = [] := by
      have h1 := hpath (n + 1) (by omega)
      rw [pathLoop, hprev] at h1
      simpa using h1.symm
    subst hp
    refine ⟨N, fun fuel hfuel => ?_⟩
    rw [hres fuel hfuel, hd]
    rfl
  · obtain ⟨routes, hroutes⟩ := findAllPaths_returns hB.closed hs finish none
    rw [hroutes]
    cases routes with
    | nil => rfl
    | cons r tl =>
      exfalso
      obtain ⟨steps, hw, _⟩ := findAllPaths_extends hroutes (List.mem_cons_self r tl)
      exact hno ⟨steps, hw⟩

/-- In `island` the isolated vertex `c` is unreachable from `a`. -/
theorem unreachable_results_witness :
    (∃ N, ∀ fuel, N ≤ fuel →
      island.dijkstra "a" "c" fuel = some ⟨some JsNum.inf, ["a"]⟩) ∧
    island.findAllPaths "a" "c" none = .ok [] :=
  unreachable_results island island_built (by unfold Graph.NonNeg; decide) "a" "c"
    (by decide) (by decide)
    (fun ⟨steps, hw⟩ => no_walk_to_c rfl steps "a" (Or.inl rfl) hw)

/-- On `negativeEdge` the main loop started with `a` or `b` at the head of the queue, the
other of the two still improvable, never ends: each pass lowers a distance by one. -/
theorem negativeEdge_loop_diverges :
    ∀ (fuel : Nat) (s : DijkstraState) (x y : String) (p : Int) (dy : JsNum),
      (x = "a" ∧ y = "b") ∨ (x = "b" ∧ y = "a") →
      s.pq.values = [⟨x, JsNum.fin p⟩, ⟨"b", JsNum.inf⟩, ⟨"c", JsNum.inf⟩] →
      s.distances x = some (JsNum.fin p) → s.distances y = some dy →
      JsNum.fin (p + -1) < dy →
      dijkstraLoop negativeEdge "c" fuel s = none := by
  intro fuel
  induction fuel with
  | zero => intro s x y p dy _ _ _ _ _; rfl
  | succ fuel ih =>
    intro s x y p dy hxy hpq hdx hdy hlt
    have hxc : (⟨x, JsNum.fin p⟩ : QEntry).val ≠ "c" := by
      show x ≠ "c"
      rcases hxy with ⟨rfl, _⟩ | ⟨rfl, _⟩ <;> decide
    have hne : y ≠ x := by
      rcases hxy with ⟨rfl, rfl⟩ | ⟨rfl, rfl⟩ <;> decide
    have hadj : negativeEdge.adj? x = some [⟨y, -1⟩] := by
      rcases hxy with ⟨rfl, rfl⟩ | ⟨rfl, rfl⟩ <;> rfl
    have htruthy : truthy x = true := by
      rcases hxy with ⟨rfl, _⟩ | ⟨rfl, _⟩ <;> rfl
    rw [dijkstraLoop_pop_other negativeEdge hpq hxc]
    have hafter : afterPop negativeEdge s ⟨x, JsNum.fin p⟩ [⟨"b", JsNum.inf⟩, ⟨"c", JsNum.inf⟩]
        = improve { s with pq := ⟨[⟨"b", JsNum.inf⟩, ⟨"c", JsNum.inf⟩]⟩ } x ⟨y, -1⟩
            (JsNum.fin (p + -1)) := by
      unfold afterPop
      simp only [htruthy, Bool.true_or, if_true, hadj, Option.getD_some, List.foldl_cons,
        List.foldl_nil]
      rcases relaxStep_cases x { s with pq := ⟨[⟨"b", JsNum.inf⟩, ⟨"c", JsNum.inf⟩]⟩ } ⟨y, -1⟩
        with ⟨_, hrel⟩ | ⟨d, dn, hd, _, _, heq⟩
      · exact absurd (hrel (JsNum.fin p) dy hdx hdy) (not_le.mpr hlt)
      · have : d = JsNum.fin p := by
          have h1 : s.distances x = some d := hd
          rw [hdx] at h1
          cases h1; rfl
        subst this
        exact heq
    rw [hafter]
    refine ih _ y x (p + -1) (JsNum.fin p) ?_ ?_ ?_ ?_ ?_
    · rcases hxy with ⟨rfl, rfl⟩ | ⟨rfl, rfl⟩
      · exact Or.inr ⟨rfl, rfl⟩
      · exact Or.inl ⟨rfl, rfl⟩
    · simp [improve, PriorityQueue.enqueue, PriorityQueue.sort, List.insertionSort,
        List.orderedInsert]
    · exact Function.update_same _ _ _
    · show Function.update s.distances y _ x = _
      rw [Function.update_noteq hne.symm]
      exact hdx
    · rw [JsNum.fin_lt_fin]
      omega

/-- C10 (counterexample). On the built graph `negativeEdge`, whose edge has weight -1, the
registered vertices `a` and `c` are joined by no walk, and `dijkstra('a', 'c')` does not
return: the main loop runs out of every amount of fuel. -/
theorem unreachable_negativeEdge_diverges :
    negativeEdge.Built ∧ negativeEdge.Registered "a" ∧ negativeEdge.Registered "c" ∧
    (¬ ∃ steps, negativeEdge.IsWalk "a" steps "c") ∧
    ∀ fuel, negativeEdge.dijkstra "a" "c" fuel = none := by
  refine ⟨negativeEdge_built, by decide, by decide,
    fun ⟨steps, hw⟩ => no_walk_to_c rfl steps "a" (Or.inl rfl) hw, ?_⟩
  intro fuel
  unfold Graph.dijkstra
  rw [negativeEdge_loop_diverges fuel (dijkstraInit negativeEdge "a") "a" "b" 0 JsNum.inf
    (Or.inl ⟨rfl, rfl⟩) rfl rfl rfl (JsNum.fin_lt_inf _)]
  rfl

/-! ## Properties of `findAllPaths` -/

/-- The sample graph `triangle` is built by three `addVertex` and three `addEdge` calls. -/
theorem triangle_built : triangle.Built := by
  have h := Graph.Built.empty
  have h := Graph.Built.addVertex "a" "A" h
  have h := Graph.Built.addVertex "b" "B" h
  have h := Graph.Built.addVertex "c" "C" h
  have h := Graph.Built.addEdge "a" "b" 10 h rfl
  have h := Graph.Built.addEdge "a" "c" 1 h rfl
  have h := Graph.Built.addEdge "b" "c" 1 h rfl
  exact h

/-- C5. On a built graph with `start` registered, every sequence of pairwise distinct
vertices that begins with `start`, ends with `finish`, has at most `maxDepth` nodes
(10 when the argument is omitted) and has an edge of the graph between every two
consecutive nodes is the path of some element of `findAllPaths(start, finish, maxDepth)`. -/
theorem findAllPaths_complete (g : Graph) (hB : g.Built) (start finish : String)
    (hs : g.Registered start) (maxDepth : Option Nat) (p : List String)
    (hnd : p.Nodup) (hhead : p.head? = some start) (hlast : p.getLast? = some finish)
    (hlen : p.length ≤ maxDepth.getD 10) (hedges : p.Chain' g.HasEdge) :
    ∃ routes, g.findAllPaths start finish maxDepth = .ok routes ∧
      ∃ r ∈ routes, r.path = p := by
  obtain ⟨routes, hroutes⟩ := findAllPaths_returns hB.closed hs finish maxDepth
  refine ⟨routes, hroutes, ?_⟩
  obtain ⟨st, hst, rfl⟩ := findAllPaths_ok hroutes
  cases p with
  | nil => simp at hhead
  | cons x tl =>
    have hx : x = start := by simpa using hhead
    subst hx
    obtain ⟨steps, hsteps, hwalk⟩ := Graph.walk_of_chain tl x hedges
    subst hsteps
    obtain ⟨r, hr, hp, _⟩ := dfs_complete g finish _ _ _ _ _ _ _ steps hst (by simp)
      (hwalk finish hlast) hnd (by simp) (by simp at hlen ⊢; omega)
    exact ⟨r, (List.perm_insertionSort _ _).symm.subset hr, by simpa using hp⟩

/-- The path `a`, `c`, `b` of `triangle` is enumerated with bound 3. -/
theorem findAllPaths_complete_witness :
    ∃ routes, triangle.findAllPaths "a" "b" (some 3) = .ok routes ∧
      ∃ r ∈ routes, r.path = ["a", "c", "b"] :=
  findAllPaths_complete triangle
    triangle_built
    "a" "b" (by decide) (some 3) ["a", "c", "b"] (by decide) rfl rfl (by decide)
    (by
      refine List.Chain.cons ⟨_, 1, rfl, by decide⟩ (List.Chain.cons ⟨_, 1, rfl, by decide⟩ List.Chain.nil))

/-- C6. Every element of the list returned by `findAllPaths(start, finish, maxDepth)` has
a path that begins with `start`, ends with `finish`, contains `finish` nowhere but in the
last position, has an edge of the graph between every two consecutive nodes, and has as
distance the sum of the weights of the adjacency entries traversed along the path. The
enumeration never exceeds its recursion bound, and on a built graph with `start`
registered it returns. -/
theorem findAllPaths_sound (g : Graph) (start finish : String) (maxDepth : Option Nat) :
    (∀ routes, g.findAllPaths start finish maxDepth = .ok routes →
      ∀ r ∈ routes,
        r.path.head? = some start ∧ r.path.getLast? = some finish ∧
        finish ∉ r.path.dropLast ∧ r.path.Chain' g.HasEdge ∧
        ∃ steps, g.IsWalk start steps finish ∧ r.path = start :: steps.map Edge.node ∧
          r.distance = walkWeight steps) ∧
    g.findAllPaths start finish maxDepth ≠ .error .outOfFuel ∧
    (g.Built → g.Registered start →
      ∃ routes, g.findAllPaths start finish maxDepth = .ok routes) := by
  refine ⟨?_, findAllPaths_ne_outOfFuel g start finish maxDepth,
    fun hB hs => findAllPaths_returns hB.closed hs finish maxDepth⟩
  intro routes hroutes r hr
  obtain ⟨steps, hw, hp, hd, hnd, _, _⟩ := findAllPaths_extends hroutes hr
  have hp' : r.path = start :: steps.map Edge.node := by simpa using hp
  have hlast := hw.getLast?
  refine ⟨by rw [hp']; rfl, by rw [hp']; exact hlast, ?_, ?_,
    steps, hw, hp', by simpa using hd⟩
  · rw [hp']
    intro hmem
    have h1 := List.dropLast_append_getLast? finish hlast
    rw [← h1] at hnd
    exact (List.disjoint_of_nodup_append hnd) hmem (List.mem_singleton.mpr rfl)
  · rw [hp']
    exact hw.chain

/-- The two routes from `a` to `b` in `triangle` are walks whose weights are summed. -/
theorem findAllPaths_sound_witness :
    ∃ routes, triangle.findAllPaths "a" "b" none = .ok routes ∧
      ∀ r ∈ routes,
        r.path.head? = some "a" ∧ r.path.getLast? = some "b" ∧
        "b" ∉ r.path.dropLast ∧ r.path.Chain' triangle.HasEdge ∧
        ∃ steps, triangle.IsWalk "a" steps "b" ∧ r.path = "a" :: steps.map Edge.node ∧
          r.distance = walkWeight steps := by
  obtain ⟨h1, _, h3⟩ := findAllPaths_sound triangle "a" "b" none
  obtain ⟨routes, hroutes⟩ := h3 triangle_built (by decide)
  exact ⟨routes, hroutes, h1 routes hroutes⟩

/-- C7. No path returned by `findAllPaths(start, finish, maxDepth)` contains the same node
twice, on every graph (self-loops and parallel edges included) and for every `start`,
`finish` and `maxDepth`; the enumeration never exceeds its recursion bound, and on a built
graph with `start` registered it returns. -/
theorem findAllPaths_simple (g : Graph) (start finish : String) (maxDepth : Option Nat) :
    (∀ routes, g.findAllPaths start finish maxDepth = .ok routes →
      ∀ r ∈ routes, r.path.Nodup) ∧
    g.findAllPaths start finish maxDepth ≠ .error .outOfFuel ∧
    (g.Built → g.Registered start →
      ∃ routes, g.findAllPaths start finish maxDepth = .ok routes) := by
  refine ⟨?_, findAllPaths_ne_outOfFuel g start finish maxDepth,
    fun hB hs => findAllPaths_returns hB.closed hs finish maxDepth⟩
  intro routes hroutes r hr
  obtain ⟨steps, _, hp, _, hnd, _, _⟩ := findAllPaths_extends hroutes hr
  rw [hp]
  simpa using hnd

/-- The routes from `a` to `b` in `triangle` repeat no node. -/
theorem findAllPaths_simple_witness :
    ∃ routes, triangle.findAllPaths "a" "b" none = .ok routes ∧
      ∀ r ∈ routes, r.path.Nodup := by
  obtain ⟨h1, _, h3⟩ := findAllPaths_simple triangle "a" "b" none
  obtain ⟨routes, hroutes⟩ := h3 triangle_built (by decide)
  exact ⟨routes, hroutes, h1 routes hroutes⟩

/-- C8. The list returned by `findAllPaths(start, finish, maxDepth)` is sorted in
non-decreasing order of the distance field: for all indices `i < j`, the distance of
element `i` is at most the distance of element `j`. The enumeration never exceeds its
recursion bound, and on a built graph with `start` registered it returns. -/
theorem findAllPaths_sorted (g : Graph) (start finish : String) (maxDepth : Option Nat) :
    (∀ routes, g.findAllPaths start finish maxDepth = .ok routes →
      ∀ (i j : Nat) (hij : i < j) (hj : j < routes.length),
        (routes.get ⟨i, hij.trans hj⟩).distance ≤ (routes.get ⟨j, hj⟩).distance) ∧
    g.findAllPaths start finish maxDepth ≠ .error .outOfFuel ∧
    (g.Built → g.Registered start →
      ∃ routes, g.findAllPaths start finish maxDepth = .ok routes) := by
  refine ⟨?_, findAllPaths_ne_outOfFuel g start finish maxDepth,
    fun hB hs => findAllPaths_returns hB.closed hs finish maxDepth⟩
  intro routes hroutes i j hij hj
  exact List.pairwise_iff_get.mp (findAllPaths_pairwise hroutes) ⟨i, hij.trans hj⟩ ⟨j, hj⟩ hij

/-- The routes from `a` to `b` in `triangle` come sorted by distance. -/
theorem findAllPaths_sorted_witness :
    ∃ routes, triangle.findAllPaths "a" "b" none = .ok routes ∧
      ∀ (i j : Nat) (hij : i < j) (hj : j < routes.length),
        (routes.get ⟨i, hij.trans hj⟩).distance ≤ (routes.get ⟨j, hj⟩).distance := by
  obtain ⟨h1, _, h3⟩ := findAllPaths_sorted triangle "a" "b" none
  obtain ⟨routes, hroutes⟩ := h3 triangle_built (by decide)
  exact ⟨routes, hroutes, h1 routes hroutes⟩

/-- C9. Every path returned by `findAllPaths(start, finish, maxDepth)` has at most
`maxDepth` nodes, where `maxDepth` is 10 when the argument is omitted; the enumeration
never exceeds its recursion bound and returns on a built graph with `start` registered;
and with `maxDepth = 1` and `start` different from `finish`, a returned list is empty
whatever longer paths exist, and the empty list is returned when `start` is registered. -/
theorem findAllPaths_depth_bound (g : Graph) (start finish : String)
    (maxDepth : Option Nat) :
    (∀ routes, g.findAllPaths start finish maxDepth = .ok routes →
      ∀ r ∈ routes, r.path.length ≤ maxDepth.getD 10) ∧
    g.findAllPaths start finish none = g.findAllPaths start finish (some 10) ∧
    g.findAllPaths start finish maxDepth ≠ .error .outOfFuel ∧
    (g.Built → g.Registered start →
      ∃ routes, g.findAllPaths start finish maxDepth = .ok routes) ∧
    (start ≠ finish → ∀ routes, g.findAllPaths start finish (some 1) = .ok routes →
      routes = []) ∧
    (g.Registered start → start ≠ finish →
      g.findAllPaths start finish (some 1) = .ok []) := by
  have hempty : start ≠ finish → ∀ routes,
      g.findAllPaths start finish (some 1) = .ok routes → routes = [] := by
    intro hne routes hroutes
    cases routes with
    | nil => rfl
    | cons r tl =>
      exfalso
      obtain ⟨steps, hw, hp, _, _, _, hlen⟩ :=
        findAllPaths_extends hroutes (List.mem_cons_self r tl)
      rw [hp] at hlen
      cases steps with
      | nil => exact hne hw
      | cons e rest =>
        simp at hlen
  refine ⟨?_, rfl, findAllPaths_ne_outOfFuel g start finish maxDepth,
    fun hB hs => findAllPaths_returns hB.closed hs finish maxDepth, hempty, ?_⟩
  · intro routes hroutes r hr
    obtain ⟨steps, _, _, _, _, _, hlen⟩ := findAllPaths_extends hroutes hr
    exact hlen
  · intro hs hne
    obtain ⟨a, ha⟩ := Graph.registered_iff.mp hs
    have hfold : ∀ (l : List Edge) (s : DfsState),
        l.foldlM (fun (s : DfsState) (neighbor : Edge) =>
          if neighbor.node ∈ s.visited then Except.ok s
          else dfs g finish 1 1 neighbor.node ([start] ++ [neighbor.node])
            (0 + neighbor.weight) s) s = (Except.ok s : Except Fault DfsState) := by
      intro l
      induction l with
      | nil => intro s; rfl
      | cons e l ih =>
        intro s
        rw [List.foldlM_cons]
        split
        · exact ih s
        · have : dfs g finish 1 1 e.node ([start] ++ [e.node]) (0 + e.weight) s = .ok s := by
            rw [dfs]; simp
          rw [this]
          exact ih s
    unfold Graph.findAllPaths
    dsimp only [Option.getD]
    rw [dfs]
    simp only [List.length_singleton, gt_iff_lt, lt_self_iff_false, if_false, hne, ha]
    rw [hfold]
    rfl

/-- With bound 2 the routes from `a` to `b` in `triangle` have at most 2 nodes, and with
bound 1 there is none, although `a`, `c`, `b` is a path. -/
theorem findAllPaths_depth_bound_witness :
    (∃ routes, triangle.findAllPaths "a" "b" (some 2) = .ok routes ∧
      ∀ r ∈ routes, r.path.length ≤ 2) ∧
    triangle.findAllPaths "a" "b" (some 1) = .ok [] := by
  obtain ⟨h1, _, _, h3, _⟩ := findAllPaths_depth_bound triangle "a" "b" (some 2)
  obtain ⟨routes, hroutes⟩ := h3 triangle_built (by decide)
  exact ⟨⟨routes, hroutes, h1 routes hroutes⟩,
    (findAllPaths_depth_bound triangle "a" "b" (some 1)).2.2.2.2.2 (by decide) (by decide)⟩

/-- A walk of minimum weight takes, at every step, a cheapest adjacency entry. -/
theorem Graph.IsWalk.cheapest {g : Graph} {v : String} :
    ∀ (steps : List Edge) (u : String), g.IsWalk u steps v →
      (∀ steps', g.IsWalk u steps' v → walkWeight steps ≤ walkWeight steps') →
      g.Cheapest u steps := by
  intro steps
  induction steps with
  | nil => intro u _ _; trivial
  | cons e rest ih =>
    intro u hw hmin
    refine ⟨?_, ih e.node hw.2 ?_⟩
    · intro a ha e' he' hnode
      have hw' : g.IsWalk u (e' :: rest) v := ⟨⟨a, ha, he'⟩, by rw [hnode]; exact hw.2⟩
      have := hmin _ hw'
      simp only [walkWeight, List.map_cons, List.sum_cons] at this
      omega
    · intro steps' hw'
      have := hmin (e :: steps') ⟨hw.1, hw'⟩
      simp only [walkWeight, List.map_cons, List.sum_cons] at this ⊢
      omega

/-- When no registered identifier is falsy, the path loop started at `v` pushes the
predecessor chain of `v`, which read backwards is a walk from `start` to `v` of weight at
most the tentative distance of `v`. -/
theorem Core.chain_walk {g : Graph} (hnn : g.NonNeg) {start : String} {s : DijkstraState}
    (hc : Core g start s) (htruthy : ∀ v, g.Registered v → truthy v = true) :
    ∀ {n : Nat} {v : String}, PrevChain s.previous n v →
      ∀ dv, s.distances v = some (JsNum.fin dv) →
      ∃ steps p, g.IsWalk start steps v ∧ walkWeight steps ≤ dv ∧
        (∀ fuel, n + 1 ≤ fuel → ∀ path,
          pathLoop s.previous fuel v path = some (path ++ p)) ∧
        (p ++ [start]).reverse = start :: steps.map Edge.node := by
  intro n v hch
  induction hch with
  | @root v hroot =>
    intro dv hdv
    have hv : v = start := hc.root v dv hroot hdv
    subst hv
    refine ⟨[], [], rfl, ?_, ?_, rfl⟩
    · obtain ⟨steps, hw, hww⟩ := hc.walk v dv hdv
      rw [← hww]
      exact walkWeight_nonneg hnn hw
    · intro fuel hfuel path
      obtain ⟨f, rfl⟩ : ∃ f, fuel = f + 1 := ⟨fuel - 1, by omega⟩
      rw [pathLoop, hroot]
      simp
  | @link v u n hlink _ ih =>
    intro dv hdv
    obtain ⟨du, dv', a, w, hdu, hdv', ha, hea, hle⟩ := hc.prev_edge v u hlink
    rw [hdv] at hdv'
    cases hdv'
    obtain ⟨steps, p, hw, hww, hloop, hrev⟩ := ih du hdu
    have hut : truthy u = true := htruthy u ((hc.dom u).mpr ⟨_, hdu⟩)
    have hlast : g.IsWalk u [⟨v, w⟩] v := ⟨⟨a, ha, hea⟩, rfl⟩
    refine ⟨steps ++ [⟨v, w⟩], v :: p, hw.append hlast, ?_, ?_, ?_⟩
    · rw [walkWeight_append]
      simp only [walkWeight, List.map_cons, List.map_nil, List.sum_cons, List.sum_nil] at hww ⊢
      omega
    · intro fuel hfuel path
      obtain ⟨f, rfl⟩ : ∃ f, fuel = f + 1 := ⟨fuel - 1, by omega⟩
      rw [pathLoop, hlink]
      simp only [hut, if_true]
      rw [hloop f (by omega)]
      simp
    · rw [List.cons_append, List.reverse_cons, hrev]
      simp

/-- On a graph with non-negative edge weights in which the empty string is not a
registered vertex, for registered vertices `start` and `finish` with `finish` reachable
from `start`, the path returned by `dijkstra(start, finish)` begins with `start`, ends with
`finish`, follows adjacency entries of the graph, each a cheapest one between its two
nodes, and the sum of their weights is the returned distance. -/
theorem dijkstra_path_spec (g : Graph) (hnn : g.NonNeg) (hempty : ¬ g.Registered "")
    (start finish : String) (hs : g.Registered start) (hf : g.Registered finish)
    (hreach : ∃ steps, g.IsWalk start steps finish) :
    ∃ (N : Nat) (r : DijkstraResult) (steps : List Edge),
      (∀ fuel, N ≤ fuel → g.dijkstra start finish fuel = some r) ∧
      r.path = start :: steps.map Edge.node ∧
      r.path.head? = some start ∧ r.path.getLast? = some finish ∧
      r.path.Chain' g.HasEdge ∧
      g.IsWalk start steps finish ∧ g.Cheapest start steps ∧
      r.distance = some (JsNum.fin (walkWeight steps)) := by
  have htruthy : ∀ v, g.Registered v → truthy v = true := by
    intro v hv
    have : v ≠ "" := by rintro rfl; exact hempty hv
    simpa [truthy] using this
  obtain ⟨N, sf, entry, rest, p, hinv, hpq, hval, ⟨n0, hpath⟩, hres⟩ :=
    dijkstra_returns hnn start hf
  subst hval
  obtain ⟨steps0, hw0⟩ := hreach
  obtain ⟨d, hd, hle⟩ := hinv.head_minimal hnn hs hpq hf hw0
  obtain ⟨d0, rfl, _⟩ := JsNum.exists_fin_of_le_fin hle
  have hmin : ∀ steps, g.IsWalk start steps entry.val → d0 ≤ walkWeight steps := by
    intro steps hw
    obtain ⟨d', hd', hle'⟩ := hinv.head_minimal hnn hs hpq hf hw
    rw [hd] at hd'
    cases hd'
    exact hle'
  obtain ⟨n, hn⟩ := hinv.1.prev_chain entry.val
  obtain ⟨steps, p', hw, hww, hloop, hrev⟩ := hinv.1.chain_walk hnn htruthy hn d0 hd
  have hp : p = p' := by
    have h1 := hpath (max n0 (n + 1)) (le_max_left _ _)
    have h2 := hloop (max n0 (n + 1)) (le_max_right _ _) []
    rw [h1] at h2
    simpa using h2
  subst hp
  have hwd : walkWeight steps = d0 := le_antisymm hww (hmin steps hw)
  refine ⟨N, _, steps, hres, hrev, ?_, ?_, ?_, hw, ?_, ?_⟩
  · show ((p ++ [start]).reverse).head? = some start
    rw [hrev]; rfl
  · show ((p ++ [start]).reverse).getLast? = some entry.val
    rw [hrev]; exact hw.getLast?
  · show ((p ++ [start]).reverse).Chain' g.HasEdge
    rw [hrev]; exact hw.chain
  · exact hw.cheapest steps start (fun steps' hw' => by rw [hwd]; exact hmin steps' hw')
  · show sf.distances entry.val = _
    rw [hd, hwd]

/-- The sample graph `emptyId` is built by `addVertex` and `addEdge` calls. -/
theorem emptyId_built : emptyId.Built := by
  have h := Graph.Built.empty
  have h := Graph.Built.addVertex "" "Origin" h
  have h := Graph.Built.addVertex "a" "A" h
  have h := Graph.Built.addEdge "" "a" 1 h rfl
  exact h

/-- C2 (failing input). On the built graph `emptyId`, whose weights are non-negative, `a`
is reachable from the registered vertex `''`, and `dijkstra('', 'a')` returns distance 1
with the path `['']`, which does not end with `a`. -/
theorem dijkstra_path_truncated :
    emptyId.Built ∧ emptyId.NonNeg ∧ emptyId.Registered "" ∧ emptyId.Registered "a" ∧
    (∃ steps, emptyId.IsWalk "" steps "a") ∧
    ∀ fuel, 3 ≤ fuel → emptyId.dijkstra "" "a" fuel = some ⟨some (JsNum.fin 1), [""]⟩ :=
  ⟨emptyId_built, by unfold Graph.NonNeg; decide, by decide, by decide,
    ⟨[⟨"a", 1⟩], ⟨_, rfl, by decide⟩, rfl⟩,
    dijkstra_mono (show emptyId.dijkstra "" "a" 3 = some _ from rfl)⟩

/-! ## `dijkstra` against `findAllPaths` -/

/-- On a built graph with non-negative weights, if some walk of minimum weight from
`start` to `finish` has at most `maxDepth` nodes, then the distance returned by `dijkstra`
is the least distance among the routes returned by `findAllPaths`. -/
theorem dijkstra_min_route (g : Graph) (hB : g.Built) (hnn : g.NonNeg)
    (start finish : String) (hs : g.Registered start) (hf : g.Registered finish)
    (maxDepth : Option Nat)
    (hopt : ∃ steps, g.IsWalk start steps finish ∧ steps.length + 1 ≤ maxDepth.getD 10 ∧
      ∀ steps', g.IsWalk start steps' finish → walkWeight steps ≤ walkWeight steps') :
    ∃ (N : Nat) (r : DijkstraResult) (d : Int) (routes : List Route),
      (∀ fuel, N ≤ fuel → g.dijkstra start finish fuel = some r) ∧
      r.distance = some (JsNum.fin d) ∧
      g.findAllPaths start finish maxDepth = .ok routes ∧
      (∃ x ∈ routes, x.distance = d) ∧ ∀ x ∈ routes, d ≤ x.distance := by
  obtain ⟨steps0, hw0, hlen0, hmin0⟩ := hopt
  obtain ⟨N, r, d, hres, hdist, ⟨stepsd, hwd, hwdd⟩, hmin⟩ :=
    dijkstra_spec g hnn start finish hs hf ⟨steps0, hw0⟩
  obtain ⟨routes, hroutes⟩ := findAllPaths_returns hB.closed hs finish maxDepth
  refine ⟨N, r, d, routes, hres, hdist, hroutes, ?_, ?_⟩
  · obtain ⟨steps1, hw1, hnd1, hle1, hlen1⟩ := hw0.exists_simple hnn steps0 start
    have hd1 : walkWeight steps1 = d := by
      have h1 := hmin steps1 hw1
      have h2 := hmin0 stepsd hwd
      omega
    obtain ⟨st, hst, rfl⟩ := findAllPaths_ok hroutes
    obtain ⟨x, hx, _, hxd⟩ := dfs_complete g finish _ _ _ _ _ _ _ steps1 hst (by simp)
      hw1 hnd1 (by simp) (by simp only [List.length_singleton]; omega)
    exact ⟨x, (List.perm_insertionSort _ _).symm.subset hx, by rw [hxd, hd1]; simp⟩
  · intro x hx
    obtain ⟨steps, hw, _, hxd, _⟩ := findAllPaths_extends hroutes hx
    rw [hxd]
    have := hmin steps hw
    omega

/-- C3 (amended). On a built graph with non-negative edge weights, for registered vertices
`start` and `finish` with `finish` reachable from `start`, and for every `maxDepth` that is
at least the number of vertices of the graph, the distance returned by
`dijkstra(start, finish)` equals the minimum of the distance fields of the paths returned
by `findAllPaths(start, finish, maxDepth)`. -/
theorem dijkstra_eq_min_findAllPaths (g : Graph) (hB : g.Built) (hnn : g.NonNeg)
    (start finish : String) (hs : g.Registered start) (hf : g.Registered finish)
    (hreach : ∃ steps, g.IsWalk start steps finish)
    (maxDepth : Nat) (hdepth : g.keys.length ≤ maxDepth) :
    ∃ (N : Nat) (r : DijkstraResult) (d : Int) (routes : List Route),
      (∀ fuel, N ≤ fuel → g.dijkstra start finish fuel = some r) ∧
      r.distance = some (JsNum.fin d) ∧
      g.findAllPaths start finish (some maxDepth) = .ok routes ∧
      (∃ x ∈ routes, x.distance = d) ∧ ∀ x ∈ routes, d ≤ x.distance := by
  refine dijkstra_min_route g hB hnn start finish hs hf (some maxDepth) ?_
  obtain ⟨_, _, d, _, _, ⟨stepsd, hwd, hwdd⟩, hmin⟩ :=
    dijkstra_spec g hnn start finish hs hf hreach
  obtain ⟨steps1, hw1, hnd1, hle1, _⟩ := hwd.exists_simple hnn stepsd start
  refine ⟨steps1, hw1, ?_, ?_⟩
  · have hsub : (start :: steps1.map Edge.node) ⊆ g.keys :=
      fun x hx => hw1.nodes_registered hB.closed steps1 start hs x hx
    have := (hnd1.subperm hsub).length_le
    simp only [List.length_cons, List.length_map] at this
    simp only [Option.getD_some]
    omega
  · intro steps' hw'
    have := hmin steps' hw'
    omega

/-- In `triangle`, with bound 3, the search and the enumeration agree on the least distance
from `a` to `b`. -/
theorem dijkstra_eq_min_findAllPaths_witness :
    ∃ (N : Nat) (r : DijkstraResult) (d : Int) (routes : List Route),
      (∀ fuel, N ≤ fuel → triangle.dijkstra "a" "b" fuel = some r) ∧
      r.distance = some (JsNum.fin d) ∧
      triangle.findAllPaths "a" "b" (some 3) = .ok routes ∧
      (∃ x ∈ routes, x.distance = d) ∧ ∀ x ∈ routes, d ≤ x.distance :=
  dijkstra_eq_min_findAllPaths triangle triangle_built triangle_nonNeg "a" "b"
    (by decide) (by decide) ⟨[⟨"b", 10⟩], ⟨_, rfl, by decide⟩, rfl⟩ 3 (by decide)

/-- Any two vertices of `triangle` are joined by at most one edge. -/
theorem triangle_diameter : triangle.DiameterLE 1 := by
  have hkeys : ∀ u, triangle.Registered u → u = "a" ∨ u = "b" ∨ u = "c" := by
    intro u hu
    have : u ∈ ["a", "b", "c"] := hu
    simpa using this
  intro u v hu hv _
  rcases hkeys u hu with rfl | rfl | rfl <;> rcases hkeys v hv with rfl | rfl | rfl
  · exact ⟨[], rfl, by decide⟩
  · exact ⟨[⟨"b", 10⟩], ⟨⟨_, rfl, by decide⟩, rfl⟩, by decide⟩
  · exact ⟨[⟨"c", 1⟩], ⟨⟨_, rfl, by decide⟩, rfl⟩, by decide⟩
  · exact ⟨[⟨"a", 10⟩], ⟨⟨_, rfl, by decide⟩, rfl⟩, by decide⟩
  · exact ⟨[], rfl, by decide⟩
  · exact ⟨[⟨"c", 1⟩], ⟨⟨_, rfl, by decide⟩, rfl⟩, by decide⟩
  · exact ⟨[⟨"a", 1⟩], ⟨⟨_, rfl, by decide⟩, rfl⟩, by decide⟩
  · exact ⟨[⟨"b", 1⟩], ⟨⟨_, rfl, by decide⟩, rfl⟩, by decide⟩
  · exact ⟨[], rfl, by decide⟩

/-- C3 (counterexample). The built graph `triangle` has diameter 1 and `b` is reachable
from `a`; with `maxDepth = 2`, which is at least the diameter, `dijkstra('a', 'b')` returns
distance 2 while every path returned by `findAllPaths('a', 'b', 2)` has distance 10. -/
theorem diameter_bound_fails :
    triangle.Built ∧ triangle.DiameterLE 1 ∧ (1 ≤ 2) ∧
    (∃ steps, triangle.IsWalk "a" steps "b") ∧
    (∀ fuel, 10 ≤ fuel →
      triangle.dijkstra "a" "b" fuel = some ⟨some (JsNum.fin 2), ["a", "c", "b"]⟩) ∧
    triangle.findAllPaths "a" "b" (some 2) = .ok [⟨["a", "b"], 10⟩] :=
  ⟨triangle_built, triangle_diameter, by decide, ⟨[⟨"b", 10⟩], ⟨_, rfl, by decide⟩, rfl⟩,
    dijkstra_mono (show triangle.dijkstra "a" "b" 10 = some _ from rfl), rfl⟩

/-- C4 (amended). On a built graph with non-negative edge weights, for registered vertices
`start` and `finish` and every `maxDepth` such that some walk of minimum weight from
`start` to `finish` has at most `maxDepth` nodes, `findAllPaths(start, finish, maxDepth)`
is not empty and the distance of its first element equals the distance returned by
`dijkstra(start, finish)`. -/
theorem findAllPaths_head_eq_dijkstra (g : Graph) (hB : g.Built) (hnn : g.NonNeg)
    (start finish : String) (hs : g.Registered start) (hf : g.Registered finish)
    (maxDepth : Option Nat)
    (hopt : ∃ steps, g.IsWalk start steps finish ∧ steps.length + 1 ≤ maxDepth.getD 10 ∧
      ∀ steps', g.IsWalk start steps' finish → walkWeight steps ≤ walkWeight steps') :
    ∃ (N : Nat) (r : DijkstraResult) (first : Route) (rest : List Route),
      (∀ fuel, N ≤ fuel → g.dijkstra start finish fuel = some r) ∧
      g.findAllPaths start finish maxDepth = .ok (first :: rest) ∧
      r.distance = some (JsNum.fin first.distance) := by
  obtain ⟨N, r, d, routes, hres, hdist, hroutes, ⟨x, hx, hxd⟩, hmin⟩ :=
    dijkstra_min_route g hB hnn start finish hs hf maxDepth hopt
  cases routes with
  | nil => cases hx
  | cons first rest =>
    refine ⟨N, r, first, rest, hres, hroutes, ?_⟩
    have h1 : d ≤ first.distance := hmin first (List.mem_cons_self _ _)
    have h2 : first.distance ≤ d := by
      rcases List.mem_cons.mp hx with h | h
      · rw [← hxd, h]
      · have := List.rel_of_pairwise_cons (findAllPaths_pairwise hroutes) h
        rw [← hxd]; exact this
    rw [hdist, le_antisymm h2 h1]

/-- In `triangle` the lightest walk `a`, `c`, `b` has 3 nodes, and with bound 3 the first
route has the distance returned by the search. -/
theorem findAllPaths_head_eq_dijkstra_witness :
    ∃ (N : Nat) (r : DijkstraResult) (first : Route) (rest : List Route),
      (∀ fuel, N ≤ fuel → triangle.dijkstra "a" "b" fuel = some r) ∧
      triangle.findAllPaths "a" "b" (some 3) = .ok (first :: rest) ∧
      r.distance = some (JsNum.fin first.distance) :=
  findAllPaths_head_eq_dijkstra triangle triangle_built triangle_nonNeg "a" "b"
    (by decide) (by decide) (some 3)
    ⟨[⟨"c", 1⟩, ⟨"b", 1⟩], ⟨⟨_, rfl, by decide⟩, ⟨_, rfl, by decide⟩, rfl⟩, by decide, by
      intro steps' hw'
      have h2 : walkWeight [(⟨"c", 1⟩ : Edge), ⟨"b", 1⟩] = 2 := by decide
      rw [h2]
      have hpos : ∀ (steps : List Edge) (u : String), triangle.IsWalk u steps "b" →
          u ≠ "b" → 1 ≤ walkWeight steps := by
        intro steps u hw hu
        cases steps with
        | nil => exact absurd hw hu
        | cons e rest =>
          have h0 : 0 ≤ walkWeight rest := walkWeight_nonneg triangle_nonNeg hw.2
          obtain ⟨⟨a, ha, hea⟩, _⟩ := hw
          have hw1 : 1 ≤ e.weight := by
            have hmem := lookup_some_mem ha
            simp [triangle] at hmem
            rcases hmem with ⟨_, rfl⟩ | ⟨_, rfl⟩ | ⟨_, rfl⟩ <;> simp at hea <;>
              rcases hea with rfl | rfl <;> decide
          simp only [walkWeight, List.map_cons, List.sum_cons] at h0 ⊢
          omega
      cases steps' with
      | nil => exact absurd (show "a" = "b" from hw') (by decide)
      | cons e rest =>
        obtain ⟨⟨a, ha, hea⟩, hrest⟩ := hw'
        have ha' : a = [⟨"b", 10⟩, ⟨"c", 1⟩] := by
          have : triangle.adj? "a" = some [⟨"b", 10⟩, ⟨"c", 1⟩] := rfl
          rw [this] at ha
          cases ha; rfl
        subst ha'
        simp at hea
        rcases hea with rfl | rfl
        · have h0 : 0 ≤ walkWeight rest := walkWeight_nonneg triangle_nonNeg hrest
          simp only [walkWeight, List.map_cons, List.sum_cons] at h0 ⊢
          omega
        · have h1 := hpos rest "c" hrest (by decide)
          simp only [walkWeight, List.map_cons, List.sum_cons] at h1 ⊢
          omega⟩

/-- C4 (counterexample). On the built graph `triangle`, `a` and `b` are distinct registered
vertices and the path `a`, `b` has 2 nodes; yet the first element of
`findAllPaths('a', 'b', 2)` has distance 10 while `dijkstra('a', 'b')` returns distance 2. -/
theorem first_route_not_shortest :
    triangle.Built ∧ "a" ≠ "b" ∧ triangle.Registered "a" ∧ triangle.Registered "b" ∧
    (["a", "b"].Chain' triangle.HasEdge ∧ ["a", "b"].length ≤ 2) ∧
    (∀ fuel, 10 ≤ fuel →
      triangle.dijkstra "a" "b" fuel = some ⟨some (JsNum.fin 2), ["a", "c", "b"]⟩) ∧
    (∃ rest, triangle.findAllPaths "a" "b" (some 2) = .ok (⟨["a", "b"], 10⟩ :: rest)) :=
  ⟨triangle_built, by decide, by decide, by decide,
    ⟨List.Chain.cons ⟨_, 10, rfl, by decide⟩ List.Chain.nil, by decide⟩,
    dijkstra_mono (show triangle.dijkstra "a" "b" 10 = some _ from rfl), ⟨[], rfl⟩⟩

/-! ## Objects: reading after writing -/

theorem lookup_insertIndexKey {α : Type} (n : Nat) (k : String) (v : α)
    (o : List (String × α)) (hk : o.lookup k = none) (k' : String) :
    (insertIndexKey n k v o).lookup k' = if k' = k then some v else o.lookup k' := by
  induction o with
  | nil =>
    by_cases h : k' = k
    · subst h; simp [insertIndexKey, List.lookup]
    · have : (k' == k) = false := by simpa using h
      simp [insertIndexKey, List.lookup, this, h]
  | cons q rest ih =>
    obtain ⟨k1, v1⟩ := q
    have hk1 : k ≠ k1 := by
      intro h; subst h; simp [List.lookup] at hk
    have hrest : rest.lookup k = none := by
      have : (k == k1) = false := by simpa using hk1
      simpa [List.lookup, this] using hk
    unfold insertIndexKey
    split
    · split
      · by_cases h1 : k' = k1
        · subst h1
          have : k' ≠ k := fun h => hk1 h.symm
          simp [List.lookup, this]
        · have hb : (k' == k1) = false := by simpa using h1
          simp only [List.lookup, hb]
          exact ih hrest
      · by_cases h : k' = k
        · subst h; simp [List.lookup]
        · have : (k' == k) = false := by simpa using h
          simp [List.lookup, this, h]
    · by_cases h : k' = k
      · subst h; simp [List.lookup]
      · have : (k' == k) = false := by simpa using h
        simp [List.lookup, this, h]

theorem lookup_append_single {α : Type} (o : List (String × α)) (k : String) (v : α)
    (hk : o.lookup k = none) (k' : String) :
    (o ++ [(k, v)]).lookup k' = if k' = k then some v else o.lookup k' := by
  induction o with
  | nil =>
    by_cases h : k' = k
    · subst h; simp [List.lookup]
    · have : (k' == k) = false := by simpa using h
      simp [List.lookup, this, h]
  | cons q rest ih =>
    obtain ⟨k1, v1⟩ := q
    have hk1 : k ≠ k1 := by
      intro h; subst h; simp [List.lookup] at hk
    have hrest : rest.lookup k = none := by
      have : (k == k1) = false := by simpa using hk1
      simpa [List.lookup, this] using hk
    by_cases h1 : k' = k1
    · subst h1
      have : k' ≠ k := fun h => hk1 h.symm
      simp [List.lookup, this]
    · have hb : (k' == k1) = false := by simpa using h1
      simp only [List.cons_append, List.lookup, hb]
      exact ih hrest

/-- Reading an object after the creation of the property `k`. -/
theorem lookup_ownInsert {α : Type} (o : List (String × α)) (k : String) (v : α)
    (hk : o.lookup k = none) (k' : String) :
    (ownInsert o k v).lookup k' = if k' = k then some v else o.lookup k' := by
  unfold ownInsert
  split
  · exact lookup_insertIndexKey _ _ _ _ hk _
  · exact lookup_append_single _ _ _ hk _

/-- Reading an object after the replacement of the value of `k`. -/
theorem lookup_ownModify {α : Type} (k : String) (f : α → α) (o : List (String × α))
    (k' : String) :
    (ownModify k f o).lookup k' = if k' = k then (o.lookup k).map f else o.lookup k' := by
  induction o with
  | nil => simp [ownModify, List.lookup]
  | cons q rest ih =>
    obtain ⟨k1, v1⟩ := q
    unfold ownModify
    by_cases h1 : k1 = k
    · subst h1
      rw [if_pos rfl]
      by_cases h : k' = k1
      · subst h; simp [List.lookup]
      · have : (k' == k1) = false := by simpa using h
        simp [List.lookup, this, h]
    · rw [if_neg h1]
      by_cases h : k' = k1
      · subst h
        have : k' ≠ k := h1
        simp [List.lookup, this]
      · have hb : (k' == k1) = false := by simpa using h
        have hk : (k == k1) = false := by simpa using (fun h2 : k = k1 => h1 h2.symm)
        simp only [List.lookup, hb, hk]
        exact ih

/-- Reading an object after the assignment `o[k] = v`. -/
theorem lookup_ownSet {α : Type} (o : List (String × α)) (k : String) (v : α)
    (k' : String) :
    (ownSet o k v).lookup k' = if k' = k then some v else o.lookup k' := by
  unfold ownSet
  split
  · rename_i x hx
    rw [lookup_ownModify, hx]
    rfl
  · rename_i hx
    exact lookup_ownInsert _ _ _ hx _

theorem Graph.adj?_push (g : Graph) (v : String) (e : Edge) (u : String) :
    (g.push v e).adj? u = if u = v then (g.adj? v).map (fun a => a ++ [e]) else g.adj? u :=
  lookup_ownModify _ _ _ _

/-! ## Properties of `addVertex` and `addEdge` -/

/-- A call of `addVertex` that is not a no-op registers the vertex with an empty adjacency
list and the given name, and leaves the other entries alone. -/
theorem addVertex_new {g : Graph} {vertex : String} (name : String)
    (h1 : g.adj? vertex = none) (h2 : objectPrototypeKeys.contains vertex = false) :
    (∀ u, (g.addVertex vertex name).adj? u = if u = vertex then some [] else g.adj? u) ∧
    (∀ u, (g.addVertex vertex name).locations.lookup u =
      if u = vertex then some name else g.locations.lookup u) := by
  unfold Graph.addVertex
  rw [h1, h2]
  simp only [Option.isSome_none, Bool.or_self, Bool.false_eq_true, if_false]
  exact ⟨fun u => lookup_ownInsert _ _ _ h1 u, fun u => lookup_ownSet _ _ _ u⟩

/-- C14. A call `addVertex(id, n2)` on a graph in which `id` is already a vertex leaves the
graph unchanged, adjacency list and registered name included; hence `addVertex(id, n1)`
followed by `addVertex(id, n2)` gives the same graph as `addVertex(id, n1)` alone, and
when the first call registers `id` the name stays `n1` and the adjacency list empty. -/
theorem addVertex_idempotent (g : Graph) (id n1 n2 : String) :
    (g.Registered id → g.addVertex id n2 = g) ∧
    (g.addVertex id n1).addVertex id n2 = g.addVertex id n1 ∧
    (¬ g.Registered id → objectPrototypeKeys.contains id = false →
      ((g.addVertex id n1).addVertex id n2).locations.lookup id = some n1 ∧
      ((g.addVertex id n1).addVertex id n2).adj? id = some []) := by
  have hreg : ∀ (g' : Graph) (n : String), g'.Registered id → g'.addVertex id n = g' := by
    intro g' n h
    obtain ⟨a, ha⟩ := Graph.registered_iff.mp h
    unfold Graph.addVertex
    rw [ha]
    rfl
  have hsecond : (g.addVertex id n1).addVertex id n2 = g.addVertex id n1 := by
    by_cases hr : g.Registered id
    · rw [hreg g n1 hr, hreg g n2 hr]
    · have hnone : g.adj? id = none := by
        cases h : g.adj? id with
        | none => rfl
        | some a => exact absurd (Graph.registered_iff.mpr ⟨a, h⟩) hr
      by_cases hp : objectPrototypeKeys.contains id = true
      · have : ∀ n, g.addVertex id n = g := by
          intro n
          unfold Graph.addVertex
          rw [hp]
          simp
        rw [this n1, this n2]
      · have hp' : objectPrototypeKeys.contains id = false := by simpa using hp
        apply hreg
        apply Graph.registered_iff.mpr
        exact ⟨[], by rw [(addVertex_new n1 hnone hp').1 id, if_pos rfl]⟩
  refine ⟨hreg g n2, hsecond, ?_⟩
  intro hr hp
  have hnone : g.adj? id = none := by
    cases h : g.adj? id with
    | none => rfl
    | some a => exact absurd (Graph.registered_iff.mpr ⟨a, h⟩) hr
  rw [hsecond]
  exact ⟨by rw [(addVertex_new n1 hnone hp).2 id, if_pos rfl],
    by rw [(addVertex_new n1 hnone hp).1 id, if_pos rfl]⟩

/-- In `triangle`, where `a` is a vertex, another `addVertex('a', ...)` changes nothing. -/
theorem addVertex_idempotent_witness :
    triangle.addVertex "a" "Other" = triangle ∧
    ((Graph.empty.addVertex "a" "A").addVertex "a" "Other").locations.lookup "a" = some "A" :=
  ⟨(addVertex_idempotent triangle "a" "A" "Other").1 (by decide),
    ((addVertex_idempotent Graph.empty "a" "A" "Other").2.2 (by decide) (by decide)).1⟩

/-- The adjacency lists after a call of `addEdge` that returns: the list of `vertex1` has
gained the entry for `vertex2`, then the list of `vertex2` the entry for `vertex1`. -/
theorem addEdge_ok {g g' : Graph} {vertex1 vertex2 : String} {weight : Int}
    (h : g.addEdge vertex1 vertex2 weight = .ok g') :
    (∃ l1 l2, g.adj? vertex1 = some l1 ∧ g.adj? vertex2 = some l2) ∧
    (∀ u, (g'.adj? u).getD [] = (g.adj? u).getD [] ++
      (if u = vertex1 then [⟨vertex2, weight⟩] else []) ++
      (if u = vertex2 then [⟨vertex1, weight⟩] else [])) ∧
    (∀ u, (g'.adj? u).isSome = (g.adj? u).isSome) ∧
    g'.locations = g.locations ∧ g'.keys = g.keys := by
  unfold Graph.addEdge at h
  split at h
  · cases h
  · rename_i l1 h1
    dsimp only at h
    split at h
    · cases h
    · rename_i l2' h2
      cases h
      have h2g : ∃ l2, g.adj? vertex2 = some l2 := by
        rw [Graph.adj?_push] at h2
        by_cases hv : vertex2 = vertex1
        · exact ⟨l1, by rw [hv]; exact h1⟩
        · rw [if_neg hv] at h2
          exact ⟨l2', h2⟩
      obtain ⟨l2, h2g⟩ := h2g
      refine ⟨⟨l1, l2, h1, h2g⟩, ?_, ?_, rfl, ?_⟩
      · intro u
        rw [Graph.adj?_push, Graph.adj?_push, Graph.adj?_push]
        by_cases hu2 : u = vertex2
        · by_cases hu1 : u = vertex1
          · have : vertex2 = vertex1 := hu2.symm.trans hu1
            subst hu1
            subst this
            simp [h1]
          · have : vertex2 ≠ vertex1 := fun h => hu1 (hu2.trans h)
            subst hu2
            simp [this, h2g]
        · by_cases hu1 : u = vertex1
          · subst hu1
            simp [hu2, h1]
          · simp [hu1, hu2]
      · intro u
        rw [Graph.adj?_push, Graph.adj?_push, Graph.adj?_push]
        by_cases hu2 : u = vertex2
        · by_cases hu1 : u = vertex1
          · have : vertex2 = vertex1 := hu2.symm.trans hu1
            subst hu1
            subst this
            simp [h1]
          · have : vertex2 ≠ vertex1 := fun h => hu1 (hu2.trans h)
            subst hu2
            simp [this, h2g]
        · by_cases hu1 : u = vertex1
          · subst hu1
            simp [hu2, h1]
          · simp [hu1, hu2]
      · rw [Graph.keys_push, Graph.keys_push]

/-- A call of `addEdge` on registered endpoints returns. -/
theorem addEdge_returns {g : Graph} {a b : String} {la lb : List Edge}
    (ha : g.adj? a = some la) (hb : g.adj? b = some lb) (w : Int) :
    ∃ g', g.addEdge a b w = .ok g' := by
  unfold Graph.addEdge
  rw [ha]
  dsimp only
  have : ∃ l, (g.push a ⟨b, w⟩).adj? b = some l := by
    rw [Graph.adj?_push]
    by_cases h : b = a
    · rw [if_pos h, ha]; exact ⟨_, rfl⟩
    · rw [if_neg h]; exact ⟨lb, hb⟩
  obtain ⟨l, hl⟩ := this
  rw [hl]
  exact ⟨_, rfl⟩

theorem getD_eq_some {α : Type} {o : Option (List α)} {l : List α}
    (h1 : o.getD [] = l) (h2 : o.isSome = true) : o = some l := by
  cases o with
  | none => simp at h2
  | some x => simpa using h1

/-- C15 (amended). For a graph with registered vertices `a` and `b` and a weight `w`,
`addEdge(a, b, w)` returns; when `a` and `b` are distinct, the adjacency list of `a` is its
previous list with the entry for `b` appended and the adjacency list of `b` is its previous
list with the entry for `a` appended; when `a` is `b`, the entry is appended twice to the
list of `a`; the adjacency lists of all other vertices, the set of vertices and the whole
name mapping are unchanged. -/
theorem addEdge_effect (g : Graph) (a b : String) (w : Int) (la lb : List Edge)
    (ha : g.adj? a = some la) (hb : g.adj? b = some lb) :
    ∃ g', g.addEdge a b w = .ok g' ∧
      (a ≠ b → g'.adj? a = some (la ++ [⟨b, w⟩]) ∧ g'.adj? b = some (lb ++ [⟨a, w⟩])) ∧
      (a = b → g'.adj? a = some (la ++ [⟨a, w⟩, ⟨a, w⟩])) ∧
      (∀ v, v ≠ a → v ≠ b → g'.adj? v = g.adj? v) ∧
      g'.locations = g.locations ∧ g'.keys = g.keys := by
  obtain ⟨g', hg'⟩ := addEdge_returns ha hb w
  obtain ⟨_, hadj, hsome, hloc, hkeys⟩ := addEdge_ok hg'
  refine ⟨g', hg', ?_, ?_, ?_, hloc, hkeys⟩
  · intro hab
    constructor
    · apply getD_eq_some _ (by rw [hsome, ha]; rfl)
      rw [hadj a, ha]
      simp [hab]
    · apply getD_eq_some _ (by rw [hsome, hb]; rfl)
      rw [hadj b, hb]
      simp [Ne.symm hab]
  · intro hab
    subst hab
    apply getD_eq_some _ (by rw [hsome, ha]; rfl)
    rw [hadj a, ha]
    simp
  · intro v hva hvb
    have h1 := hadj v
    have h2 := hsome v
    simp only [hva, hvb, if_false, List.append_nil] at h1
    cases hv : g.adj? v with
    | none =>
      rw [hv] at h2
      cases hv' : g'.adj? v with
      | none => rfl
      | some x => rw [hv'] at h2; simp at h2
    | some x =>
      rw [hv] at h1 h2
      exact getD_eq_some h1 h2

/-- In `island`, `addEdge('a', 'c', 3)` appends one entry to the lists of `a` and `c`. -/
theorem addEdge_effect_witness :
    ∃ g', island.addEdge "a" "c" 3 = .ok g' ∧
      ("a" ≠ "c" → g'.adj? "a" = some ([⟨"b", 5⟩] ++ [⟨"c", 3⟩]) ∧
        g'.adj? "c" = some ([] ++ [⟨"a", 3⟩])) ∧
      ("a" = "c" → g'.adj? "a" = some ([⟨"b", 5⟩] ++ [⟨"a", 3⟩, ⟨"a", 3⟩])) ∧
      (∀ v, v ≠ "a" → v ≠ "c" → g'.adj? v = island.adj? v) ∧
      g'.locations = island.locations ∧ g'.keys = island.keys :=
  addEdge_effect island "a" "c" 3 [⟨"b", 5⟩] [] rfl rfl

/-- C15 (counterexample). On the graph with the single registered vertex `a`, whose
adjacency list is empty, `addEdge('a', 'a', 1)` leaves `a` with two entries, not with its
previous list and one entry appended. -/
theorem addEdge_self_loop_twice :
    (Graph.empty.addVertex "a" "A").adj? "a" = some [] ∧
    ∃ g', (Graph.empty.addVertex "a" "A").addEdge "a" "a" 1 = .ok g' ∧
      g'.adj? "a" = some [⟨"a", 1⟩, ⟨"a", 1⟩] ∧
      g'.adj? "a" ≠ some ([] ++ [⟨"a", 1⟩]) :=
  ⟨rfl, _, rfl, rfl, by decide⟩

/-- In a built graph the entries naming `b` in the list of `a` and the entries naming `a`
in the list of `b`, with the same weight, are equally many. -/
theorem built_count_symm {g : Graph} (hB : g.Built) :
    ∀ a b : String, ∀ w : Int, a ≠ b →
      ((g.adj? a).getD []).count ⟨b, w⟩ = ((g.adj? b).getD []).count ⟨a, w⟩ := by
  induction hB with
  | empty => intro a b w _; rfl
  | @addVertex g vertex name hB ih =>
    intro a b w hab
    by_cases hno : (g.adj? vertex).isSome || objectPrototypeKeys.contains vertex
    · have : g.addVertex vertex name = g := by
        unfold Graph.addVertex
        rw [if_pos hno]
      rw [this]
      exact ih a b w hab
    · have h1 : g.adj? vertex = none := by
        cases h : g.adj? vertex with
        | none => rfl
        | some x => rw [h] at hno; simp at hno
      have h2 : objectPrototypeKeys.contains vertex = false := by
        cases h : objectPrototypeKeys.contains vertex with
        | false => rfl
        | true => rw [h] at hno; simp at hno
      have hadj := (addVertex_new name h1 h2).1
      have hzero : ∀ u w', ((g.adj? u).getD []).count ⟨vertex, w'⟩ = 0 := by
        intro u w'
        rw [List.count_eq_zero]
        intro hmem
        cases hu : g.adj? u with
        | none => rw [hu] at hmem; simp at hmem
        | some l =>
          rw [hu] at hmem
          have hreg := hB.closed.registered hu hmem
          obtain ⟨x, hx⟩ := Graph.registered_iff.mp hreg
          have hx' : g.adj? vertex = some x := hx
          rw [h1] at hx'
          cases hx'
      rw [hadj a, hadj b]
      by_cases ha : a = vertex
      · have hb : b ≠ vertex := fun h => hab (ha.trans h.symm)
        rw [if_pos ha, if_neg hb, ha]
        simp [hzero]
      · by_cases hb : b = vertex
        · rw [if_neg ha, if_pos hb, hb]
          simp [hzero]
        · rw [if_neg ha, if_neg hb]
          exact ih a b w hab
  | @addEdge g g' vertex1 vertex2 weight _ h ih =>
    intro a b w hab
    obtain ⟨_, hadj, _, _, _⟩ := addEdge_ok h
    rw [hadj a, hadj b]
    simp only [List.count_append, ih a b w hab]
    have e1 : ∀ x y : String, x ≠ y →
        (if x = vertex1 then [(⟨vertex2, weight⟩ : Edge)] else []).count ⟨y, w⟩ =
        (if y = vertex2 then [(⟨vertex1, weight⟩ : Edge)] else []).count ⟨x, w⟩ := by
      intro x y hxy
      by_cases hx : x = vertex1
      · by_cases hy : y = vertex2
        · subst hx; subst hy
          by_cases hw : w = weight
          · subst hw; simp
          · have hw' : weight ≠ w := fun h => hw h.symm
            simp [List.count_cons, hw, hw']
        · have : vertex2 ≠ y := fun h => hy h.symm
          simp [hx, hy, List.count_cons, this]
      · by_cases hy : y = vertex2
        · have : vertex1 ≠ x := fun h => hx h.symm
          simp [hx, hy, List.count_cons, this]
        · simp [hx, hy]
    have h1 := e1 a b hab
    have h2 := e1 b a (Ne.symm hab)
    omega

/-- C16. In every graph built from the empty graph by calls of `addVertex` and by calls of
`addEdge` on registered endpoints, every node named in an adjacency list is a registered
vertex, and for all distinct `a`, `b` and every weight `w` the entry `(b, w)` occurs in
the adjacency list of `a` exactly as many times as the entry `(a, w)` occurs in the
adjacency list of `b`. -/
theorem built_no_dangling_symmetric (g : Graph) (hB : g.Built) :
    (∀ u l, g.adj? u = some l → ∀ e ∈ l, g.Registered e.node) ∧
    ∀ a b : String, ∀ w : Int, a ≠ b →
      ((g.adj? a).getD []).count ⟨b, w⟩ = ((g.adj? b).getD []).count ⟨a, w⟩ :=
  ⟨fun _ _ hu _ he => hB.closed.registered hu he, built_count_symm hB⟩

/-- In `triangle` no edge dangles and the entries of `a` and `b` mirror each other. -/
theorem built_no_dangling_symmetric_witness :
    (∀ u l, triangle.adj? u = some l → ∀ e ∈ l, triangle.Registered e.node) ∧
    ∀ a b : String, ∀ w : Int, a ≠ b →
      ((triangle.adj? a).getD []).count ⟨b, w⟩ = ((triangle.adj? b).getD []).count ⟨a, w⟩ :=
  built_no_dangling_symmetric triangle triangle_built

/-! ## The scenario of three locations -/

/-- C12. The graph with the locations `1` (Main Gate), `2` (Library), `3` (Cafeteria) and
the edges `(1, 2, 150)` and `(2, 3, 120)` is `threeLocations`; on it `dijkstra('1', '3')`
returns distance 270 and path `1`, `2`, `3`, and `findAllPaths('1', '3', 10)` returns
exactly one element, with that path and distance 270. -/
theorem three_locations_scenario :
    (∃ g1, (Graph.empty.addVertices
        [("1", "Main Gate"), ("2", "Library"), ("3", "Cafeteria")]).addEdge "1" "2" 150
          = .ok g1 ∧
      g1.addEdge "2" "3" 120 = .ok threeLocations) ∧
    (∀ fuel, 10 ≤ fuel → threeLocations.dijkstra "1" "3" fuel =
      some ⟨some (JsNum.fin 270), ["1", "2", "3"]⟩) ∧
    threeLocations.findAllPaths "1" "3" (some 10) = .ok [⟨["1", "2", "3"], 270⟩] :=
  ⟨⟨_, rfl, rfl⟩, dijkstra_mono (show threeLocations.dijkstra "1" "3" 10 = some _ from rfl),
    rfl⟩

/-- The scenario at the fuel 10: the distance 270 and the path `1`, `2`, `3`. -/
theorem three_locations_scenario_witness :
    threeLocations.dijkstra "1" "3" 10 = some ⟨some (JsNum.fin 270), ["1", "2", "3"]⟩ :=
  three_locations_scenario.2.1 10 (le_refl 10)

/-! ## Properties of `getPathDetail` -/

theorem foldl_add_eq_sum {α : Type} (f : α → Int) (l : List α) :
    ∀ a : Int, l.foldl (fun total p => total + f p) a = a + (l.map f).sum := by
  induction l with
  | nil => intro a; simp
  | cons x l ih =>
    intro a
    rw [List.foldl_cons, ih, List.map_cons, List.sum_cons]
    ring

theorem totalTime_eq_sum (pathDetails : List (String × Detail)) (path : List String) :
    totalTime pathDetails path =
      ((consecutivePairs path).map (fun p => (getPathDetail pathDetails p.1 p.2).time)).sum := by
  unfold totalTime
  rw [foldl_add_eq_sum]
  simp

theorem stepDistanceSum_eq_sum (pathDetails : List (String × Detail)) (path : List String) :
    stepDistanceSum pathDetails path =
      ((consecutivePairs path).map
        (fun p => (getPathDetail pathDetails p.1 p.2).distance)).sum := by
  unfold stepDistanceSum
  rw [foldl_add_eq_sum]
  simp

/-- C20. For a pair of ids without entry in the detail table, `getPathDetail` returns
`{ distance: 0, time: 0 }`; so the total time computed by the loop of `displayRoute` and
`createPathCard` is the sum of the times of the traversed pairs that have an entry, and a
first pair without entry can be dropped from the path without changing the total. -/
theorem getPathDetail_missing (pathDetails : List (String × Detail)) :
    (∀ fromId toId, pathDetails.lookup (detailKey fromId toId) = none →
      getPathDetail pathDetails fromId toId = ⟨0, 0⟩) ∧
    (∀ path, totalTime pathDetails path =
      (((consecutivePairs path).filterMap
        (fun p => pathDetails.lookup (detailKey p.1 p.2))).map Detail.time).sum) ∧
    (∀ a b rest, pathDetails.lookup (detailKey a b) = none →
      totalTime pathDetails (a :: b :: rest) = totalTime pathDetails (b :: rest)) := by
  have h1 : ∀ fromId toId, pathDetails.lookup (detailKey fromId toId) = none →
      getPathDetail pathDetails fromId toId = ⟨0, 0⟩ := by
    intro fromId toId h
    unfold getPathDetail
    rw [h]
  refine ⟨h1, ?_, ?_⟩
  · intro path
    rw [totalTime_eq_sum]
    generalize consecutivePairs path = l
    induction l with
    | nil => rfl
    | cons p l ih =>
      rw [List.map_cons, List.sum_cons, ih]
      cases h : pathDetails.lookup (detailKey p.1 p.2) with
      | none =>
        rw [h1 _ _ h]
        simp only [List.filterMap_cons, h]
        simp
      | some d =>
        simp only [List.filterMap_cons, h, List.map_cons, List.sum_cons]
        unfold getPathDetail
        rw [h]
  · intro a b rest h
    rw [totalTime_eq_sum, totalTime_eq_sum]
    show (List.map _ ((a, b) :: consecutivePairs (b :: rest))).sum = _
    rw [List.map_cons, List.sum_cons, h1 a b h]
    simp

/-- With the details of `trianglePaths`, the pair `a`, `x` has no entry and adds nothing to
the total time of the route `a`, `x`, `b`, ... -/
theorem getPathDetail_missing_witness :
    getPathDetail (buildPathDetails trianglePaths) "a" "x" = ⟨0, 0⟩ ∧
    totalTime (buildPathDetails trianglePaths) ["a", "x", "b", "c"] =
      totalTime (buildPathDetails trianglePaths) ["x", "b", "c"] :=
  ⟨(getPathDetail_missing (buildPathDetails trianglePaths)).1 "a" "x" (by decide),
    (getPathDetail_missing (buildPathDetails trianglePaths)).2.2 "a" "x" ["b", "c"]
      (by decide)⟩

/-! ## Properties of `getLocationName` -/

/-- C18 (failing input). On the empty graph, where no vertex was ever registered,
`getLocationName('constructor')` is the function inherited from `Object.prototype`, not
the sentinel `'Unknown'`; and a vertex registered with the empty name reads `'Unknown'`. -/
theorem getLocationName_inherited :
    ¬ Graph.empty.Registered "constructor" ∧
    Graph.empty.getLocationName "constructor" = .inherited "constructor" ∧
    Graph.empty.getLocationName "constructor" ≠ .text "Unknown" ∧
    (Graph.empty.addVertex "x" "").getLocationName "x" = .text "Unknown" :=
  ⟨by decide, rfl, by decide, rfl⟩

/-! ## Properties of `PriorityQueue` -/

/-- Sorting a sorted list with one more element pushed at its end puts that element behind
every element not above it and keeps the others in their order: the sort is stable. -/
theorem insertionSort_push {β : Type} (r : β → β → Prop) [DecidableRel r]
    (htotal : ∀ a b, r a b ∨ r b a) (htrans : ∀ a b c, r a b → r b c → r a c) (x : β) :
    ∀ l : List β, l.Sorted r →
      List.insertionSort r (l ++ [x]) =
        l.filter (fun a => decide (r a x)) ++ x :: l.filter (fun a => !decide (r a x)) := by
  intro l
  induction l with
  | nil => intro _; rfl
  | cons a l ih =>
    intro hs
    have hs' : l.Sorted r := hs.of_cons
    have hal : ∀ b ∈ l, r a b := fun b hb => List.rel_of_sorted_cons hs b hb
    rw [List.cons_append, List.insertionSort, ih hs']
    by_cases hax : r a x
    · have hf1 : (a :: l).filter (fun a => decide (r a x)) =
          a :: l.filter (fun a => decide (r a x)) := by
        simp [List.filter_cons, hax]
      have hf2 : (a :: l).filter (fun a => !decide (r a x)) =
          l.filter (fun a => !decide (r a x)) := by
        simp [List.filter_cons, hax]
      rw [hf1, hf2]
      cases hF : l.filter (fun a => decide (r a x)) with
      | nil =>
        rw [List.nil_append, List.orderedInsert_of_le _ _ hax]
        rfl
      | cons b m =>
        have hb : b ∈ l := by
          have : b ∈ l.filter (fun a => decide (r a x)) := by rw [hF]; exact List.mem_cons_self _ _
          exact (List.mem_filter.mp this).1
        rw [List.cons_append, List.orderedInsert_of_le _ _ (hal b hb)]
        rfl
    · have hxa : r x a := (htotal a x).resolve_left hax
      have hnone : ∀ b ∈ l, ¬ r b x := fun b hb hbx => hax (htrans a b x (hal b hb) hbx)
      have hF : l.filter (fun a => decide (r a x)) = [] := by
        rw [List.filter_eq_nil_iff]
        intro b hb
        simpa using hnone b hb
      have hG : l.filter (fun a => !decide (r a x)) = l := by
        rw [List.filter_eq_self]
        intro b hb
        simpa using hnone b hb
      have hf1 : (a :: l).filter (fun a => decide (r a x)) = [] := by
        simp [List.filter_cons, hax, hF]
      have hf2 : (a :: l).filter (fun a => !decide (r a x)) = a :: l := by
        simp [List.filter_cons, hax, hG]
      rw [hf1, hf2, hF, hG, List.nil_append, List.nil_append]
      rw [List.orderedInsert, if_neg hax]
      congr 1
      cases l with
      | nil => rfl
      | cons b m => exact List.orderedInsert_of_le _ _ (hal b (List.mem_cons_self _ _))

/-- The stamped queue lists, with their stamps, the entries of the queue. -/
theorem stampedApply_fst (s : List (QEntry × Nat)) (clock : Nat) (op : QueueOp) :
    (stampedApply s clock op).map Prod.fst =
      ((⟨s.map Prod.fst⟩ : PriorityQueue).apply op).values := by
  cases op with
  | enqueue val priority =>
    show (List.insertionSort _ (s ++ [(⟨val, priority⟩, clock)])).map Prod.fst =
      List.insertionSort (fun a b : QEntry => a.priority ≤ b.priority)
        (s.map Prod.fst ++ [⟨val, priority⟩])
    rw [List.map_insertionSort (fun a b : QEntry × Nat => a.1.priority ≤ b.1.priority)
      (fun a b : QEntry => a.priority ≤ b.priority) Prod.fst _ (fun a _ b _ => Iff.rfl)]
    simp
  | dequeue =>
    show s.tail.map Prod.fst = (s.map Prod.fst).tail
    cases s <;> rfl

theorem stampedRun_fst (ops : List QueueOp) :
    ∀ (s : List (QEntry × Nat)) (clock : Nat),
      (stampedRun s clock ops).map Prod.fst =
        ((⟨s.map Prod.fst⟩ : PriorityQueue).run ops).values := by
  induction ops with
  | nil => intro s clock; rfl
  | cons op ops ih =>
    intro s clock
    rw [stampedRun, ih]
    show _ = (List.foldl PriorityQueue.apply
      ((⟨s.map Prod.fst⟩ : PriorityQueue).apply op) ops).values
    rw [stampedApply_fst]
    rfl

/-- One call keeps the stamped queue in leaving order, with stamps below the clock. -/
theorem stampedApply_before (s : List (QEntry × Nat)) (clock : Nat) (op : QueueOp)
    (h1 : s.Pairwise Before) (h2 : ∀ x ∈ s, x.2 < clock) :
    (stampedApply s clock op).Pairwise Before ∧
    ∀ x ∈ stampedApply s clock op, x.2 < clock + 1 := by
  cases op with
  | dequeue =>
    exact ⟨h1.sublist (List.tail_sublist s),
      fun x hx => Nat.lt_succ_of_lt (h2 x (List.mem_of_mem_tail hx))⟩
  | enqueue val priority =>
    have hsorted : s.Sorted (fun a b : QEntry × Nat => a.1.priority ≤ b.1.priority) := by
      apply h1.imp
      intro a b hab
      rcases hab with h | ⟨h, _⟩
      · exact le_of_lt h
      · exact le_of_eq h
    have heq := insertionSort_push (fun a b : QEntry × Nat => a.1.priority ≤ b.1.priority)
      (fun a b => le_total _ _) (fun a b c => le_trans) (⟨val, priority⟩, clock) s hsorted
    show (List.insertionSort _ (s ++ [(⟨val, priority⟩, clock)])).Pairwise Before ∧
      ∀ x ∈ List.insertionSort _ (s ++ [(⟨val, priority⟩, clock)]), x.2 < clock + 1
    constructor
    · rw [heq, List.pairwise_append]
      refine ⟨h1.sublist (List.filter_sublist _), ?_, ?_⟩
      · rw [List.pairwise_cons]
        refine ⟨?_, h1.sublist (List.filter_sublist _)⟩
        intro b hb
        have hb' := (List.mem_filter.mp hb).2
        left
        simpa using hb'
      · intro a ha b hb
        have ha' : a.1.priority ≤ priority := by simpa using (List.mem_filter.mp ha).2
        rcases List.mem_cons.mp hb with rfl | hb
        · rcases lt_or_eq_of_le ha' with h | h
          · exact Or.inl h
          · exact Or.inr ⟨h, h2 a (List.mem_filter.mp ha).1⟩
        · have hb' : priority < b.1.priority := by simpa using (List.mem_filter.mp hb).2
          exact Or.inl (lt_of_le_of_lt ha' hb')
    · intro x hx
      rw [(List.perm_insertionSort _ _).mem_iff, List.mem_append, List.mem_singleton] at hx
      rcases hx with hx | rfl
      · exact Nat.lt_succ_of_lt (h2 x hx)
      · exact Nat.lt_succ_self _

theorem stampedRun_before (ops : List QueueOp) :
    ∀ (s : List (QEntry × Nat)) (clock : Nat), s.Pairwise Before →
      (∀ x ∈ s, x.2 < clock) →
      (stampedRun s clock ops).Pairwise Before ∧
      ∀ x ∈ stampedRun s clock ops, x.2 < clock + ops.length := by
  induction ops with
  | nil => intro s clock h1 h2; exact ⟨h1, h2⟩
  | cons op ops ih =>
    intro s clock h1 h2
    obtain ⟨i1, i2⟩ := stampedApply_before s clock op h1 h2
    obtain ⟨j1, j2⟩ := ih _ _ i1 i2
    refine ⟨j1, fun x hx => ?_⟩
    have := j2 x hx
    simp only [List.length_cons]
    omega

/-- C17. After every sequence of `enqueue` and `dequeue` calls on a new queue, the entries
of the queue, stamped with the number of the call that enqueued each, stand in leaving
order; so `dequeue` on a non-empty queue removes and returns an entry whose priority is
the minimum of the priorities in the queue (`+Infinity` included) and which, among the
entries of that priority, was enqueued earliest. The queue, hence the extraction order,
is a function of the sequence of calls. -/
theorem dequeue_min_earliest (ops : List QueueOp) :
    (stampedRun [] 0 ops).map Prod.fst = (PriorityQueue.empty.run ops).values ∧
    (stampedRun [] 0 ops).Pairwise Before ∧
    ∀ (e : QEntry) (t : Nat) (rest : List (QEntry × Nat)),
      stampedRun [] 0 ops = (e, t) :: rest →
      (PriorityQueue.empty.run ops).dequeue = (some e, ⟨rest.map Prod.fst⟩) ∧
      (∀ e' ∈ (PriorityQueue.empty.run ops).values, e.priority ≤ e'.priority) ∧
      ∀ x ∈ rest, e.priority < x.1.priority ∨ (e.priority = x.1.priority ∧ t < x.2) := by
  have hfst := stampedRun_fst ops [] 0
  have hfst' : (stampedRun [] 0 ops).map Prod.fst = (PriorityQueue.empty.run ops).values :=
    hfst
  obtain ⟨hbefore, _⟩ := stampedRun_before ops [] 0 List.Pairwise.nil (by simp)
  refine ⟨hfst', hbefore, ?_⟩
  intro e t rest hs
  rw [hs] at hbefore hfst'
  have hrest : ∀ x ∈ rest, Before (e, t) x := fun x hx => List.rel_of_pairwise_cons hbefore hx
  refine ⟨?_, ?_, hrest⟩
  · unfold PriorityQueue.dequeue
    rw [← hfst']
    rfl
  · intro e' he'
    rw [← hfst'] at he'
    rcases List.mem_cons.mp he' with h | h
    · subst h; exact le_refl _
    · obtain ⟨x, hx, rfl⟩ := List.mem_map.mp h
      rcases hrest x hx with h1 | ⟨h1, _⟩
      · exact le_of_lt h1
      · exact le_of_eq h1

/-- Two entries of priority 5 and one of priority `+Infinity`: the first `dequeue`
returns `u`, enqueued before `v`. -/
theorem dequeue_min_earliest_witness :
    (PriorityQueue.empty.run
      [.enqueue "w" JsNum.inf, .enqueue "u" (JsNum.fin 5), .enqueue "v" (JsNum.fin 5)]).dequeue
      = (some ⟨"u", JsNum.fin 5⟩, ⟨[⟨"v", JsNum.fin 5⟩, ⟨"w", JsNum.inf⟩]⟩) :=
  ((dequeue_min_earliest
    [.enqueue "w" JsNum.inf, .enqueue "u" (JsNum.fin 5), .enqueue "v" (JsNum.fin 5)]).2.2
    ⟨"u", JsNum.fin 5⟩ 1 [(⟨"v", JsNum.fin 5⟩, 2), (⟨"w", JsNum.inf⟩, 0)] rfl).1

/-! ## The keys of `pathDetails` -/

/-- A list is split in one way only at the single occurrence of an element. -/
theorem append_cons_inj {α : Type} (c : α) :
    ∀ (l1 l2 r1 r2 : List α), c ∉ l1 → c ∉ r1 → l1 ++ c :: r1 = l2 ++ c :: r2 →
      l1 = l2 ∧ r1 = r2 := by
  intro l1
  induction l1 with
  | nil =>
    intro l2 r1 r2 _ hr h
    cases l2 with
    | nil => exact ⟨rfl, by simpa using h⟩
    | cons x l2 =>
      exfalso
      simp only [List.nil_append, List.cons_append, List.cons.injEq] at h
      apply hr
      rw [h.2]
      simp
  | cons y l1 ih =>
    intro l2 r1 r2 hl hr h
    cases l2 with
    | nil =>
      exfalso
      simp only [List.nil_append, List.cons_append, List.cons.injEq] at h
      apply hl
      rw [h.1]
      exact List.mem_cons_self _ _
    | cons x l2 =>
      simp only [List.cons_append, List.cons.injEq] at h
      obtain ⟨h1, h2⟩ := ih l2 r1 r2 (fun hc => hl (List.mem_cons_of_mem _ hc)) hr h.2
      exact ⟨by rw [h.1, h1], h2⟩

/-- The key of a pair of hyphen-free identifiers is the key of no other pair. -/
theorem detailKey_inj {u v a b : String} (hu : '-' ∉ u.data) (hv : '-' ∉ v.data)
    (h : detailKey u v = detailKey a b) : u = a ∧ v = b := by
  have hd : u.data ++ '-' :: v.data = a.data ++ '-' :: b.data := by
    have := congrArg String.data h
    simpa [detailKey, String.data_append] using this
  obtain ⟨h1, h2⟩ := append_cons_inj '-' _ _ _ _ hu hv hd
  exact ⟨String.ext h1, String.ext h2⟩

theorem detailKey_eq_iff {u v a b : String} (hu : '-' ∉ u.data) (hv : '-' ∉ v.data) :
    detailKey a b = detailKey u v ↔ a = u ∧ b = v := by
  constructor
  · intro h
    obtain ⟨h1, h2⟩ := detailKey_inj hu hv h.symm
    exact ⟨h1.symm, h2.symm⟩
  · rintro ⟨rfl, rfl⟩; rfl

/-- Reading `pathDetails` after one pass of the loop that fills it. -/
theorem lookup_addPathDetail (table : List (String × Detail)) (p : PathEntry) (k : String) :
    (addPathDetail table p).lookup k =
      if k = detailKey p.toId p.fromId then some ⟨p.distance, p.time⟩
      else if k = detailKey p.fromId p.toId then some ⟨p.distance, p.time⟩
      else table.lookup k := by
  unfold addPathDetail
  rw [lookup_ownSet, lookup_ownSet]

/-- When the identifiers of the edge list are hyphen-free, the two orderings of every pair
read the same entry of the table at every stage of its construction. -/
theorem lookup_foldl_symm (paths : List PathEntry) (hfree : HyphenFree paths) (a b : String) :
    ∀ table : List (String × Detail),
      table.lookup (detailKey a b) = table.lookup (detailKey b a) →
      (paths.foldl addPathDetail table).lookup (detailKey a b) =
        (paths.foldl addPathDetail table).lookup (detailKey b a) := by
  induction paths with
  | nil => intro table h; exact h
  | cons p paths ih =>
    intro table h
    rw [List.foldl_cons]
    apply ih (fun q hq => hfree q (List.mem_cons_of_mem _ hq))
    obtain ⟨hf, ht⟩ := hfree p (List.mem_cons_self _ _)
    rw [lookup_addPathDetail, lookup_addPathDetail]
    simp only [detailKey_eq_iff ht hf, detailKey_eq_iff hf ht]
    by_cases h1 : a = p.toId ∧ b = p.fromId
    · have h1' : b = p.fromId ∧ a = p.toId := ⟨h1.2, h1.1⟩
      rw [if_pos h1, if_pos h1']
      by_cases h2 : b = p.toId ∧ a = p.fromId
      · rw [if_pos h2]
      · rw [if_neg h2]
    · have h1' : ¬ (b = p.fromId ∧ a = p.toId) := fun hc => h1 ⟨hc.2, hc.1⟩
      rw [if_neg h1, if_neg h1']
      by_cases h2 : a = p.fromId ∧ b = p.toId
      · rw [if_pos h2, if_pos ⟨h2.2, h2.1⟩]
      · have h2' : ¬ (b = p.toId ∧ a = p.fromId) := fun hc => h2 ⟨hc.2, hc.1⟩
        rw [if_neg h2, if_neg h2']
        exact h

/-- Every entry of the edge list is present in the table under its two keys. -/
theorem lookup_foldl_present (paths : List PathEntry) :
    ∀ (table : List (String × Detail)) (k : String),
      ((∃ d, table.lookup k = some d) ∨
        ∃ p ∈ paths, k = detailKey p.fromId p.toId ∨ k = detailKey p.toId p.fromId) →
      ∃ d, (paths.foldl addPathDetail table).lookup k = some d := by
  induction paths with
  | nil =>
    intro table k h
    rcases h with h | ⟨p, hp, _⟩
    · exact h
    · cases hp
  | cons p paths ih =>
    intro table k h
    rw [List.foldl_cons]
    apply ih
    by_cases h1 : k = detailKey p.toId p.fromId
    · left; rw [lookup_addPathDetail, if_pos h1]; exact ⟨_, rfl⟩
    · by_cases h2 : k = detailKey p.fromId p.toId
      · left; rw [lookup_addPathDetail, if_neg h1, if_pos h2]; exact ⟨_, rfl⟩
      · rcases h with h | ⟨q, hq, hk⟩
        · left; rw [lookup_addPathDetail, if_neg h1, if_neg h2]; exact h
        · rcases List.mem_cons.mp hq with rfl | hq'
          · rcases hk with hk | hk
            · exact absurd hk h2
            · exact absurd hk h1
          · exact Or.inr ⟨q, hq', hk⟩

/-- Every entry of the table was written by an entry of the edge list. -/
theorem lookup_foldl_sound (paths : List PathEntry) :
    ∀ (table : List (String × Detail)) (k : String) (d : Detail),
      (paths.foldl addPathDetail table).lookup k = some d →
      table.lookup k = some d ∨
      ∃ p ∈ paths, (k = detailKey p.fromId p.toId ∨ k = detailKey p.toId p.fromId) ∧
        d = ⟨p.distance, p.time⟩ := by
  induction paths with
  | nil => intro table k d h; exact Or.inl h
  | cons p paths ih =>
    intro table k d h
    rw [List.foldl_cons] at h
    rcases ih _ k d h with h1 | ⟨q, hq, hk, hd⟩
    · rw [lookup_addPathDetail] at h1
      split at h1
      · rename_i hk
        right
        exact ⟨p, List.mem_cons_self _ _, Or.inr hk, by cases h1; rfl⟩
      · split at h1
        · rename_i hk
          right
          exact ⟨p, List.mem_cons_self _ _, Or.inl hk, by cases h1; rfl⟩
        · exact Or.inl h1
    · exact Or.inr ⟨q, List.mem_cons_of_mem _ hq, hk, hd⟩

/-- C19 (amended). For the detail table built, as `pathDetails` is, from an edge list whose
identifiers contain no hyphen, and for every pair of ids `a` and `b`, `getPathDetail(a, b)`
and `getPathDetail(b, a)` return the same distance and the same time; and every entry of
the edge list has an entry of the table under both orderings of its pair. -/
theorem getPathDetail_symmetric (paths : List PathEntry) (hfree : HyphenFree paths) :
    (∀ a b, getPathDetail (buildPathDetails paths) a b =
      getPathDetail (buildPathDetails paths) b a) ∧
    ∀ p ∈ paths, ∃ d,
      (buildPathDetails paths).lookup (detailKey p.fromId p.toId) = some d ∧
      (buildPathDetails paths).lookup (detailKey p.toId p.fromId) = some d := by
  have hsymm : ∀ a b, (buildPathDetails paths).lookup (detailKey a b) =
      (buildPathDetails paths).lookup (detailKey b a) :=
    fun a b => lookup_foldl_symm paths hfree a b [] rfl
  constructor
  · intro a b
    unfold getPathDetail
    rw [hsymm a b]
  · intro p hp
    obtain ⟨d, hd⟩ := lookup_foldl_present paths [] (detailKey p.fromId p.toId)
      (Or.inr ⟨p, hp, Or.inl rfl⟩)
    exact ⟨d, hd, by rw [← hsymm]; exact hd⟩

theorem trianglePaths_hyphenFree : HyphenFree trianglePaths := by
  unfold HyphenFree trianglePaths
  decide

/-- With the details of `trianglePaths`, the pair `a`, `b` reads the same either way. -/
theorem getPathDetail_symmetric_witness :
    getPathDetail (buildPathDetails trianglePaths) "a" "b" =
      getPathDetail (buildPathDetails trianglePaths) "b" "a" :=
  (getPathDetail_symmetric trianglePaths trianglePaths_hyphenFree).1 "a" "b"

/-- C19 (counterexample). In the table built from `hyphenPaths`, the entries `a-b`, `c` and
`a`, `b-c` share the key `a-b-c`: `getPathDetail('a-b', 'c')` returns the detail of the
second entry and `getPathDetail('c', 'a-b')` the detail of the first. -/
theorem getPathDetail_asymmetric :
    getPathDetail (buildPathDetails hyphenPaths) "a-b" "c" = ⟨7, 70⟩ ∧
    getPathDetail (buildPathDetails hyphenPaths) "c" "a-b" = ⟨5, 50⟩ :=
  ⟨by decide, by decide⟩

/-! ## Routes and `pathDetails` -/

/-- A call of `addVertex` is a no-op or creates a vertex that was absent. -/
theorem addVertex_built_step (g : Graph) (vertex name : String) :
    g.addVertex vertex name = g ∨
    (g.adj? vertex = none ∧ objectPrototypeKeys.contains vertex = false) := by
  by_cases hno : (g.adj? vertex).isSome || objectPrototypeKeys.contains vertex
  · left
    unfold Graph.addVertex
    rw [if_pos hno]
  · right
    simp only [Bool.or_eq_true, not_or, Bool.not_eq_true] at hno
    refine ⟨?_, hno.2⟩
    cases h : g.adj? vertex with
    | none => rfl
    | some a => rw [h] at hno; exact absurd hno.1 (by simp)

/-- The loop over `campusLocations` creates vertices without edges. -/
theorem addVertices_adj (campusLocations : List (String × String)) :
    ∀ g : Graph, (∀ u, (g.adj? u).getD [] = []) →
      ∀ u, (((g.addVertices campusLocations).adj? u).getD [] = []) := by
  induction campusLocations with
  | nil => intro g h; exact h
  | cons p rest ih =>
    intro g h
    unfold Graph.addVertices
    rw [List.foldl_cons]
    apply ih
    intro u
    rcases addVertex_built_step g p.1 p.2 with hs | ⟨h1, h2⟩
    · rw [hs]; exact h u
    · rw [(addVertex_new p.2 h1 h2).1 u]
      split
      · rfl
      · exact h u

theorem addVertices_built (campusLocations : List (String × String)) :
    ∀ g : Graph, g.Built → (g.addVertices campusLocations).Built := by
  induction campusLocations with
  | nil => intro g h; exact h
  | cons p rest ih =>
    intro g h
    unfold Graph.addVertices
    rw [List.foldl_cons]
    exact ih _ (Graph.Built.addVertex p.1 p.2 h)

theorem addEdges_built (campusPaths : List PathEntry) :
    ∀ g g' : Graph, g.Built → g.addEdges campusPaths = .ok g' → g'.Built := by
  induction campusPaths with
  | nil =>
    intro g g' h hg
    cases hg
    exact h
  | cons p rest ih =>
    intro g g' h hg
    unfold Graph.addEdges at hg
    split at hg
    · rename_i g1 h1
      exact ih g1 g' (Graph.Built.addEdge _ _ _ h h1) hg
    · cases hg

/-- Every adjacency entry of the graph after the loop over `campusPaths` was there before
or was pushed for an entry of `campusPaths`, with its distance as weight. -/
theorem addEdges_from (campusPaths : List PathEntry) :
    ∀ (g g' : Graph) (P : PathEntry → Prop), g.addEdges campusPaths = .ok g' →
      (∀ u, ∀ e ∈ (g.adj? u).getD [], ∃ p, P p ∧ p.distance = e.weight ∧
        ((p.fromId = u ∧ p.toId = e.node) ∨ (p.toId = u ∧ p.fromId = e.node))) →
      ∀ u, ∀ e ∈ (g'.adj? u).getD [], ∃ p, (P p ∨ p ∈ campusPaths) ∧ p.distance = e.weight ∧
        ((p.fromId = u ∧ p.toId = e.node) ∨ (p.toId = u ∧ p.fromId = e.node)) := by
  induction campusPaths with
  | nil =>
    intro g g' P hg h u e he
    cases hg
    obtain ⟨p, hp, hrest⟩ := h u e he
    exact ⟨p, Or.inl hp, hrest⟩
  | cons q rest ih =>
    intro g g' P hg h u e he
    unfold Graph.addEdges at hg
    split at hg
    · rename_i g1 h1
      have hstep : ∀ u, ∀ e ∈ (g1.adj? u).getD [], ∃ p, (P p ∨ p = q) ∧ p.distance = e.weight ∧
          ((p.fromId = u ∧ p.toId = e.node) ∨ (p.toId = u ∧ p.fromId = e.node)) := by
        intro u e he
        rw [(addEdge_ok h1).2.1 u] at he
        rcases List.mem_append.mp he with he | he
        · rcases List.mem_append.mp he with he | he
          · obtain ⟨p, hp, hrest⟩ := h u e he
            exact ⟨p, Or.inl hp, hrest⟩
          · split at he
            · rename_i hu
              rw [List.mem_singleton] at he
              subst he
              exact ⟨q, Or.inr rfl, rfl, Or.inl ⟨hu.symm, rfl⟩⟩
            · cases he
        · split at he
          · rename_i hu
            rw [List.mem_singleton] at he
            subst he
            exact ⟨q, Or.inr rfl, rfl, Or.inr ⟨hu.symm, rfl⟩⟩
          · cases he
      obtain ⟨p, hp, hrest⟩ := ih g1 g' (fun p => P p ∨ p = q) hg hstep u e he
      refine ⟨p, ?_, hrest⟩
      rcases hp with (hp | hp) | hp
      · exact Or.inl hp
      · exact Or.inr (by rw [hp]; exact List.mem_cons_self _ _)
      · exact Or.inr (List.mem_cons_of_mem _ hp)
    · cases hg

/-- When the identifiers of the edge list are hyphen-free and no unordered pair occurs
twice, the table returns, for the two orderings of the pair of an entry, the distance of
that entry. -/
theorem getPathDetail_of_mem {campusPaths : List PathEntry} (hfree : HyphenFree campusPaths)
    (huniq : campusPaths.Pairwise (fun p q => ¬ SamePair p q))
    {p : PathEntry} (hp : p ∈ campusPaths) {u v : String}
    (huv : (p.fromId = u ∧ p.toId = v) ∨ (p.toId = u ∧ p.fromId = v)) :
    getPathDetail (buildPathDetails campusPaths) u v = ⟨p.distance, p.time⟩ := by
  have hkey : detailKey u v = detailKey p.fromId p.toId ∨
      detailKey u v = detailKey p.toId p.fromId := by
    rcases huv with ⟨rfl, rfl⟩ | ⟨rfl, rfl⟩
    · exact Or.inl rfl
    · exact Or.inr rfl
  obtain ⟨d, hd⟩ := lookup_foldl_present campusPaths [] (detailKey u v) (Or.inr ⟨p, hp, hkey⟩)
  have hd' : (buildPathDetails campusPaths).lookup (detailKey u v) = some d := hd
  unfold getPathDetail
  rw [hd']
  rcases lookup_foldl_sound campusPaths [] _ d hd with h0 | ⟨q, hq, hk, hdq⟩
  · cases h0
  · obtain ⟨hqf, hqt⟩ := hfree q hq
    have hsame : SamePair p q := by
      rcases hk with hk | hk
      · obtain ⟨h1, h2⟩ := detailKey_inj hqf hqt hk.symm
        rcases huv with ⟨h3, h4⟩ | ⟨h3, h4⟩
        · exact Or.inl ⟨by rw [h3, h1], by rw [h4, h2]⟩
        · exact Or.inr ⟨by rw [h4, h2], by rw [h3, h1]⟩
      · obtain ⟨h1, h2⟩ := detailKey_inj hqt hqf hk.symm
        rcases huv with ⟨h3, h4⟩ | ⟨h3, h4⟩
        · exact Or.inr ⟨by rw [h3, h1], by rw [h4, h2]⟩
        · exact Or.inl ⟨by rw [h4, h2], by rw [h3, h1]⟩
    have hpq : p = q := by
      by_contra hne
      have hsymm : Symmetric (fun p q : PathEntry => ¬ SamePair p q) := by
        intro a b hab hba
        apply hab
        rcases hba with ⟨h1, h2⟩ | ⟨h1, h2⟩
        · exact Or.inl ⟨h1.symm, h2.symm⟩
        · exact Or.inr ⟨h2.symm, h1.symm⟩
      exact huniq.forall hsymm hp hq hne hsame
    rw [hdq, hpq]

/-- The distances read from the table along a walk add up to its weight, when the table
returns the weight of every adjacency entry. -/
theorem stepDistanceSum_walk (g : Graph) (pathDetails : List (String × Detail))
    (hdetail : ∀ u, ∀ e ∈ (g.adj? u).getD [],
      (getPathDetail pathDetails u e.node).distance = e.weight) (v : String) :
    ∀ (steps : List Edge) (u : String), g.IsWalk u steps v →
      stepDistanceSum pathDetails (u :: steps.map Edge.node) = walkWeight steps := by
  intro steps
  induction steps with
  | nil =>
    intro u _
    rfl
  | cons e rest ih =>
    intro u hw
    obtain ⟨⟨a, ha, hea⟩, hrest⟩ := hw
    have h1 := ih e.node hrest
    rw [stepDistanceSum_eq_sum] at h1 ⊢
    have hcons : consecutivePairs (u :: (e :: rest).map Edge.node) =
        (u, e.node) :: consecutivePairs (e.node :: rest.map Edge.node) := rfl
    rw [hcons, List.map_cons, List.sum_cons, h1]
    have h2 := hdetail u e (by rw [ha]; exact hea)
    unfold walkWeight
    rw [List.map_cons, List.sum_cons]
    dsimp only
    rw [h2]

/-- C13 (amended). Let the graph be built, as `campusGraph` is, by `addVertex` for every
location and `addEdge` for every entry of an edge list, and the detail table from the same
list, as `pathDetails` is. When the identifiers of the edge list contain no hyphen and no
unordered pair of locations occurs twice in it, every route returned by `findAllPaths` has
as `distance` the sum of the `getPathDetail` distances of its consecutive pairs; and
`findAllPaths` returns for every registered start. -/
theorem route_distance_eq_detail_sum (campusLocations : List (String × String))
    (campusPaths : List PathEntry) (g : Graph)
    (hbuild : (Graph.empty.addVertices campusLocations).addEdges campusPaths = .ok g)
    (hfree : HyphenFree campusPaths)
    (huniq : campusPaths.Pairwise (fun p q => ¬ SamePair p q))
    (start finish : String) (maxDepth : Option Nat) :
    (∀ routes, g.findAllPaths start finish maxDepth = .ok routes →
      ∀ r ∈ routes, r.distance = stepDistanceSum (buildPathDetails campusPaths) r.path) ∧
    (g.Registered start → ∃ routes, g.findAllPaths start finish maxDepth = .ok routes) := by
  have hbuilt : g.Built :=
    addEdges_built campusPaths _ g (addVertices_built campusLocations _ Graph.Built.empty) hbuild
  have hfrom := addEdges_from campusPaths _ g (fun _ => False) hbuild (by
    intro u e he
    rw [addVertices_adj campusLocations Graph.empty (fun _ => rfl) u] at he
    cases he)
  have hdetail : ∀ u, ∀ e ∈ (g.adj? u).getD [],
      (getPathDetail (buildPathDetails campusPaths) u e.node).distance = e.weight := by
    intro u e he
    obtain ⟨p, hp, hw, huv⟩ := hfrom u e he
    rcases hp with hp | hp
    · exact hp.elim
    · rw [getPathDetail_of_mem hfree huniq hp huv]
      exact hw
  constructor
  · intro routes hroutes r hr
    obtain ⟨steps, hwalk, hpath, hdist, _⟩ := findAllPaths_extends hroutes hr
    rw [hpath, hdist]
    have := stepDistanceSum_walk g _ hdetail finish steps start hwalk
    rw [List.singleton_append, this]
    ring
  · intro hs
    exact findAllPaths_returns hbuilt.closed hs finish maxDepth

theorem trianglePaths_uniq : trianglePaths.Pairwise (fun p q => ¬ SamePair p q) := by
  unfold trianglePaths SamePair
  decide

/-- In the triangle, built from `trianglePaths`, the route `a`, `c`, `b` returned by
`findAllPaths` has the sum of its detail distances as distance. -/
theorem route_distance_eq_detail_sum_witness :
    triangle.findAllPaths "a" "b" none = .ok [⟨["a", "c", "b"], 2⟩, ⟨["a", "b"], 10⟩] ∧
    (⟨["a", "c", "b"], 2⟩ : Route).distance =
      stepDistanceSum (buildPathDetails trianglePaths) ["a", "c", "b"] :=
  ⟨rfl, (route_distance_eq_detail_sum [("a", "A"), ("b", "B"), ("c", "C")] trianglePaths
    triangle rfl trianglePaths_hyphenFree trianglePaths_uniq "a" "b" none).1 _ rfl
      ⟨["a", "c", "b"], 2⟩ (List.mem_cons_self _ _)⟩

/-- C13 (counterexample). The graph `hyphenGraph` is built from the edge list `hyphenPaths`,
in which no unordered pair occurs twice; `findAllPaths('a-b', 'c')` returns the single
route `a-b`, `c` of distance 5, and the `getPathDetail` distances along it sum to 7. -/
theorem route_distance_ne_detail_sum :
    (Graph.empty.addVertices hyphenLocations).addEdges hyphenPaths = .ok hyphenGraph ∧
    hyphenPaths.Pairwise (fun p q => ¬ SamePair p q) ∧
    hyphenGraph.findAllPaths "a-b" "c" none = .ok [⟨["a-b", "c"], 5⟩] ∧
    stepDistanceSum (buildPathDetails hyphenPaths) ["a-b", "c"] = 7 := by
  refine ⟨rfl, ?_, rfl, by decide⟩
  unfold hyphenPaths SamePair
  decide

/-! ## Queries with an id that was never added -/

/-- The queue of a state satisfying the invariant holds registered vertices only. -/
theorem Core.entry_registered {g : Graph} {start : String} {s : DijkstraState}
    (h : Core g start s) {q : QEntry} (hq : q ∈ s.pq.values) : g.Registered q.val := by
  obtain ⟨d, hd, _⟩ := h.entry_ge q hq
  exact (h.dom q.val).mpr ⟨d, hd⟩

theorem dijkstraLoop_empty (g : Graph) (finish : String) {s : DijkstraState}
    (hpq : s.pq.values = []) (fuel : Nat) :
    dijkstraLoop g finish (fuel + 1) s = some (s, []) := by
  rw [dijkstraLoop]
  simp [PriorityQueue.isEmpty, hpq]

/-- When `finish` is not registered, the main loop runs, from a state satisfying the
invariant, until the queue is empty, after finitely many passes. -/
theorem dijkstraLoop_drains {g : Graph} (hnn : g.NonNeg) (start : String) {finish : String}
    (hf : ¬ g.Registered finish) :
    ∀ (k m q : Nat) (s : DijkstraState), infCount g s = k → finSum g s = m →
      s.pq.values.length = q → LoopInv g start s →
      ∃ (T : Nat) (sf : DijkstraState),
        LoopInv g start sf ∧ sf.pq.values = [] ∧
        ∀ j, dijkstraLoop g finish (T + 1 + j) s = some (sf, []) := by
  intro k
  induction k using Nat.strong_induction_on with
  | _ k ihk =>
  intro m
  induction m using Nat.strong_induction_on with
  | _ m ihm =>
  intro q
  induction q using Nat.strong_induction_on with
  | _ q ihq =>
  intro s hk hm hq hinv
  cases hpq : s.pq.values with
  | nil =>
    exact ⟨0, s, hinv, hpq, fun j => by
      rw [show 0 + 1 + j = j + 1 by omega]
      exact dijkstraLoop_empty g finish hpq j⟩
  | cons entry rest =>
    have hval : entry.val ≠ finish := by
      intro hc
      apply hf
      rw [← hc]
      exact hinv.1.entry_registered (by rw [hpq]; exact List.mem_cons_self _ _)
    obtain ⟨i1, _, i3⟩ := loopInv_afterPop hnn hinv hpq
    have hres : ∃ (T : Nat) (sf : DijkstraState),
        LoopInv g start sf ∧ sf.pq.values = [] ∧
        ∀ j, dijkstraLoop g finish (T + 1 + j) (afterPop g s entry rest) = some (sf, []) := by
      rcases i3 with ⟨h1, h2, h3⟩ | hprog
      · refine ihq rest.length ?_ _ (by rw [h2, hk]) (by rw [h3, hm]) (by rw [h1]) i1
        rw [← hq, hpq]
        simp
      · rcases hprog with hprog | ⟨hpe, hprog⟩
        · exact ihk _ (by rw [← hk]; exact hprog) _ _ _ rfl rfl rfl i1
        · exact ihm _ (by rw [← hm]; exact hprog) _ _ (by rw [hpe, hk]) rfl rfl i1
    obtain ⟨T', sf, j1, j2, j4⟩ := hres
    refine ⟨T' + 1, sf, j1, j2, fun j => ?_⟩
    rw [show T' + 1 + 1 + j = (T' + 1 + j) + 1 by omega, dijkstraLoop_pop_other g hpq hval]
    exact j4 j

/-- On a graph with non-negative weights, `dijkstra` with a `finish` that is not
registered returns, with no own entry of `distances` under `finish` and with the path
`[start]`. -/
theorem dijkstra_unregistered_finish {g : Graph} (hnn : g.NonNeg) (start : String)
    {finish : String} (hf : ¬ g.Registered finish) :
    ∃ N, ∀ fuel, N ≤ fuel → g.dijkstra start finish fuel = some ⟨none, [start]⟩ := by
  obtain ⟨T, sf, hinv, _, hloop⟩ :=
    dijkstraLoop_drains hnn start hf _ _ _ (dijkstraInit g start) rfl rfl rfl
      (loopInv_init g start)
  have hd : sf.distances finish = none := by
    cases h : sf.distances finish with
    | none => rfl
    | some d => exact absurd ((hinv.1.dom finish).mpr ⟨d, h⟩) hf
  refine ⟨T + 1, fun fuel hfuel => ?_⟩
  obtain ⟨j, rfl⟩ : ∃ j, fuel = T + 1 + j := ⟨fuel - (T + 1), by omega⟩
  unfold Graph.dijkstra
  rw [hloop j]
  simp [hd]

/-- On a graph with non-negative weights, `dijkstra` to a registered `finish` that no walk
from `start` reaches returns distance `Infinity` and the path `[start]`. -/
theorem dijkstra_no_walk {g : Graph} (hnn : g.NonNeg) (start : String) {finish : String}
    (hf : g.Registered finish) (hno : ¬ ∃ steps, g.IsWalk start steps finish) :
    ∃ N, ∀ fuel, N ≤ fuel →
      g.dijkstra start finish fuel = some ⟨some JsNum.inf, [start]⟩ := by
  obtain ⟨N, sf, entry, rest, p, hinv, hpq, hval, ⟨n, hpath⟩, hres⟩ :=
    dijkstra_returns hnn start hf
  obtain ⟨d, hd⟩ := (hinv.1.dom finish).mp hf
  have hdinf : d = JsNum.inf := by
    cases d with
    | inf => rfl
    | fin d0 => exact absurd (by
        obtain ⟨steps, hw, _⟩ := hinv.1.walk finish d0 hd
        exact ⟨steps, hw⟩) hno
  subst hdinf
  have hprev : sf.previous finish = none := by
    cases hp : sf.previous finish with
    | none => rfl
    | some u =>
      obtain ⟨du, dv, a, w, _, hdv, _⟩ := hinv.1.prev_edge finish u hp
      rw [hd] at hdv
      cases hdv
  have hp : p = [] := by
    have h1 := hpath (n + 1) (by omega)
    rw [pathLoop, hprev] at h1
    simpa using h1.symm
  subst hp
  refine ⟨N, fun fuel hfuel => ?_⟩
  rw [hres fuel hfuel, hd]
  rfl

/-- No walk leaves an unregistered id for another node. -/
theorem no_walk_from_unregistered {g : Graph} {start finish : String}
    (hs : ¬ g.Registered start) (hne : finish ≠ start) :
    ¬ ∃ steps, g.IsWalk start steps finish := by
  rintro ⟨steps, hw⟩
  cases steps with
  | nil => exact hne (show start = finish from hw).symm
  | cons e rest =>
    obtain ⟨⟨a, ha, _⟩, _⟩ := hw
    exact hs (Graph.registered_iff.mpr ⟨a, ha⟩)

/-- C11 (amended). On a built graph with non-negative weights, let `unknown` be an id
that was never added and `known` a registered vertex. Then `dijkstra(start, unknown)`
returns for every `start`, with the path `[start]`, and with `distance` undefined when
`unknown` is not a key of `Object.prototype`; `dijkstra(unknown, known)` returns distance
`Infinity` and the path `[unknown]`, as it does for two known locations without route;
`findAllPaths(known, unknown)` returns the empty list, as it does for two known locations
without route; and `findAllPaths(unknown, end)` with another `end` and a depth bound of at
least 1 raises a `TypeError`. -/
theorem unknown_id_results (g : Graph) (hB : g.Built) (hnn : g.NonNeg)
    (known unknown : String) (hk : g.Registered known) (hu : ¬ g.Registered unknown) :
    (∀ start, ∃ (N : Nat) (r : DijkstraResult),
      (∀ fuel, N ≤ fuel → g.dijkstra start unknown fuel = some r) ∧ r.path = [start] ∧
      (objectPrototypeKeys.contains unknown = false → r.distance = none)) ∧
    (∃ N, ∀ fuel, N ≤ fuel →
      g.dijkstra unknown known fuel = some ⟨some JsNum.inf, [unknown]⟩) ∧
    (∀ maxDepth, g.findAllPaths known unknown maxDepth = .ok []) ∧
    (∀ finish maxDepth, finish ≠ unknown → maxDepth ≠ some 0 →
      g.findAllPaths unknown finish maxDepth = .error .typeError) := by
  refine ⟨fun start => ?_, ?_, ?_, ?_⟩
  · obtain ⟨N, hN⟩ := dijkstra_unregistered_finish hnn start hu
    exact ⟨N, ⟨none, [start]⟩, hN, rfl, fun _ => rfl⟩
  · exact dijkstra_no_walk hnn unknown hk
      (no_walk_from_unregistered hu (fun h => hu (h ▸ hk)))
  · intro maxDepth
    obtain ⟨routes, hroutes⟩ := findAllPaths_returns hB.closed hk unknown maxDepth
    rw [hroutes]
    cases routes with
    | nil => rfl
    | cons r tl =>
      exfalso
      obtain ⟨steps, hw, _⟩ := findAllPaths_extends hroutes (List.mem_cons_self r tl)
      have hreg := Graph.IsWalk.nodes_registered hB.closed steps known hw hk
      cases steps with
      | nil => exact hu ((show known = unknown from hw) ▸ hk)
      | cons e rest =>
        exact hu (hreg unknown (List.mem_cons_of_mem _ (hw.target_mem (by simp))))
  · intro finish maxDepth hne hdepth
    have hadj : g.adj? unknown = none := by
      cases h : g.adj? unknown with
      | none => rfl
      | some a => exact absurd (Graph.registered_iff.mpr ⟨a, h⟩) hu
    have hpos : ¬ (1 > maxDepth.getD 10) := by
      cases maxDepth with
      | none => decide
      | some n =>
        have : n ≠ 0 := fun h => hdepth (by rw [h])
        simp only [Option.getD_some]
        omega
    unfold Graph.findAllPaths
    dsimp only
    rw [dfs]
    simp only [List.length_singleton, hpos, if_false, hne.symm, hadj]

/-- In `island`, where `x` was never added: the results for the known vertex `a`. -/
theorem unknown_id_results_witness :
    (∀ start, ∃ (N : Nat) (r : DijkstraResult),
      (∀ fuel, N ≤ fuel → island.dijkstra start "x" fuel = some r) ∧ r.path = [start] ∧
      (objectPrototypeKeys.contains "x" = false → r.distance = none)) ∧
    (∃ N, ∀ fuel, N ≤ fuel →
      island.dijkstra "x" "a" fuel = some ⟨some JsNum.inf, ["x"]⟩) ∧
    (∀ maxDepth, island.findAllPaths "a" "x" maxDepth = .ok []) ∧
    (∀ finish maxDepth, finish ≠ "x" → maxDepth ≠ some 0 →
      island.findAllPaths "x" finish maxDepth = .error .typeError) :=
  unknown_id_results island island_built (by unfold Graph.NonNeg; decide) "a" "x"
    (by decide) (by decide)

/-- C11 (counterexample). In `island` the id `x` was never added, and `a` and `c` are known
locations without route. `findAllPaths('x', 'a')` raises a `TypeError`;
`findAllPaths('a', 'x')` returns the empty list, as `findAllPaths('a', 'c')` does; and
`dijkstra('x', 'a')` returns distance `Infinity` with the path `[start]`, as
`dijkstra('a', 'c')` does. -/
theorem unknown_id_crash_or_no_route :
    ¬ island.Registered "x" ∧
    island.findAllPaths "x" "a" none = .error .typeError ∧
    island.findAllPaths "a" "x" none = .ok [] ∧
    island.findAllPaths "a" "c" none = .ok [] ∧
    island.dijkstra "x" "a" 10 = some ⟨some JsNum.inf, ["x"]⟩ ∧
    island.dijkstra "a" "c" 10 = some ⟨some JsNum.inf, ["a"]⟩ :=
  ⟨by decide, rfl, rfl, rfl, rfl, rfl⟩

/-! ## The names of built graphs -/

/-- In a built graph the ids with an own name are the registered vertices. -/
theorem built_locations {g : Graph} (hB : g.Built) :
    ∀ id, (∃ name, g.locations.lookup id = some name) ↔ g.Registered id := by
  induction hB with
  | empty =>
    intro id
    constructor
    · rintro ⟨name, h⟩; cases h
    · intro h; cases h
  | @addVertex g vertex name _ ih =>
    intro id
    rcases addVertex_built_step g vertex name with hs | ⟨h1, h2⟩
    · rw [hs]; exact ih id
    · obtain ⟨ha, hl⟩ := addVertex_new name h1 h2
      rw [Graph.registered_iff, ha id, hl id]
      by_cases hid : id = vertex
      · simp [hid]
      · simp only [if_neg hid]
        rw [← Graph.registered_iff]
        exact ih id
  | @addEdge g g' vertex1 vertex2 weight _ hok ih =>
    intro id
    obtain ⟨_, _, _, hl, hkeys⟩ := addEdge_ok hok
    rw [hl]
    unfold Graph.Registered
    rw [hkeys]
    exact ih id

/-- On a built graph, `getLocationName(id)` returns the own name of `id` when that name is
not the empty string, every registered vertex has an own name, and an id that is neither
registered nor a key of `Object.prototype` reads `Unknown`. -/
theorem getLocationName_spec {g : Graph} (hB : g.Built) (id : String) :
    (∀ name, g.locations.lookup id = some name → name ≠ "" →
      g.getLocationName id = .text name) ∧
    (g.Registered id → ∃ name, g.locations.lookup id = some name) ∧
    (¬ g.Registered id → objectPrototypeKeys.contains id = false →
      g.getLocationName id = .text "Unknown") := by
  refine ⟨?_, (built_locations hB id).mpr, ?_⟩
  · intro name h hne
    unfold Graph.getLocationName
    rw [h]
    have : truthy name = true := by
      unfold truthy
      simpa using hne
    simp [this]
  · intro hreg hproto
    have hnone : g.locations.lookup id = none := by
      cases h : g.locations.lookup id with
      | none => rfl
      | some name => exact absurd ((built_locations hB id).mp ⟨name, h⟩) hreg
    unfold Graph.getLocationName
    rw [hnone]
    simp only [hproto, Bool.false_eq_true, if_false]

/-! ## The first pass and the end of the main loop of `dijkstra` -/

/-- After the initialisation loop of `dijkstra(start, finish)` with `start` registered, the
queue begins with the entry of `start` at priority 0. -/
theorem dijkstraInit_head (g : Graph) {start : String} (hs : g.Registered start) :
    ∃ rest, (dijkstraInit g start).pq.values = ⟨start, JsNum.fin 0⟩ :: rest := by
  obtain ⟨_, _, h3, h4⟩ := dijkstraInit_fold start g.keys
    ⟨fun _ => none, fun _ => none, PriorityQueue.empty⟩ List.sorted_nil
  have hq : ∀ q, q ∈ (dijkstraInit g start).pq.values ↔
      (q.val ∈ g.keys ∧ q.priority = if q.val = start then JsNum.fin 0 else JsNum.inf) := by
    intro q
    have := h3 q
    simpa [PriorityQueue.empty] using this
  have hsorted : (dijkstraInit g start).pq.values.Sorted (fun a b => a.priority ≤ b.priority) :=
    h4
  have hmem : (⟨start, JsNum.fin 0⟩ : QEntry) ∈ (dijkstraInit g start).pq.values :=
    (hq _).mpr ⟨hs, by simp⟩
  cases hv : (dijkstraInit g start).pq.values with
  | nil => rw [hv] at hmem; cases hmem
  | cons e rest =>
    rw [hv] at hmem hsorted
    have he := (hq e).mp (by rw [hv]; exact List.mem_cons_self _ _)
    have hle : e.priority ≤ JsNum.fin 0 := by
      rcases List.mem_cons.mp hmem with h | h
      · rw [← h]
      · exact List.rel_of_sorted_cons hsorted _ h
    have hval : e.val = start := by
      by_contra hne
      rw [he.2, if_neg hne] at hle
      exact absurd hle (by decide)
    refine ⟨rest, ?_⟩
    have hp : e.priority = JsNum.fin 0 := by rw [he.2, if_pos hval]
    cases e
    simp only at hval hp
    rw [hval, hp]

/-- C21. For a registered vertex `v`, the first entry that `dijkstra(v, v)` extracts from
the queue is `v` itself, at priority 0, the predecessor of `v` is none, and the call
returns distance 0 and the single-node path `[v]`. -/
theorem dijkstra_same_vertex (g : Graph) (v : String) (hv : g.Registered v) :
    (dijkstraInit g v).pq.dequeue.1 = some ⟨v, JsNum.fin 0⟩ ∧
    (dijkstraInit g v).previous v = none ∧
    ∀ fuel, 1 ≤ fuel → g.dijkstra v v fuel = some ⟨some (JsNum.fin 0), [v]⟩ := by
  obtain ⟨rest, hpq⟩ := dijkstraInit_head g hv
  obtain ⟨h1, h2, _, _⟩ := dijkstraInit_fold v g.keys
    ⟨fun _ => none, fun _ => none, PriorityQueue.empty⟩ List.sorted_nil
  have hk : v ∈ g.keys := hv
  have hd : (dijkstraInit g v).distances v = some (JsNum.fin 0) := by
    have := h1 v
    rw [if_pos hk, if_pos rfl] at this
    exact this
  have hp : (dijkstraInit g v).previous v = none := by
    have := h2 v
    rw [if_pos hk] at this
    exact this
  refine ⟨?_, hp, ?_⟩
  · unfold PriorityQueue.dequeue
    rw [hpq]
    rfl
  · intro fuel hfuel
    obtain ⟨f, rfl⟩ : ∃ f, fuel = f + 1 := ⟨fuel - 1, by omega⟩
    unfold Graph.dijkstra
    rw [dijkstraLoop_pop_finish g hpq rfl f, pathLoop, hp]
    simp [hd]

/-- In the triangle, `dijkstra('a', 'a')` returns distance 0 and the path `a`. -/
theorem dijkstra_same_vertex_witness :
    triangle.dijkstra "a" "a" 1 = some ⟨some (JsNum.fin 0), ["a"]⟩ :=
  (dijkstra_same_vertex triangle "a" (by decide)).2.2 1 (le_refl 1)

/-- C22. On a graph whose edge weights are all non-negative, for every `start` and
`finish`, the main loop of `dijkstra` ends, and with it the call: from some number of
iterations on it returns, always the same result, after a last pass at whose head the
queue is empty or its first entry is `finish`. The relaxation of an adjacency entry leaves
the queue alone or enqueues the node of the entry under a distance strictly below its
former one. -/
theorem dijkstra_terminates (g : Graph) (hnn : g.NonNeg) (start finish : String) :
    (∃ (N : Nat) (s : DijkstraState) (r : DijkstraState × List String),
      LoopInv g start s ∧
      (∀ fuel, N ≤ fuel → dijkstraLoop g finish fuel (dijkstraInit g start) = some r) ∧
      ((s.pq.isEmpty = true ∧ r = (s, [])) ∨
        ∃ entry, s.pq.dequeue = (some entry, r.1.pq) ∧ entry.val = finish) ∧
      ∀ fuel, N ≤ fuel → g.dijkstra start finish fuel =
        some ⟨r.1.distances finish, (r.2 ++ [start]).reverse⟩) ∧
    ∀ (smallest : String) (s : DijkstraState) (nextNode : Edge),
      (relaxStep smallest s nextNode).pq = s.pq ∨
      ∃ candidate former, s.distances nextNode.node = some former ∧ candidate < former ∧
        (relaxStep smallest s nextNode).distances nextNode.node = some candidate ∧
        (relaxStep smallest s nextNode).pq = s.pq.enqueue nextNode.node candidate := by
  constructor
  · have hloop : ∃ (N : Nat) (s : DijkstraState) (r : DijkstraState × List String),
        LoopInv g start s ∧
        (∀ fuel, N ≤ fuel → dijkstraLoop g finish fuel (dijkstraInit g start) = some r) ∧
        ((s.pq.isEmpty = true ∧ r = (s, [])) ∨
          ∃ entry, s.pq.dequeue = (some entry, r.1.pq) ∧ entry.val = finish) := by
      by_cases hf : g.Registered finish
      · obtain ⟨T, sf, entry, rest, hinv, hpq, hval, hrun⟩ :=
          dijkstraLoop_reaches hnn start finish _ _ _ (dijkstraInit g start) rfl rfl rfl
            (loopInv_init g start) (finish_mem_init g start hf)
        obtain ⟨n, hn⟩ := hinv.1.prev_chain finish
        obtain ⟨p, hp⟩ := pathLoop_returns hn
        refine ⟨T + 1 + n, sf, ({ sf with pq := ⟨rest⟩ }, p), hinv, ?_, Or.inr ⟨entry, ?_, hval⟩⟩
        · intro fuel hfuel
          obtain ⟨j, rfl⟩ : ∃ j, fuel = T + 1 + j := ⟨fuel - (T + 1), by omega⟩
          rw [hrun j, hp (j + 1) (by omega) []]
          rfl
        · unfold PriorityQueue.dequeue
          rw [hpq]
          rfl
      · obtain ⟨T, sf, hinv, hpq, hrun⟩ :=
          dijkstraLoop_drains hnn start hf _ _ _ (dijkstraInit g start) rfl rfl rfl
            (loopInv_init g start)
        refine ⟨T + 1, sf, (sf, []), hinv, ?_, Or.inl ⟨?_, rfl⟩⟩
        · intro fuel hfuel
          obtain ⟨j, rfl⟩ : ∃ j, fuel = T + 1 + j := ⟨fuel - (T + 1), by omega⟩
          exact hrun j
        · unfold PriorityQueue.isEmpty
          rw [hpq]
          rfl
    obtain ⟨N, s, r, hinv, hrun, hlast⟩ := hloop
    refine ⟨N, s, r, hinv, hrun, hlast, ?_⟩
    intro fuel hfuel
    unfold Graph.dijkstra
    rw [hrun fuel hfuel]
    rfl
  · intro smallest s nextNode
    rcases relaxStep_cases smallest s nextNode with ⟨h, _⟩ | ⟨d, dn, _, hdn, hlt, h⟩
    · left; rw [h]
    · right
      refine ⟨d.addWeight nextNode.weight, dn, hdn, hlt, ?_, ?_⟩
      · rw [h]
        exact Function.update_same _ _ _
      · rw [h]
        rfl

/-- In the triangle, `dijkstra('a', 'b')` returns from some number of iterations on. -/
theorem dijkstra_terminates_witness :
    ∃ (N : Nat) (s : DijkstraState) (r : DijkstraState × List String),
      LoopInv triangle "a" s ∧
      (∀ fuel, N ≤ fuel → dijkstraLoop triangle "b" fuel (dijkstraInit triangle "a") = some r) ∧
      ((s.pq.isEmpty = true ∧ r = (s, [])) ∨
        ∃ entry, s.pq.dequeue = (some entry, r.1.pq) ∧ entry.val = "b") ∧
      ∀ fuel, N ≤ fuel → triangle.dijkstra "a" "b" fuel =
        some ⟨r.1.distances "b", (r.2 ++ ["a"]).reverse⟩ :=
  (dijkstra_terminates triangle triangle_nonNeg "a" "b").1

/-! ## The graph `campusGraph` -/

/-- The two loops that fill `campusGraph` end without a `TypeError`. -/
theorem campusGraph_ok :
    (Graph.empty.addVertices (campusLocations.map fun p => (p.1, p.2.name))).addEdges
      campusPaths = .ok campusGraph := rfl

/-- The graph `campusGraph` is built by `addVertex` and `addEdge` calls. -/
theorem campusGraph_built : campusGraph.Built :=
  addEdges_built campusPaths _ campusGraph
    (addVertices_built _ _ Graph.Built.empty) campusGraph_ok

/-- The distances of `campusPaths` are positive. -/
theorem campusGraph_nonNeg : campusGraph.NonNeg := by
  unfold Graph.NonNeg
  decide

/-- The identifiers of `campusPaths` contain no hyphen and no unordered pair of locations
occurs twice in it. -/
theorem campusPaths_keys :
    HyphenFree campusPaths ∧ campusPaths.Pairwise (fun p q => ¬ SamePair p q) := by
  constructor
  · unfold HyphenFree campusPaths
    decide
  · unfold campusPaths SamePair
    decide

/-- C23. The graph `campusGraph` is the one built from `campusLocations` and `campusPaths`,
its vertices are the locations `1` to `8`, and for every pair of distinct locations `start`
and `finish`, `campusGraph.findAllPaths(start, finish)` with the default depth returns a
non-empty list whose first element has as distance the distance returned by
`campusGraph.dijkstra(start, finish)`. -/
theorem campus_first_route_shortest :
    (Graph.empty.addVertices (campusLocations.map fun p => (p.1, p.2.name))).addEdges
      campusPaths = .ok campusGraph ∧
    campusGraph.keys = ["1", "2", "3", "4", "5", "6", "7", "8"] ∧
    ∀ start ∈ campusGraph.keys, ∀ finish ∈ campusGraph.keys, start ≠ finish →
      ∃ (r : Route) (rest : List Route) (path : List String),
        campusGraph.findAllPaths start finish none = .ok (r :: rest) ∧
        ∀ fuel, 30 ≤ fuel → campusGraph.dijkstra start finish fuel =
          some ⟨some (JsNum.fin r.distance), path⟩ := by
  refine ⟨rfl, rfl, ?_⟩
  intro start hs finish hf hne
  have hk : campusGraph.keys = ["1", "2", "3", "4", "5", "6", "7", "8"] := rfl
  rw [hk] at hs hf
  simp only [List.mem_cons, List.mem_singleton, List.not_mem_nil, or_false] at hs hf
  rcases hs with rfl | rfl | rfl | rfl | rfl | rfl | rfl | rfl <;>
  rcases hf with rfl | rfl | rfl | rfl | rfl | rfl | rfl | rfl <;>
  first
  | exact absurd rfl hne
  | exact ⟨_, _, _, rfl, dijkstra_mono (show campusGraph.dijkstra _ _ 30 = some _ from rfl)⟩

/-- From the main gate `1` to the hostel `8`: seven routes, the first of distance 625. -/
theorem campus_first_route_shortest_witness :
    ∃ (r : Route) (rest : List Route) (path : List String),
      campusGraph.findAllPaths "1" "8" none = .ok (r :: rest) ∧
      ∀ fuel, 30 ≤ fuel → campusGraph.dijkstra "1" "8" fuel =
        some ⟨some (JsNum.fin r.distance), path⟩ :=
  campus_first_route_shortest.2.2 "1" (by decide) "8" (by decide) (by decide)

end Navigator
